import Mathlib

/-!
# Package `employees`: the employee aggregate

A shallow embedding of `src/employees/employee.go`.

* A `time.Time` is an instant: nanoseconds since 1970-01-01T00:00:00 UTC, every
  value being taken in the UTC location (the only location the source names).
* A `float64` number of hours is the rational number it stands for. Sums of
  hours are the exact sums; the running subtraction of `CreateLeaveBalance` is
  rounded to `float64` after every step (`round64`).
* A Go `int` is an `Int`, a `uint` a `Nat`; a slice is a `List`; a pointer that
  may be nil is an `Option`.
* A runtime panic and a returned `error` are the two constructors of `Fault`.
* `strings.ToLower` and `strings.EqualFold` act on the ASCII letters.

The type declarations of the package (`Assignment`, `LeaveDay`, ...) and some of
its helper methods are not part of `src/`; the records below carry the fields
that `employee.go` reads and writes, and each helper is either a field of
`Sched`/`Deps` or a definition marked `Modelled from the spec`.

The last definitions embed three methods of other packages:
`ReadingPeriod.UpdateReadingDay` (`src/soap/plans/readingperiod.go`),
`ByCompanyHoliday.Less` (`src/teams/company.go`) and `BibleBook.IsBook`
(`src/soap/bible/book.go`).
-/

namespace Employees

/-! ## Instants and the civil calendar -/

/-- An instant in nanoseconds since the Unix epoch, read in UTC. -/
abbrev Time := Int

/-- Nanoseconds in one hour. -/
def nsPerHour : Int := 3600000000000

/-- Nanoseconds in one day. -/
def nsPerDay : Int := 86400000000000

/-- Days since 1970-01-01 of the proleptic Gregorian date `y-m-d`. -/
def daysFromCivil (y m d : Int) : Int :=
  let y1 := if m ≤ 2 then y - 1 else y
  let era := y1 / 400
  let yoe := y1 - era * 400
  let mp := (m + 9) % 12
  let doy := (153 * mp + 2) / 5 + d - 1
  let doe := yoe * 365 + yoe / 4 - yoe / 100 + doy
  era * 146097 + doe - 719468

/-- The proleptic Gregorian date `(year, month, day)` of a day number. -/
def civilFromDays (z0 : Int) : Int × Int × Int :=
  let z := z0 + 719468
  let era := z / 146097
  let doe := z - era * 146097
  let yoe := (doe - doe / 1460 + doe / 36524 - doe / 146096) / 365
  let doy := doe - (365 * yoe + yoe / 4 - yoe / 100)
  let mp := (5 * doy + 2) / 153
  let d := doy - (153 * mp + 2) / 5 + 1
  let m := if mp < 10 then mp + 3 else mp - 9
  let y := yoe + era * 400
  (if m ≤ 2 then y + 1 else y, m, d)

namespace Time

/-- The instant `time.Date(y, m, d, 0, 0, 0, 0, time.UTC)`. -/
def Date (y m d : Int) : Time := daysFromCivil y m d * nsPerDay

/-- The method `t.Before(u)`. -/
abbrev Before (t u : Time) : Prop := t < u

/-- The method `t.After(u)`. -/
abbrev After (t u : Time) : Prop := u < t

/-- The method `t.Equal(u)`. -/
abbrev Equal (t u : Time) : Prop := t = u

/-- The method `t.AddDate(0, 0, n)` in UTC. -/
abbrev AddDays (t : Time) (n : Int) : Time := t + n * nsPerDay

/-- The method `t.Add(time.Hour * time.Duration(h))` for a whole number `h`. -/
abbrev AddHours (t : Time) (h : Int) : Time := t + h * nsPerHour

/-- The method `t.Year()`. -/
def Year (t : Time) : Int := (civilFromDays (t / nsPerDay)).1

/-- The method `t.Month()`, January being 1. -/
def Month (t : Time) : Int := (civilFromDays (t / nsPerDay)).2.1

/-- The method `t.Day()`. -/
def Day (t : Time) : Int := (civilFromDays (t / nsPerDay)).2.2

/-- The method `t.Hour()`. -/
def Hour (t : Time) : Int := (t % nsPerDay) / nsPerHour

/-- The method `t.Weekday()`, Sunday being 0. -/
def Weekday (t : Time) : Int := (t / nsPerDay + 4) % 7

/-- Midnight of the calendar day of `t`:
`time.Date(t.Year(), t.Month(), t.Day(), 0, 0, 0, 0, time.UTC)`. -/
def Midnight (t : Time) : Time := Date t.Year t.Month t.Day

/-- Same calendar day, as the source compares `Year()`, `Month()` and `Day()`. -/
def SameDay (t u : Time) : Prop := t.Year = u.Year ∧ t.Month = u.Month ∧ t.Day = u.Day

instance (t u : Time) : Decidable (SameDay t u) := by unfold SameDay; infer_instance

end Time

/-- The open-ended end date `time.Date(9999, 12, 30, 0, 0, 0, 0, time.UTC)`. -/
def sentinel : Time := Time.Date 9999 12 30

/-- The date `time.Date(1970, 1, 1, 0, 0, 0, 0, time.UTC)`. -/
def epoch : Time := Time.Date 1970 1 1

/-- The date `time.Date(1, 1, 1, 0, 0, 0, 0, time.UTC)`, Go's zero time. -/
def zeroTime : Time := Time.Date 1 1 1

/-! ## Strings -/

/-- The function `strings.ToLower` on ASCII letters. -/
def toLower (s : String) : String := ⟨s.data.map Char.toLower⟩

/-- The function `strings.EqualFold` on ASCII letters. -/
def EqualFold (a b : String) : Prop := toLower a = toLower b

instance (a b : String) : Decidable (EqualFold a b) := by unfold EqualFold; infer_instance

/-- Split a character list at every `|`; the result is never empty. -/
def splitBarChars : List Char → List (List Char)
  | [] => [[]]
  | c :: cs =>
    match splitBarChars cs with
    | [] => [[]]
    | p :: ps => if c = '|' then [] :: p :: ps else (c :: p) :: ps

/-- The call `strings.Split(s, "|")`. -/
def splitBar (s : String) : List String := (splitBarChars s.data).map String.mk

/-- The value of a decimal digit character. -/
def digitVal (c : Char) : Option Int :=
  if c.isDigit then some (c.toNat - 48 : Int) else none

/-- The number written by a list of decimal digits, most significant first. -/
def digitsVal : List Char → Option Int
  | [] => none
  | cs => cs.foldl (fun acc c => do let a ← acc; let d ← digitVal c; pure (a * 10 + d)) (some 0)

/-- Days in month `m` of year `y`. -/
def daysIn (y m : Int) : Int :=
  if m = 2 then (if y % 4 = 0 ∧ (y % 100 ≠ 0 ∨ y % 400 = 0) then 29 else 28)
  else if m = 4 ∨ m = 6 ∨ m = 9 ∨ m = 11 then 30 else 31

/-- The call `time.Parse("2006-01-02", s)`: four year digits, two month digits and
two day digits separated by `-`, a month in 1..12 and a day of that month; `none`
is the returned parse error. -/
def parseDate (s : String) : Option Time :=
  match s.data with
  | [y1, y2, y3, y4, '-', m1, m2, '-', d1, d2] =>
    match digitsVal [y1, y2, y3, y4], digitsVal [m1, m2], digitsVal [d1, d2] with
    | some y, some m, some d =>
      if 1 ≤ m ∧ m ≤ 12 ∧ 1 ≤ d ∧ d ≤ daysIn y m then some (Time.Date y m d) else none
    | _, _, _ => none
  | _ => none

/-! ## Faults -/

/-- How a call can fail: with a returned `error`, or with a runtime panic. -/
inductive Fault where
  | error (msg : String)
  | panic (msg : String)
deriving DecidableEq, Repr

/-! ## Records -/

/-- One day of a schedule. -/
structure Workday where
  ID : Nat
  Workcenter : String
  Code : String
  Hours : ℚ
deriving DecidableEq, Repr

/-- A work-pattern template. -/
structure Schedule where
  ID : Nat
  Workdays : List Workday
deriving DecidableEq, Repr

/-- A labor-code association. -/
structure EmployeeLaborCode where
  ChargeNumber : String
  Extension : String
deriving DecidableEq, Repr

/-- A dated work placement. -/
structure Assignment where
  ID : Nat
  Site : String
  Workcenter : String
  StartDate : Time
  EndDate : Time
  RotationDate : Time
  RotationDays : Int
  Schedules : List Schedule
  LaborCodes : List EmployeeLaborCode
deriving DecidableEq, Repr

/-- A date-ranged override of the schedule. -/
structure Variation where
  ID : Nat
  Site : String
  StartDate : Time
  EndDate : Time
  Schedule : Schedule
deriving DecidableEq, Repr

/-- A yearly leave balance. -/
structure AnnualLeave where
  Year : Int
  Annual : ℚ
  Carryover : ℚ
deriving DecidableEq, Repr

/-- A ledger entry, also a materialized day of a request. -/
structure LeaveDay where
  ID : Int
  LeaveDate : Time
  Code : String
  Hours : ℚ
  Status : String
  RequestID : String
deriving DecidableEq, Repr

/-- A comment on a leave request. -/
structure LeaveRequestComment where
  CommentDate : Time
  Comment : String
deriving DecidableEq, Repr

/-- A leave request. -/
structure LeaveRequest where
  ID : String
  EmployeeID : String
  RequestDate : Time
  PrimaryCode : String
  StartDate : Time
  EndDate : Time
  Status : String
  ApprovedBy : String
  ApprovalDate : Time
  RequestedDays : List LeaveDay
  Comments : List LeaveRequestComment
deriving DecidableEq, Repr

/-- An entry of the work history. -/
structure Work where
  DateWorked : Time
  ChargeNumber : String
  Extension : String
  Hours : ℚ
deriving DecidableEq, Repr

/-- The name of an employee. -/
structure EmployeeName where
  FirstName : String
  MiddleName : String
  LastName : String
  Suffix : String
deriving DecidableEq, Repr

/-- The method `EmployeeName.GetLastFirst`. -/
def EmployeeName.GetLastFirst (en : EmployeeName) : String :=
  en.LastName ++ ", " ++ en.FirstName

/-- Company data of an employee; the body stands for the undeclared fields. -/
structure CompanyInfo where
  Company : String
  EmployeeID : String
deriving DecidableEq, Repr

/-- A contact entry. -/
structure Contact where
  Id : Int
  TypeID : Int
  SortID : Int
  Value : String
deriving DecidableEq, Repr

/-- A specialty entry. -/
structure Specialty where
  Id : Int
  SpecialtyID : Int
  SortID : Int
  Qualified : Bool
deriving DecidableEq, Repr

/-- The collapsed legacy payload. -/
structure EmployeeData where
  CompanyInfo : CompanyInfo
  Assignments : List Assignment
  Variations : List Variation
  Balances : List AnnualLeave
  Leaves : List LeaveDay
  Requests : List LeaveRequest
  LaborCodes : List EmployeeLaborCode
deriving DecidableEq, Repr

/-- The employee aggregate. -/
structure Employee where
  SiteID : String
  Email : String
  Name : EmployeeName
  Data : Option EmployeeData
  CompanyInfo : CompanyInfo
  Assignments : List Assignment
  Variations : List Variation
  Balances : List AnnualLeave
  Leaves : List LeaveDay
  Requests : List LeaveRequest
  LaborCodes : List EmployeeLaborCode
  Work : List Work
  ContactInfo : List Contact
  Specialties : List Specialty
deriving DecidableEq, Repr

/-! ## Expanding the collapsed payload -/

/-- The method `Employee.ConvertFromData`: copy the payload into the live fields,
append every payload labor code to every assignment, clear the payload. -/
def Employee.ConvertFromData (e : Employee) : Employee :=
  match e.Data with
  | none => e
  | some d =>
    { e with
      CompanyInfo := d.CompanyInfo
      Leaves := d.Leaves
      Assignments := d.Assignments.map fun a =>
        { a with LaborCodes := a.LaborCodes ++ d.LaborCodes.map fun lc =>
            { ChargeNumber := lc.ChargeNumber, Extension := lc.Extension } }
      Variations := d.Variations
      Balances := d.Balances
      Requests := d.Requests
      Data := none }

/-! ## Sorting -/

/-- Modelled from the spec: `ByAssignment` is not under `src/`; the spec says the
timeline is re-sorted by start date. `sort.Sort` is taken as a stable sort, which
is what it computes on up to twelve elements and whenever the keys differ. -/
def sortByAssignment (l : List Assignment) : List Assignment :=
  l.insertionSort fun a b => a.StartDate ≤ b.StartDate

/-- Modelled from the spec: `ByLeaveDay` is not under `src/`; the spec says the
ledger is kept sorted by date. `sort.Sort` is taken as a stable sort. -/
def sortByLeaveDay (l : List LeaveDay) : List LeaveDay :=
  l.insertionSort fun a b => a.LeaveDate ≤ b.LeaveDate

/-! ## Loops over positions -/

/-- The loop `pos := -1; for i, x := range l { if p x { pos = i } }`, started at
index `i` with the current `pos`. -/
def lastPosFrom {α : Type} (p : α → Bool) : List α → Nat → Int → Int
  | [], _, pos => pos
  | x :: t, i, pos => lastPosFrom p t (i + 1) (if p x then (i : Int) else pos)

/-- The loop `for i, x := range l { if p x { if startPos < 0 { startPos = i } else
{ endPos = i } } }`, started at index `i`. -/
def spanFrom {α : Type} (p : α → Bool) : List α → Nat → Int × Int → Int × Int
  | [], _, se => se
  | x :: t, i, se =>
    spanFrom p t (i + 1)
      (if p x then (if se.1 < 0 then ((i : Int), se.2) else (se.1, (i : Int))) else se)

/-- The slice expression `append(l[:i], l[j:]...)`. -/
def cut {α : Type} (l : List α) (i j : Nat) : List α := l.take i ++ l.drop j

/-! ## The assignment timeline -/

/-- Modelled from the spec: `Assignment.AddSchedule(days)` is not under `src/`; it
appends one schedule of `days` blank workdays numbered from 0. -/
def Assignment.AddSchedule (a : Assignment) (days : Nat) : Assignment :=
  { a with Schedules := a.Schedules ++
      [{ ID := a.Schedules.length
         Workdays := (List.range days).map fun i =>
           { ID := i, Workcenter := "", Code := "", Hours := 0 } }] }

/-- The loop of `AddAssignment` over the workdays of `Schedules[0]`: every day but
index 0 and index 6 becomes an 8-hour `D` day at the work center. -/
def setWeekdays (wkctr : String) (wds : List Workday) : List Workday :=
  wds.enum.map fun iw =>
    if iw.1 ≠ 0 ∧ iw.1 ≠ 6 then { iw.2 with Code := "D", Workcenter := wkctr, Hours := 8 }
    else iw.2

/-- The conversion `int(id)` of a `uint` on a 64-bit platform: an ID of 2^63 or more
comes out negative. -/
def toInt64 (id : Nat) : Int :=
  if id % 2 ^ 64 < 2 ^ 63 then ((id % 2 ^ 64 : Nat) : Int)
  else ((id % 2 ^ 64 : Nat) : Int) - 2 ^ 64

/-- The `max` loop of `AddAssignment`: the largest `int(asgmt.ID)` above 0, 0 for none. -/
def maxAsgmtID (l : List Assignment) : Int :=
  l.foldl (fun m a => if toInt64 a.ID > m then toInt64 a.ID else m) 0

/-- The conversion `uint(max + 1)`: the sum wraps at 2^63 and is read as a `uint`, which
comes to the sum modulo 2^64. -/
def nextID (max : Int) : Nat := ((max + 1) % 2 ^ 64).toNat

/-- Close the last assignment of a list to the day before `start`. -/
def closeLast (l : List Assignment) (start : Time) : List Assignment :=
  match l.getLast? with
  | none => l
  | some a => l.set (l.length - 1) { a with EndDate := start.AddDays (-1) }

/-- The method `Employee.AddAssignment`. -/
def Employee.AddAssignment (e : Employee) (site wkctr : String) (start : Time) : Employee :=
  let e := e.ConvertFromData
  let max := maxAsgmtID e.Assignments
  let sorted := closeLast (sortByAssignment e.Assignments) start
  let newAsgmt : Assignment :=
    { ID := nextID max, Site := site, Workcenter := wkctr, StartDate := start,
      EndDate := sentinel, RotationDate := epoch, RotationDays := 0,
      Schedules := [], LaborCodes := [] }
  let newAsgmt := newAsgmt.AddSchedule 7
  let newAsgmt :=
    { newAsgmt with Schedules := newAsgmt.Schedules.modifyHead fun s =>
        { s with Workdays := setWeekdays wkctr s.Workdays } }
  { e with Assignments := sortByAssignment (sorted ++ [newAsgmt]) }

/-- The method `Employee.RemoveAssignment`; indexing `e.Assignments[pos-1]` with
`pos = 0` is the runtime panic. -/
def Employee.RemoveAssignment (e : Employee) (id : Nat) : Except Fault Employee :=
  let e := e.ConvertFromData
  if id > 1 then
    let l := sortByAssignment e.Assignments
    let pos := lastPosFrom (fun a => a.ID = id) l 0 (-1)
    if pos ≥ 0 then
      match l[(pos - 1).toNat]? with
      | some a =>
        if pos - 1 < 0 then .error (.panic "index out of range [-1]")
        else
          let l := l.set (pos - 1).toNat { a with EndDate := sentinel }
          .ok { e with Assignments := cut l pos.toNat (pos.toNat + 1) }
      | none => .error (.panic "index out of range")
    else .ok { e with Assignments := l }
  else .ok e

/-! ## Helpers whose source is not under `src/` -/

/-- The schedule methods of `Assignment` and `Variation` that `employee.go` calls
and whose source is not under `src/`. -/
structure Sched where
  /-- The method `Assignment.UseAssignment(site, date)`. -/
  UseAssignment : Assignment → String → Time → Bool
  /-- The method `Assignment.GetStandardWorkday()`. -/
  StandardWorkday : Assignment → ℚ
  /-- The method `Assignment.GetWorkday(date, offset)`. -/
  AsgmtWorkday : Assignment → Time → ℚ → Option Workday
  /-- The method `Variation.GetWorkday(site, date)`. -/
  VariWorkday : Variation → String → Time → Option Workday

/-- The helpers of the leave-request workflow whose source is not under `src/`. -/
structure Deps extends Sched where
  /-- The method `LeaveRequest.SetLeaveDays(e, offset)`, as the day sequence it
  stores in `RequestedDays`; the other fields of the request are not its business. -/
  SetLeaveDays : LeaveRequest → Employee → ℚ → List LeaveDay
  /-- The value returned by `strconv.ParseFloat(s, 64)`, the error dropped. -/
  ParseFloat : String → ℚ

/-! ## Schedule resolution -/

/-- The test `(s.Before(date) || s.Equal(date)) && (e.After(date) || e.Equal(date))`. -/
def covers (s e date : Time) : Prop :=
  (s.Before date ∨ s.Equal date) ∧ (e.After date ∨ e.Equal date)

instance (s e date : Time) : Decidable (covers s e date) := by unfold covers; infer_instance

/-- The first loop of `GetWorkday`: the standard workday of the assignments in use. -/
def stdWorkDayOf (S : Sched) (e : Employee) (date : Time) : ℚ :=
  e.Assignments.foldl
    (fun std a => if S.UseAssignment a e.SiteID date then S.StandardWorkday a else std) 8

/-- The loop of `GetWorkday` over `e.Work`: hours worked on the calendar day of
`date`, and midnight of the latest work date. -/
def workPass (work : List Work) (date : Time) : ℚ × Time :=
  work.foldl
    (fun st wk =>
      (if wk.DateWorked.SameDay date then st.1 + wk.Hours else st.1,
       if wk.DateWorked.After st.2 then wk.DateWorked.Midnight else st.2))
    (0, epoch)

/-- The loop over the assignments: site and workday of the last one covering `date`. -/
def asgmtPass (S : Sched) (l : List Assignment) (date : Time) (offset : ℚ) :
    String × Option Workday :=
  l.foldl
    (fun st a =>
      if covers a.StartDate a.EndDate date then (a.Site, S.AsgmtWorkday a date offset) else st)
    ("", none)

/-- The loop over the variations: the last one covering `date` replaces the workday. -/
def variPass (S : Sched) (l : List Variation) (siteid : String) (date : Time)
    (wkday : Option Workday) : Option Workday :=
  l.foldl
    (fun wk v => if covers v.StartDate v.EndDate date then S.VariWorkday v siteid date else wk)
    wkday

/-- The conversion `time.Duration(offset)`: the fraction is dropped. -/
def truncOffset (offset : ℚ) : Int := Int.tdiv offset.num offset.den

/-- The date of a ledger entry as the leave loop of `GetWorkday` reads it: moved by
the hour offset when it carries an hour of day. -/
def shifted (lv : LeaveDay) (offset : ℚ) : Time :=
  if lv.LeaveDate.Hour ≠ 0 then lv.LeaveDate.AddHours (truncOffset offset) else lv.LeaveDate

/-- The test under which a ledger entry replaces the workday. -/
def leaveApplies (lv : LeaveDay) (date : Time) (offset stdWorkDay : ℚ) (lastWork : Time) : Prop :=
  (shifted lv offset).SameDay date ∧
    (lv.Hours > stdWorkDay / 2 ∨ (shifted lv offset).Before lastWork)

instance (lv : LeaveDay) (date : Time) (offset std : ℚ) (lw : Time) :
    Decidable (leaveApplies lv date offset std lw) := by unfold leaveApplies; infer_instance

/-- The workday built from a ledger entry. -/
def leaveWorkday (lv : LeaveDay) : Workday :=
  { ID := 0, Workcenter := "", Code := lv.Code, Hours := lv.Hours }

/-- The loop of `GetWorkday` over the ledger. -/
def leavePass (l : List LeaveDay) (date : Time) (offset stdWorkDay : ℚ) (lastWork : Time)
    (wkday : Option Workday) : Option Workday :=
  l.foldl
    (fun wk lv => if leaveApplies lv date offset stdWorkDay lastWork then some (leaveWorkday lv)
      else wk)
    wkday

/-- The method `Employee.GetWorkdayWOLeave`. -/
def Employee.GetWorkdayWOLeave (S : Sched) (e : Employee) (date : Time) (offset : ℚ) :
    Option Workday :=
  let e := e.ConvertFromData
  let st := asgmtPass S e.Assignments date offset
  variPass S e.Variations st.1 date st.2

/-- The method `Employee.GetWorkday`. -/
def Employee.GetWorkday (S : Sched) (e : Employee) (date : Time) (offset : ℚ) :
    Option Workday :=
  let e := e.ConvertFromData
  let stdWorkDay := stdWorkDayOf S e date
  let wl := workPass e.Work date
  let st := asgmtPass S e.Assignments date offset
  let wkday := variPass S e.Variations st.1 date st.2
  if wl.1 > 0 then wkday
  else leavePass e.Leaves date offset stdWorkDay wl.2 wkday

/-! ## The leave ledger -/

/-- The loop of `CreateLeaveBalance` over the balances: whether `year` is present,
and annual and carryover of the last balance of `year - 1` (0 and 0 for none). -/
def balanceScan (l : List AnnualLeave) (year : Int) : Bool × ℚ × ℚ :=
  l.foldl
    (fun st al =>
      let found := if al.Year = year then true else st.1
      if al.Year = year - 1 then (found, al.Annual, al.Carryover) else (found, st.2.1, st.2.2))
    (false, 0, 0)

/-- The number of times `n` can be halved before it is below 2, at most `fuel`
times. -/
def halvings : Nat → Nat → Nat
  | 0, _ => 0
  | fuel + 1, n => if n < 2 then 0 else halvings fuel (n / 2) + 1

/-- The position of the highest set bit of `n`: the floor of its binary logarithm
(0 for `n = 0`). -/
def ilog2 (n : Nat) : Nat := halvings n n

/-- The floor of the binary logarithm of a positive rational: the quotient of two
numbers of `i + 1` and `j + 1` bits lies between `2 ^ (i - j - 1)` and
`2 ^ (i - j + 1)`. -/
def floorLog2 (a : ℚ) : Int :=
  let k : Int := (ilog2 a.num.natAbs : Int) - (ilog2 a.den : Int)
  if (2 : ℚ) ^ k ≤ a then k else k - 1

/-- The `float64` nearest to a real number: the significand is rounded to 53 bits,
a tie goes to the even significand. The exponent is not bounded, so there is neither
overflow nor a subnormal number; hours are far from either. -/
def round64 (q : ℚ) : ℚ :=
  if q = 0 then 0
  else
    let e := floorLog2 |q| - 52
    let s := |q| / (2 : ℚ) ^ e
    let f : Int := Rat.floor s
    let r := s - f
    let m : Int :=
      if r < 1 / 2 then f else if 1 / 2 < r then f + 1 else if f % 2 = 0 then f else f + 1
    (if q < 0 then -1 else 1) * (m : ℚ) * (2 : ℚ) ^ e

/-- The sum of two `float64` values, as Go's `+` computes it. -/
def fadd (a b : ℚ) : ℚ := round64 (a + b)

/-- The difference of two `float64` values, as Go's `-` computes it. -/
def fsub (a b : ℚ) : ℚ := round64 (a - b)

/-- The loop of `CreateLeaveBalance` over the ledger: `carry -= lv.Hours` for every
`ACTUAL` entry of code `V` dated in `year - 1`, in ledger order. -/
def carryLoop (l : List LeaveDay) (year : Int) (carry : ℚ) : ℚ :=
  l.foldl
    (fun c lv =>
      if lv.LeaveDate.Year = year - 1 ∧ toLower lv.Code = "v" ∧ toLower lv.Status = "actual"
      then fsub c lv.Hours else c)
    carry

/-- The method `Employee.CreateLeaveBalance`. -/
def Employee.CreateLeaveBalance (e : Employee) (year : Int) : Employee :=
  let e := e.ConvertFromData
  let st := balanceScan e.Balances year
  if !st.1 then
    let al : AnnualLeave :=
      if st.2.1 = 0 then { Year := year, Annual := 120, Carryover := 0 }
      else { Year := year, Annual := st.2.1,
             Carryover := carryLoop e.Leaves year (fadd st.2.1 st.2.2) }
    { e with Balances := e.Balances ++ [al] }
  else e

/-- The loop of `AddLeave` over the ledger: whether an entry matches by date and code
or by ID, and the largest ID among the entries that do not match. The assignments the
loop makes to `lv.Status`, `lv.Hours` and `lv.RequestID` go to the loop variable, a
copy of the element, and are not stored back in `e.Leaves`. -/
def leaveScan (l : List LeaveDay) (id : Int) (date : Time) (code : String) : Bool × Int :=
  l.foldl
    (fun st lv =>
      if (lv.LeaveDate.Equal date ∧ EqualFold lv.Code code) ∨ lv.ID = id then (true, st.2)
      else if lv.ID > st.2 then (st.1, lv.ID) else st)
    (false, 0)

/-- The method `Employee.AddLeave`; `requestID` is the hex form of the object id, and
`requestID.Hex()` on a nil pointer is the runtime panic. -/
def Employee.AddLeave (e : Employee) (id : Int) (date : Time) (code status : String)
    (hours : ℚ) (requestID : Option String) : Except Fault Employee :=
  let e := e.ConvertFromData
  let st := leaveScan e.Leaves id date code
  if !st.1 then
    match requestID with
    | none => .error (.panic "nil pointer dereference")
    | some rid =>
      let lv : LeaveDay :=
        { ID := st.2 + 1, LeaveDate := date, Code := code, Hours := hours, Status := status,
          RequestID := rid }
      .ok { e with Leaves := sortByLeaveDay (e.Leaves ++ [lv]) }
  else .ok e

/-- The loop `for i, x := range l { if p x { deletes = append(deletes, i) } }`,
started at index `i`. -/
def idxsFrom {α : Type} (p : α → Bool) : List α → Nat → List Nat
  | [], _ => []
  | x :: t, i => if p x then i :: idxsFrom p t (i + 1) else idxsFrom p t (i + 1)

/-- The loop `for i := len(deletes) - 1; i >= 0; i-- { l = append(l[:deletes[i]],
l[deletes[i]+1:]...) }`. -/
def deleteAt {α : Type} (deletes : List Nat) (l : List α) : List α :=
  deletes.foldr (fun i acc => cut acc i (i + 1)) l

/-- The test of `DeleteLeaveRequest` for a ledger entry to delete. -/
def ownedPending (request : String) (lv : LeaveDay) : Bool :=
  lv.RequestID = request ∧ toLower lv.Status ≠ "actual"

/-- The method `Employee.DeleteLeaveRequest`: the employee afterwards and the
returned error (`none` for nil). -/
def Employee.DeleteLeaveRequest (e : Employee) (request : String) : Employee × Option Fault :=
  let e := e.ConvertFromData
  let pos := lastPosFrom (fun r => r.ID = request) e.Requests 0 (-1)
  if pos < 0 then (e, some (.error "request not found"))
  else
    let leaves := sortByLeaveDay e.Leaves
    let deletes := idxsFrom (ownedPending request) leaves 0
    ({ e with
       Requests := cut e.Requests pos.toNat (pos.toNat + 1)
       Leaves := deleteAt deletes leaves }, none)

/-- The largest ledger ID, -1 for none: the `maxId` of `ChangeApprovedLeaveDates`. -/
def maxLeaveID (l : List LeaveDay) : Int :=
  l.foldl (fun m lv => if m < lv.ID then lv.ID else m) (-1)

/-- The last loop of `ChangeApprovedLeaveDates`: append every requested day with the
next ID and the status of the request. -/
def appendDays (days : List LeaveDay) (status : String) (leaves : List LeaveDay) (maxId : Int) :
    List LeaveDay :=
  (days.foldl
    (fun st lv => (st.1 ++ [{ lv with ID := st.2 + 1, Status := status }], st.2 + 1))
    (leaves, maxId)).1

/-- The method `Employee.ChangeApprovedLeaveDates`. -/
def Employee.ChangeApprovedLeaveDates (e : Employee) (lr : LeaveRequest) : Employee :=
  let e := e.ConvertFromData
  let leaves := sortByLeaveDay e.Leaves
  let se := spanFrom
    (fun lv => (lv.LeaveDate.After lr.StartDate ∨ lv.LeaveDate.Equal lr.StartDate) ∧
      (lv.LeaveDate.Before lr.EndDate ∨ lv.LeaveDate.Equal lr.EndDate)) leaves 0 (-1, -1)
  let maxId := maxLeaveID leaves
  let leaves :=
    if se.1 > 0 then
      let endPos := (if se.2 < 0 then se.1 else se.2) + 1
      cut leaves se.1.toNat endPos.toNat
    else leaves
  { e with Leaves := sortByLeaveDay (appendDays lr.RequestedDays lr.Status leaves maxId) }

/-- The purge of `UpdateLeaveRequest` (the same code in the cases `startdate`,
`enddate` and `dates`): sort the ledger, find the first and the last entry of the
request, and cut everything from the first to the last. -/
def purgeRequestLeaves (leaves : List LeaveDay) (reqID : String) : List LeaveDay :=
  let leaves := sortByLeaveDay leaves
  let se := spanFrom (fun lv => lv.RequestID = reqID) leaves 0 (-1, -1)
  if se.1 ≥ 0 then
    let endPos := (if se.2 < 0 then se.1 else se.2) + 1
    if endPos > leaves.length then leaves else cut leaves se.1.toNat endPos.toNat
  else leaves

/-! ## The leave-request workflow -/

/-- What `UpdateLeaveRequest` leaves behind: the employee, and the three returned
values, `err` being `none` for a nil error. -/
structure UpdateResult where
  e : Employee
  message : String
  lr : Option LeaveRequest
  err : Option Fault
deriving DecidableEq, Repr

/-- Two decimal digits of a number, as `02` and `06` print in a layout. -/
def pad2 (n : Int) : String :=
  let k := n.toNat % 100
  String.mk [Char.ofNat (48 + k / 10), Char.ofNat (48 + k % 10)]

/-- The month abbreviation `Jan` of a layout. -/
def monthAbbr (m : Int) : String :=
  (["Jan", "Feb", "Mar", "Apr", "May", "Jun", "Jul", "Aug", "Sep", "Oct", "Nov",
    "Dec"].get? (m - 1).toNat).getD ""

/-- The call `t.Format("02 Jan 06")`. -/
def formatDate (t : Time) : String :=
  pad2 t.Day ++ " " ++ monthAbbr t.Month ++ " " ++ pad2 (t.Year % 100)

/-- The reapproval block of the date cases: an approved request goes back to
`REQUESTED`, loses approver and approval date, and a notice is produced. -/
def reapprove (name what : String) (req : LeaveRequest) (message : String) :
    LeaveRequest × String :=
  if EqualFold req.Status "approved" then
    ({ req with Status := "REQUESTED", ApprovalDate := zeroTime, ApprovedBy := "" },
     "Leave Request from " ++ name ++ ": " ++ what ++ " changed needs reapproval")
  else (req, message)

/-- The body common to the cases `startdate`, `enddate` and `dates`, `outside`
being the range test of the case and `start`, `stop` the dates to store: when
outside, reapproval and purge of the ledger; then the new dates, the
re-materialization, and the copy into the ledger if the status is `APPROVED`. -/
def dateChange (D : Deps) (e : Employee) (req : LeaveRequest) (outside : Bool) (what : String)
    (start stop : Time) (offset : ℚ) (message : String) : Employee × LeaveRequest × String :=
  let rm := if outside then reapprove e.Name.GetLastFirst what req message else (req, message)
  let e := if outside then { e with Leaves := purgeRequestLeaves e.Leaves req.ID } else e
  let req := { rm.1 with StartDate := start, EndDate := stop }
  let req := { req with RequestedDays := D.SetLeaveDays req e offset }
  let e := if req.Status = "APPROVED" then e.ChangeApprovedLeaveDates req else e
  (e, req, rm.2)

/-- Set the status of every requested day. -/
def setDayStatus (status : String) (days : List LeaveDay) : List LeaveDay :=
  days.map fun d => { d with Status := status }

/-- The loop of the case `day` over the requested days: entries dated `lvDate` take
the code and the hours (0 for an empty code); returns the days, `found`, `status`. -/
def dayLoop (days : List LeaveDay) (lvDate : Time) (code : String) (hours : ℚ) :
    List LeaveDay × Bool × String :=
  days.foldl
    (fun st lv =>
      if lv.LeaveDate.Equal lvDate then
        (st.1 ++ [{ lv with Code := code, Hours := if code = "" then 0 else hours }], true,
         if st.2.2 = "" then lv.Status else st.2.2)
      else (st.1 ++ [lv], st.2.1, st.2.2))
    ([], false, "")

/-- The `switch` of `UpdateLeaveRequest` on one matching request: the employee, the
request to store back and the message, or the fault that ends the call. -/
def updateOne (D : Deps) (e : Employee) (req : LeaveRequest) (field value : String)
    (offset : ℚ) (now : Time) (message : String) :
    Except Fault (Employee × LeaveRequest × String) :=
  let f := toLower field
  if f = "startdate" ∨ f = "start" then
    match parseDate value with
    | none => .error (.error "parsing time")
    | some lvDate =>
      .ok (dateChange D e req (lvDate.Before req.StartDate ∨ lvDate.After req.EndDate)
        "Starting date" lvDate req.EndDate offset message)
  else if f = "enddate" ∨ f = "end" then
    match parseDate value with
    | none => .error (.error "parsing time")
    | some lvDate =>
      .ok (dateChange D e req (lvDate.Before req.StartDate ∨ lvDate.After req.EndDate)
        "Ending Date" req.StartDate lvDate offset message)
  else if f = "code" ∨ f = "primarycode" then
    .ok (e, { req with PrimaryCode := value }, message)
  else if f = "dates" then
    match splitBar value with
    | [] => .error (.panic "index out of range [0]")
    | p0 :: ps =>
      match parseDate p0 with
      | none => .error (.error "parsing time")
      | some start0 =>
        match ps with
        | [] => .error (.panic "index out of range [1]")
        | p1 :: _ =>
          match parseDate p1 with
          | none => .error (.error "parsing time")
          | some end0 =>
            let start := start0.Midnight
            let stop := end0.Midnight
            .ok (dateChange D e req
              (start.Before req.StartDate ∨ start.After req.EndDate ∨
                stop.Before req.StartDate ∨ stop.After req.EndDate)
              "dates" start.Midnight stop.Midnight offset message)
  else if f = "requested" then
    .ok (e, { req with Status := "REQUESTED",
                       RequestedDays := setDayStatus "REQUESTED" req.RequestedDays },
      "Leave Request: Leave Request from " ++ e.Name.GetLastFirst ++ " " ++
        "submitted for approval.  " ++ "Requested Leave Date: " ++ formatDate req.StartDate ++
        " - " ++ formatDate req.EndDate ++ ".")
  else if f = "approve" then
    let req := { req with ApprovedBy := value, ApprovalDate := now, Status := "APPROVED",
                          RequestedDays := setDayStatus "APPROVED" req.RequestedDays }
    .ok (e.ChangeApprovedLeaveDates req, req, "Leave Request: Leave Request approved.")
  else if f = "unapprove" then
    .ok (e, { req with ApprovedBy := "", ApprovalDate := epoch, Status := "DRAFT",
                       RequestedDays := setDayStatus "REQUESTED" req.RequestedDays,
                       Comments := req.Comments ++ [{ CommentDate := now, Comment := value }] },
      "Leave Request: Leave Request unapproved.\n" ++ "Comment: " ++ value)
  else if f = "day" ∨ f = "requestday" then
    match splitBar value with
    | p0 :: code :: p2 :: _ =>
      let lvDate := (parseDate p0).getD zeroTime
      let hours := D.ParseFloat p2
      let st := dayLoop req.RequestedDays lvDate code hours
      let days :=
        if st.2.1 then st.1
        else st.1 ++ [{ ID := 0, LeaveDate := lvDate, Code := code, Hours := hours,
                        Status := st.2.2, RequestID := req.ID }]
      .ok (e, { req with RequestedDays := days }, message)
    | _ => .error (.panic "index out of range")
  else .ok (e, req, message)

/-- The loop of `UpdateLeaveRequest` over `e.Requests`: `done` are the requests
already passed (as stored back), the second list those still to visit; `lr` points
at the loop variable of the last matching iteration. A fault returns at once, with
an empty message and a nil request. -/
def updateLoop (D : Deps) (request field value : String) (offset : ℚ) (now : Time) :
    List LeaveRequest → List LeaveRequest → Employee → String → Option LeaveRequest →
    UpdateResult
  | done, [], e, message, lr =>
    { e := { e with Requests := done }, message := message, lr := lr, err := none }
  | done, req :: rest, e, message, lr =>
    if req.ID = request then
      match updateOne D { e with Requests := done ++ req :: rest } req field value offset now
          message with
      | .error f =>
        { e := { e with Requests := done ++ req :: rest }, message := "", lr := none,
          err := some f }
      | .ok r => updateLoop D request field value offset now (done ++ [r.2.1]) rest r.1 r.2.2
          (some r.2.1)
    else updateLoop D request field value offset now (done ++ [req]) rest e message lr

/-- The method `Employee.UpdateLeaveRequest`; `now` is the reading of `time.Now()`. -/
def Employee.UpdateLeaveRequest (D : Deps) (e : Employee) (request field value : String)
    (offset : ℚ) (now : Time) : UpdateResult :=
  let e := e.ConvertFromData
  updateLoop D request field value offset now [] e.Requests e "" none

/-! ## Standard workday and new requests -/

/-- The loop `for start.Weekday() != time.Sunday { start = start.AddDate(0, 0, -1) }`
with a bound on the number of tests; `none` when the bound is used up. -/
def backToSunday : Nat → Time → Option Time
  | 0, _ => none
  | n + 1, t => if t.Weekday ≠ 0 then backToSunday n (t.AddDays (-1)) else some t

/-- The loop `for end.Weekday() != time.Saturday { end = end.AddDate(0, 0, 1) }`
with a bound on the number of tests. -/
def forthToSaturday : Nat → Time → Option Time
  | 0, _ => none
  | n + 1, t => if t.Weekday ≠ 6 then forthToSaturday n (t.AddDays 1) else some t

/-- The counting loop of `GetStandardWorkday` from `start` to `stop`, with a bound on
the number of tests: days whose workday is not nil and has a code. -/
def countCoded (S : Sched) (e : Employee) (stop : Time) : Nat → Time → Nat → Option Nat
  | 0, _, _ => none
  | n + 1, start, count =>
    if start.Before stop ∨ start.Equal stop then
      let count :=
        match e.GetWorkday S start 0 with
        | some wd => if wd.Code ≠ "" then count + 1 else count
        | none => count
      countCoded S e stop n (start.AddDays 1) count
    else some count

/-- The method `Employee.GetStandardWorkday`, each loop bounded by `fuel` tests;
`none` when a bound is used up. -/
def Employee.GetStandardWorkdayFuel (S : Sched) (e : Employee) (date : Time) (fuel : Nat) :
    Option ℚ :=
  let e := e.ConvertFromData
  match backToSunday fuel date.Midnight, forthToSaturday fuel date.Midnight with
  | some start, some stop =>
    match countCoded S e stop fuel start 0 with
    | some count => some (if count < 5 then 10 else 8)
    | none => none
  | _, _ => none

/-- The method `Employee.GetStandardWorkday` with eight tests for each loop, one more
than the days of a week. -/
def Employee.GetStandardWorkday (S : Sched) (e : Employee) (date : Time) : Option ℚ :=
  e.GetStandardWorkdayFuel S date 8

/-- Modelled from the spec: `ByLeaveRequest` is not under `src/` and the spec names no
order for requests; they are ordered by start date like the other dated collections.
`sort.Sort` is taken as a stable sort. -/
def sortByLeaveRequest (l : List LeaveRequest) : List LeaveRequest :=
  l.insertionSort fun a b => a.StartDate ≤ b.StartDate

/-- The materialization loop of `NewLeaveRequest` from `sDate` to `stop`, with a bound
on the number of tests; `wd.Code` on a nil workday is the runtime panic. -/
def newDays (S : Sched) (e : Employee) (code reqID : String) (stop : Time) (offset std : ℚ) :
    Nat → Time → List LeaveDay → Option (Except Fault (List LeaveDay))
  | 0, _, _ => none
  | n + 1, sDate, days =>
    if sDate.Before stop ∨ sDate.Equal stop then
      match e.GetWorkday S sDate offset with
      | none => some (.error (.panic "nil pointer dereference"))
      | some wd =>
        let days :=
          if wd.Code ≠ "" then
            let hours := if wd.Hours = 0 then std else wd.Hours
            let hours := if code = "H" then 8 else hours
            days ++ [{ ID := 0, LeaveDate := sDate, Code := code, Hours := hours,
                       Status := "DRAFT", RequestID := reqID }]
          else days
        newDays S e code reqID stop offset std n (sDate.AddDays 1) days
    else some (.ok days)

/-- The method `Employee.NewLeaveRequest`; `newID` is the hex form of the fresh object
id and `now` the reading of `time.Now()`. The loop is bounded by the number of days
from the start to `stop` plus two tests; `none` when a bound is used up. -/
def Employee.NewLeaveRequest (S : Sched) (e : Employee) (empID code : String)
    (start stop : Time) (offset : ℚ) (newID : String) (now : Time) :
    Option (Except Fault Employee) :=
  let e := e.ConvertFromData
  let lr : LeaveRequest :=
    { ID := newID, EmployeeID := empID, RequestDate := now, PrimaryCode := code,
      StartDate := start, EndDate := stop, Status := "DRAFT", ApprovedBy := "",
      ApprovalDate := zeroTime, RequestedDays := [], Comments := [] }
  let sDate := start.Midnight
  match e.GetStandardWorkday S sDate with
  | none => none
  | some std =>
    match newDays S e code lr.ID stop offset std (((stop - sDate) / nsPerDay).toNat + 2)
        sDate [] with
    | none => none
    | some (.error f) => some (.error f)
    | some (.ok days) =>
      some (.ok { e with
        Requests := sortByLeaveRequest (e.Requests ++ [{ lr with RequestedDays := days }]) })

/-! ## A concrete reading of the missing helpers -/

/-- Modelled from the spec: `Assignment.UseAssignment` is not under `src/`; an
assignment is in use at a site on a date when it is of that site and its inclusive
range contains the date. -/
def specUseAssignment (a : Assignment) (site : String) (date : Time) : Bool :=
  EqualFold a.Site site ∧ covers a.StartDate a.EndDate date

/-- Modelled from the spec: `Assignment.GetStandardWorkday` is not under `src/`;
fewer than five coded days in the template mean a 10-hour day, else an 8-hour day. -/
def specStandardWorkday (a : Assignment) : ℚ :=
  match a.Schedules with
  | [] => 8
  | s :: _ => if (s.Workdays.filter fun w => w.Code ≠ "").length < 5 then 10 else 8

/-- Modelled from the spec: `Assignment.GetWorkday` is not under `src/`; the base
workday is the entry of the template at the day of the week, or at the days since
the rotation date modulo the rotation length when that is positive. -/
def specAsgmtWorkday (a : Assignment) (date : Time) (_offset : ℚ) : Option Workday :=
  match a.Schedules with
  | [] => none
  | s :: _ =>
    let idx :=
      if a.RotationDays > 0 then ((date - a.RotationDate) / nsPerDay) % a.RotationDays
      else date.Weekday
    s.Workdays.get? idx.toNat

/-- Modelled from the spec: `Variation.GetWorkday` is not under `src/`; a variation
gives, for its own site, the entry of its template at the day of the week. -/
def specVariWorkday (v : Variation) (site : String) (date : Time) : Option Workday :=
  if EqualFold v.Site site then v.Schedule.Workdays.get? date.Weekday.toNat else none

/-- The schedule helpers as the spec describes them. -/
def specSched : Sched :=
  { UseAssignment := specUseAssignment
    StandardWorkday := specStandardWorkday
    AsgmtWorkday := specAsgmtWorkday
    VariWorkday := specVariWorkday }

/-- Modelled from the spec: `LeaveRequest.SetLeaveDays` is not under `src/`; one day
for each date of the inclusive range whose workday without leave has a code, with the
code and status of the request, the hours of the workday, and 8 hours for code `H`. -/
def specSetLeaveDays (req : LeaveRequest) (e : Employee) (offset : ℚ) : List LeaveDay :=
  (List.range ((req.EndDate - req.StartDate) / nsPerDay + 1).toNat).filterMap fun i =>
    let d := req.StartDate.AddDays i
    match e.GetWorkdayWOLeave specSched d offset with
    | none => none
    | some wd =>
      if wd.Code ≠ "" then
        some { ID := 0, LeaveDate := d, Code := req.PrimaryCode,
               Hours := if req.PrimaryCode = "H" then 8 else wd.Hours,
               Status := req.Status, RequestID := req.ID }
      else none

/-- The value of a plain decimal numeral `ddd` or `ddd.ddd`, 0 for anything else. -/
def specParseFloat (s : String) : ℚ :=
  match s.data.span Char.isDigit with
  | (ip, []) => ((digitsVal ip).getD 0 : Int)
  | (ip, c :: fp) =>
    if c = '.' ∧ fp.all Char.isDigit then
      match digitsVal ip, digitsVal fp with
      | some a, some b => (a : ℚ) + (b : ℚ) / (10 : ℚ) ^ fp.length
      | _, _ => 0
    else 0

/-- The helpers as the spec describes them. -/
def specDeps : Deps :=
  { specSched with
    SetLeaveDays := specSetLeaveDays
    ParseFloat := specParseFloat }

/-! ## Quantities the claims speak of -/

/-- Hours of the work entries of the calendar day of `date`, summed. -/
def workedOn (work : List Work) (date : Time) : ℚ :=
  ((work.filter fun wk => wk.DateWorked.SameDay date).map fun wk => wk.Hours).sum

/-- Hours of the `ACTUAL` ledger entries of code `V` dated in year `y`, summed. -/
def vacationUsed (leaves : List LeaveDay) (y : Int) : ℚ :=
  ((leaves.filter fun lv =>
      lv.LeaveDate.Year = y ∧ toLower lv.Code = "v" ∧ toLower lv.Status = "actual").map
    fun lv => lv.Hours).sum

/-- The `ACTUAL` ledger entries of code `V` dated in year `y`, in ledger order. -/
def vacationDays (leaves : List LeaveDay) (y : Int) : List LeaveDay :=
  leaves.filter fun lv =>
    lv.LeaveDate.Year = y ∧ toLower lv.Code = "v" ∧ toLower lv.Status = "actual"

/-! ## Concrete employees -/

/-- An employee with nothing on record. -/
def emp0 : Employee :=
  { SiteID := "s", Email := "", Name := ⟨"Ann", "", "Lee", ""⟩, Data := none,
    CompanyInfo := ⟨"", ""⟩, Assignments := [], Variations := [], Balances := [],
    Leaves := [], Requests := [], LaborCodes := [], Work := [], ContactInfo := [],
    Specialties := [] }

/-- The employee of the end-to-end scenario: one open assignment from 2024-01-01 on
the Monday to Friday 8-hour `D` schedule, an empty ledger. -/
def empAssigned : Employee := emp0.AddAssignment "s" "w" (Time.Date 2024 1 1)

deriving instance DecidableEq for Except

/-- An employee whose balance of 2023 has zero annual hours and 40 hours carried. -/
def empZeroAnnual : Employee := { emp0 with Balances := [⟨2023, 0, 40⟩] }

/-- An employee with a balance of 120 annual hours for 2023 and 40 hours of `ACTUAL`
vacation taken in 2023. -/
def empVacation : Employee :=
  { emp0 with
    Balances := [⟨2023, 120, 0⟩]
    Leaves := [⟨1, Time.Date 2023 7 3, "V", 8, "ACTUAL", ""⟩,
               ⟨2, Time.Date 2023 7 4, "H", 8, "ACTUAL", ""⟩,
               ⟨3, Time.Date 2023 7 5, "v", 32, "Actual", ""⟩,
               ⟨4, Time.Date 2023 7 6, "V", 8, "APPROVED", ""⟩,
               ⟨5, Time.Date 2024 1 2, "V", 8, "ACTUAL", ""⟩] }

/-- The `float64` nearest to 7.6, the value of the Go literal `7.6`. -/
def sevenSix : ℚ := 4278419646001971 / 562949953421312

/-- An employee with a balance of 120 annual hours for 2023 and five days of 7.6
hours of `ACTUAL` vacation taken in 2023. -/
def empSevenSix : Employee :=
  { emp0 with
    Balances := [⟨2023, 120, 0⟩]
    Leaves := [⟨1, Time.Date 2023 7 3, "V", sevenSix, "ACTUAL", ""⟩,
               ⟨2, Time.Date 2023 7 4, "V", sevenSix, "ACTUAL", ""⟩,
               ⟨3, Time.Date 2023 7 5, "V", sevenSix, "ACTUAL", ""⟩,
               ⟨4, Time.Date 2023 7 6, "V", sevenSix, "ACTUAL", ""⟩,
               ⟨5, Time.Date 2023 7 7, "V", sevenSix, "ACTUAL", ""⟩] }

/-- An employee with two requests and a ledger holding a pending and an `ACTUAL`
entry of request `r1`, an entry of request `r2` and a manual entry. -/
def empTwoRequests : Employee :=
  { emp0 with
    Requests :=
      [⟨"r1", "emp", 0, "V", Time.Date 2024 3 4, Time.Date 2024 3 5, "APPROVED", "boss", 5, [], []⟩,
       ⟨"r2", "emp", 0, "V", Time.Date 2024 4 1, Time.Date 2024 4 1, "APPROVED", "boss", 5, [], []⟩]
    Leaves :=
      [⟨1, Time.Date 2024 3 4, "V", 8, "ACTUAL", "r1"⟩,
       ⟨2, Time.Date 2024 3 5, "V", 8, "APPROVED", "r1"⟩,
       ⟨3, Time.Date 2024 3 5, "H", 8, "ACTUAL", ""⟩,
       ⟨4, Time.Date 2024 4 1, "V", 8, "APPROVED", "r2"⟩] }

/-- A template of seven 10-hour `N` days at work center `w`. -/
def nightWeek : Schedule :=
  { ID := 0, Workdays := (List.range 7).map fun i => ⟨i, "w", "N", 10⟩ }

/-- The assigned employee with a variation over 2024-03-04..2024-03-08 and no ledger. -/
def empVaried : Employee :=
  { empAssigned with
    Variations := [⟨1, "s", Time.Date 2024 3 4, Time.Date 2024 3 8, nightWeek⟩] }

/-- The same employee with an 8-hour ledger entry of code `V` on 2024-03-04. -/
def empVariedOnLeave : Employee :=
  { empVaried with Leaves := [⟨1, Time.Date 2024 3 4, "V", 8, "APPROVED", ""⟩] }

/-- The employee of the scenario after the request `r1` for 2024-03-04..2024-03-08,
code `V`, was created and submitted. -/
def empRequested : Employee :=
  match empAssigned.NewLeaveRequest specSched "emp" "V" (Time.Date 2024 3 4)
      (Time.Date 2024 3 8) 0 "r1" (Time.Date 2024 2 1) with
  | some (.ok e1) =>
    (e1.UpdateLeaveRequest specDeps "r1" "requested" "" 0 (Time.Date 2024 2 1)).e
  | _ => emp0

/-- The employee of the scenario after `boss` approved the request `r1`. -/
def empApproved : Employee :=
  (empRequested.UpdateLeaveRequest specDeps "r1" "approve" "boss" 0 (Time.Date 2024 2 2)).e

/-- The scenario's change of the end date to 2024-03-06. -/
def scenarioEndChange : UpdateResult :=
  empApproved.UpdateLeaveRequest specDeps "r1" "enddate" "2024-03-06" 0 (Time.Date 2024 2 3)

/-- A second approval of the approved request `r1`. -/
def scenarioReapprove : UpdateResult :=
  empApproved.UpdateLeaveRequest specDeps "r1" "approve" "boss" 0 (Time.Date 2024 2 3)

/-- The submitted request `r1` on a ledger that already holds a manual holiday of
2024-03-01, an `ACTUAL` day of `r1` on 2024-03-04 and a manual `ACTUAL` sick day on
2024-03-05. -/
def empActualInRange : Employee :=
  { empRequested with
    Leaves :=
      [⟨1, Time.Date 2024 3 1, "H", 8, "ACTUAL", ""⟩,
       ⟨2, Time.Date 2024 3 4, "V", 8, "ACTUAL", "r1"⟩,
       ⟨3, Time.Date 2024 3 5, "S", 4, "ACTUAL", ""⟩] }

/-- The approved request `r1` on a ledger where a manual `ACTUAL` sick day, an
`ACTUAL` day of `r1` and a day of request `r2` lie between two pending days of `r1`. -/
def empMixedLedger : Employee :=
  { empApproved with
    Leaves :=
      [⟨0, Time.Date 2024 3 4, "V", 8, "APPROVED", "r1"⟩,
       ⟨1, Time.Date 2024 3 5, "S", 4, "ACTUAL", ""⟩,
       ⟨2, Time.Date 2024 3 6, "V", 8, "ACTUAL", "r1"⟩,
       ⟨3, Time.Date 2024 3 7, "V", 4, "APPROVED", "r2"⟩,
       ⟨4, Time.Date 2024 3 8, "V", 8, "APPROVED", "r1"⟩] }

/-! ## Sequences of timeline operations -/

/-- A call on the assignment timeline. -/
inductive TimelineOp where
  | add (site wkctr : String) (start : Time)
  | remove (id : Nat)
deriving DecidableEq, Repr

/-- One call of `AddAssignment` or `RemoveAssignment`. -/
def applyOp (e : Employee) : TimelineOp → Except Fault Employee
  | .add site wkctr start => .ok (e.AddAssignment site wkctr start)
  | .remove id => e.RemoveAssignment id

/-- A sequence of calls, stopped by the first panic. -/
def runOps : List TimelineOp → Employee → Except Fault Employee
  | [], e => .ok e
  | op :: ops, e =>
    match applyOp e op with
    | .ok e1 => runOps ops e1
    | .error f => .error f

/-- From assignment `a` on, each end date is one day before the next start date and is
not the sentinel, and the last end date is the sentinel. -/
def contigFrom (a : Assignment) : List Assignment → Prop
  | [] => a.EndDate = sentinel
  | b :: t => a.EndDate = b.StartDate.AddDays (-1) ∧ a.EndDate ≠ sentinel ∧ contigFrom b t

/-- A list of assignments in which each end date is exactly one day before the next
start date and only the last one carries the sentinel end date. -/
def contiguous : List Assignment → Prop
  | [] => True
  | a :: t => contigFrom a t

/-- Deciding `contigFrom`. -/
def decContigFrom : (a : Assignment) → (t : List Assignment) → Decidable (contigFrom a t)
  | a, [] => inferInstanceAs (Decidable (a.EndDate = sentinel))
  | _, b :: t =>
    @instDecidableAnd _ _ _ (@instDecidableAnd _ _ _ (decContigFrom b t))

instance (a : Assignment) (t : List Assignment) : Decidable (contigFrom a t) :=
  decContigFrom a t

instance : (l : List Assignment) → Decidable (contiguous l)
  | [] => isTrue trivial
  | a :: t => decContigFrom a t

/-- The calls under which the timeline stays contiguous: an `AddAssignment` whose start
is later than every present start date and is not the day after the sentinel; a
`RemoveAssignment` whose id is at most 1, is carried by no assignment, or is carried by
the assignment that is last in start-date order. -/
def admissibleOp (e : Employee) : TimelineOp → Prop
  | .add _ _ start =>
    (∀ a ∈ e.ConvertFromData.Assignments, a.StartDate < start) ∧ start ≠ sentinel.AddDays 1
  | .remove id =>
    id ≤ 1 ∨ (∀ a ∈ e.ConvertFromData.Assignments, a.ID ≠ id) ∨
      (sortByAssignment e.ConvertFromData.Assignments).getLast?.map (fun a => a.ID) = some id

instance (e : Employee) : (op : TimelineOp) → Decidable (admissibleOp e op)
  | .add _ _ _ => by unfold admissibleOp; infer_instance
  | .remove _ => by unfold admissibleOp; infer_instance

/-- Every call of the sequence is admissible in the state it is made in. -/
def admissibleRun : List TimelineOp → Employee → Bool
  | [], _ => true
  | op :: ops, e =>
    decide (admissibleOp e op) &&
      match applyOp e op with
      | .ok e1 => admissibleRun ops e1
      | .error _ => true

/-- What the timeline keeps under admissible calls: strictly increasing start dates,
contiguity, and ID 1 at the head. -/
def Timeline (l : List Assignment) : Prop :=
  l.Pairwise (fun a b => a.StartDate < b.StartDate) ∧ contiguous l ∧
    ∀ a, l.head? = some a → a.ID = 1

/-- Three assignments added in date order, then the middle one removed. -/
def opsRemoveMiddle : List TimelineOp :=
  [.add "s" "w1" (Time.Date 2024 1 1), .add "s" "w2" (Time.Date 2024 2 1),
   .add "s" "w3" (Time.Date 2024 3 1), .remove 2]

/-- Adds in date order and removals of the last assignment, of id 1 and of an id that
no assignment carries. -/
def opsInOrder : List TimelineOp :=
  [.add "s" "w1" (Time.Date 2024 1 1), .add "s" "w2" (Time.Date 2024 2 1), .remove 2,
   .add "s" "w3" (Time.Date 2024 3 1), .remove 1, .remove 9,
   .add "s" "w4" (Time.Date 2024 4 1)]

/-! ## The actual workday -/

/-- The test of `GetWorkdayActual` for a ledger entry: dated exactly `date`, status
`actual` whatever the case. -/
def actualOn (date : Time) (lv : LeaveDay) : Prop :=
  lv.LeaveDate.Equal date ∧ EqualFold lv.Status "actual"

instance (date : Time) (lv : LeaveDay) : Decidable (actualOn date lv) := by
  unfold actualOn; infer_instance

/-- The loop of `GetWorkdayActual` over the ledger, on the workday and `bLeave`: the
first `ACTUAL` entry of the date replaces the workday; each later one adds its hours,
and gives its code when its hours exceed the hours accumulated so far. With `bLeave`
set the workday is never nil. -/
def actualPass (l : List LeaveDay) (date : Time) (wkday : Option Workday) :
    Option Workday × Bool :=
  l.foldl
    (fun st lv =>
      if actualOn date lv then
        if !st.2 then (some (leaveWorkday lv), true)
        else
          match st.1 with
          | some wd =>
            if lv.Hours ≤ wd.Hours then (some { wd with Hours := wd.Hours + lv.Hours }, true)
            else (some { wd with Hours := wd.Hours + lv.Hours, Code := lv.Code }, true)
          | none => (none, true)
      else st)
    (wkday, false)

/-- The method `Employee.GetWorkdayActual`. -/
def Employee.GetWorkdayActual (S : Sched) (e : Employee) (date : Time) (offset : ℚ) :
    Option Workday :=
  let e := e.ConvertFromData
  let st := asgmtPass S e.Assignments date offset
  let wkday := variPass S e.Variations st.1 date st.2
  (actualPass e.Leaves date wkday).1

/-! ## More quantities the claims speak of -/

/-- The place of a status in the order `DRAFT < REQUESTED < APPROVED`. -/
def statusRank (s : String) : Option Nat :=
  if s = "DRAFT" then some 0
  else if s = "REQUESTED" then some 1
  else if s = "APPROVED" then some 2
  else none

/-- The status `after` is earlier in the order than the status `before`. -/
def movedBack (before after : String) : Bool :=
  match statusRank after, statusRank before with
  | some a, some b => decide (a < b)
  | _, _ => false

/-- The field names of a date change. -/
def isDateField (field : String) : Prop :=
  toLower field ∈ ["startdate", "start", "enddate", "end", "dates"]

instance (field : String) : Decidable (isDateField field) := by
  unfold isDateField; infer_instance

/-- Midnight of the latest day on which work is recorded, 1970-01-01 when there is
none later. -/
def lastWorkDay (work : List Work) : Time :=
  work.foldl (fun m wk => max m wk.DateWorked.Midnight) epoch

/-- The Sunday that starts the week of `date`. -/
def weekStart (date : Time) : Time := date.Midnight.AddDays (-date.Midnight.Weekday)

/-- The seven days, Sunday to Saturday, of the week of `date`. -/
def weekDays (date : Time) : List Time :=
  (List.range 7).map fun i : Nat => (weekStart date).AddDays (i : Int)

/-- A day resolves, through `GetWorkday` at offset 0, to a workday with a code. -/
def codedDay (S : Sched) (e : Employee) (d : Time) : Bool :=
  match e.GetWorkday S d 0 with
  | some wd => decide (wd.Code ≠ "")
  | none => false

/-- The largest assignment ID of a list, 0 for the empty list. -/
def largestID (l : List Assignment) : Nat := (l.map fun a => a.ID).foldr max 0

/-! ## More concrete employees -/

/-- An employee with three `ACTUAL` ledger entries on 2024-03-04: 3 hours of code `A`,
3 hours of code `B`, 4 hours of code `C`. -/
def empThreeActuals : Employee :=
  { empAssigned with
    Leaves :=
      [⟨1, Time.Date 2024 3 4, "A", 3, "ACTUAL", ""⟩,
       ⟨2, Time.Date 2024 3 4, "B", 3, "ACTUAL", ""⟩,
       ⟨3, Time.Date 2024 3 4, "C", 4, "ACTUAL", ""⟩] }

/-- The assigned employee with a 6-hour ledger entry of code `V` on 2024-03-05. -/
def empSixHours : Employee :=
  { empAssigned with Leaves := [⟨1, Time.Date 2024 3 5, "V", 6, "APPROVED", ""⟩] }

/-- An employee whose assignment of ID 2 starts before the assignment of ID 1. -/
def empOutOfOrder : Employee :=
  (emp0.AddAssignment "s" "w1" (Time.Date 2024 2 1)).AddAssignment "s" "w2"
    (Time.Date 2024 1 1)

/-- The body of the loop of `GetWorkdayActual`, as `actualPass` folds it. -/
def actualStep (date : Time) (st : Option Workday × Bool) (lv : LeaveDay) :
    Option Workday × Bool :=
  if actualOn date lv then
    if !st.2 then (some (leaveWorkday lv), true)
    else
      match st.1 with
      | some wd =>
        if lv.Hours ≤ wd.Hours then (some { wd with Hours := wd.Hours + lv.Hours }, true)
        else (some { wd with Hours := wd.Hours + lv.Hours, Code := lv.Code }, true)
      | none => (none, true)
  else st

/-- Two assignments added, the second one removed, a third one added. -/
def opsReuse : List TimelineOp :=
  [.add "s" "w1" (Time.Date 2024 1 1), .add "s" "w2" (Time.Date 2024 2 1), .remove 2,
   .add "s" "w3" (Time.Date 2024 3 1)]

/-- The dates and hours of the days of every request after a `NewLeaveRequest` that
completed; nothing for a call that did not. -/
def materialized (r : Option (Except Fault Employee)) : List (List (Time × ℚ)) :=
  match r with
  | some (.ok e) => e.Requests.map fun q => q.RequestedDays.map fun d => (d.LeaveDate, d.Hours)
  | _ => []

/-! ## Purging, ranged deletion, balances -/

/-- Modelled from the spec: `ByVariation` is not under `src/` and the spec names no
order for variations; they are ordered by start date. `sort.Sort` is taken as a stable
sort. -/
def sortByVariation (l : List Variation) : List Variation :=
  l.insertionSort fun a b => a.StartDate ≤ b.StartDate

/-- Modelled from the spec: `ByBalance` is not under `src/` and the spec names no order
for balances; they are ordered by year. `sort.Sort` is taken as a stable sort. -/
def sortByBalance (l : List AnnualLeave) : List AnnualLeave :=
  l.insertionSort fun a b => a.Year ≤ b.Year

/-- The loop `for i := len(l) - 1; i >= 0; i-- { if p(l[i]) { l = append(l[:i],
l[i+1:]...) } }`, with `i + 1` as first argument. At index `i` the list still has its
first `i + 1` elements, so `l[i]` is always in range. -/
def dropBack {α : Type} (p : α → Bool) : Nat → List α → List α
  | 0, l => l
  | i + 1, l =>
    dropBack p i
      (match l.get? i with
       | some x => if p x then cut l i (i + 1) else l
       | none => l)

/-- The method `Employee.PurgeOldData`: the employee afterwards, and the returned
boolean or the panic of `e.Assignments[len(e.Assignments)-1]` on an empty list. -/
def Employee.PurgeOldData (e : Employee) (date : Time) : Employee × Except Fault Bool :=
  let e := e.ConvertFromData
  let vars := sortByVariation e.Variations
  let vars := dropBack (fun v => v.EndDate.Before date) vars.length vars
  let leaves := sortByLeaveDay e.Leaves
  let reqs := sortByLeaveRequest e.Requests
  let leaves := dropBack (fun lv => lv.LeaveDate.Before date) leaves.length leaves
  let reqs := dropBack (fun r => r.EndDate.Before date) reqs.length reqs
  let bals := sortByBalance e.Balances
  let bals := dropBack (fun b => b.Year < date.Year) bals.length bals
  let asgmts := sortByAssignment e.Assignments
  let e := { e with Variations := vars, Leaves := leaves, Requests := reqs, Balances := bals,
                    Assignments := asgmts }
  match asgmts.getLast? with
  | none => (e, .error (.panic "index out of range [-1]"))
  | some a => (e, .ok (decide (a.EndDate.Before date)))

/-- The range test of `RemoveLeaves`: dated `start` or later and `stop` or earlier. -/
def inRange (start stop : Time) (lv : LeaveDay) : Prop :=
  (lv.LeaveDate.Equal start ∨ lv.LeaveDate.After start) ∧
    (lv.LeaveDate.Equal stop ∨ lv.LeaveDate.Before stop)

instance (start stop : Time) (lv : LeaveDay) : Decidable (inRange start stop lv) := by
  unfold inRange; infer_instance

/-- The method `Employee.RemoveLeaves`: sort the ledger, find the first and the last
entry in range (the loop sets `startpos` at the first one and `endpos` at each later
one, as `spanFrom` does), and cut from the first to the last. -/
def Employee.RemoveLeaves (e : Employee) (start stop : Time) : Employee :=
  let e := e.ConvertFromData
  let leaves := sortByLeaveDay e.Leaves
  let se := spanFrom (fun lv => decide (inRange start stop lv)) leaves 0 (-1, -1)
  if se.1 ≥ 0 then
    let endpos := if se.2 < 0 then se.1 else se.2
    { e with Leaves := cut leaves se.1.toNat (endpos + 1).toNat }
  else { e with Leaves := leaves }

/-- The test of `DeleteLeavesBetweenDates`: dated `start`, dated `stop`, or after
`start` and before `stop`. -/
def betweenDates (start stop : Time) (lv : LeaveDay) : Prop :=
  lv.LeaveDate.Equal start ∨ lv.LeaveDate.Equal stop ∨
    (lv.LeaveDate.After start ∧ lv.LeaveDate.Before stop)

instance (start stop : Time) (lv : LeaveDay) : Decidable (betweenDates start stop lv) := by
  unfold betweenDates; infer_instance

/-- The method `Employee.DeleteLeavesBetweenDates`. -/
def Employee.DeleteLeavesBetweenDates (e : Employee) (start stop : Time) : Employee :=
  let e := e.ConvertFromData
  let leaves := dropBack (fun lv => decide (betweenDates start stop lv)) e.Leaves.length e.Leaves
  { e with Leaves := leaves }

/-- How a `for ... range` loop declares its variable: one variable for each iteration
(Go 1.22 and later), or one variable that all iterations share (earlier versions).
`src/` holds no `go.mod` that tells which the program is built with. -/
inductive LoopVar where
  | perIteration
  | shared
deriving DecidableEq, Repr

/-- What the pointer `oldLv` points at after an iteration that does not set it, the
range variable now holding `lv`: with a variable of its own for each iteration the old
value, with a shared variable the element of this iteration; nil stays nil. -/
def pointee (v : LoopVar) (oldLv : Option LeaveDay) (lv : LeaveDay) : Option LeaveDay :=
  match v with
  | .perIteration => oldLv
  | .shared => oldLv.map fun _ => lv

/-- The loop of `DeleteLeave`, started at index `i`: what `oldLv` points at, and `pos`.
An iteration whose entry has the ID sets `oldLv = &lv`, the address of the range
variable, and `pos = i`; there is no `break`. -/
def deleteScan (v : LoopVar) (id : Int) :
    List LeaveDay → Nat → Option LeaveDay × Int → Option LeaveDay × Int
  | [], _, st => st
  | lv :: t, i, st =>
    deleteScan v id t (i + 1) (if lv.ID = id then (some lv, (i : Int)) else (pointee v st.1 lv, st.2))

/-- The method `Employee.DeleteLeave`: the employee afterwards and the entry that the
returned pointer points at. The range variable is a copy of the element, so the removal
does not change it. -/
def Employee.DeleteLeave (v : LoopVar) (e : Employee) (id : Int) : Employee × Option LeaveDay :=
  let e := e.ConvertFromData
  let st := deleteScan v id e.Leaves 0 (none, -1)
  if st.2 ≥ 0 then ({ e with Leaves := cut e.Leaves st.2.toNat (st.2.toNat + 1) }, st.1)
  else (e, st.1)

/-- The loop of `UpdateAnnualLeave`: whether a balance of the year is present. The
assignments the loop makes to `al.Annual` and `al.Carryover` go to the range variable,
a copy of the element, and are not stored back in `e.Balances`. -/
def balanceFound (l : List AnnualLeave) (year : Int) : Bool :=
  l.foldl (fun found al => if al.Year = year then true else found) false

/-- The method `Employee.UpdateAnnualLeave`. -/
def Employee.UpdateAnnualLeave (e : Employee) (year : Int) (annual carry : ℚ) : Employee :=
  let e := e.ConvertFromData
  if !balanceFound e.Balances year then
    { e with Balances := sortByBalance (e.Balances ++
        [{ Year := year, Annual := annual, Carryover := carry }]) }
  else e

/-- An employee without assignments whose records straddle 2024-03-01: the first two
variations, the first three ledger entries, the first two requests and the balances of
2022 and 2023 fall before it. -/
def empPurge : Employee :=
  { emp0 with
    Variations :=
      [⟨1, "s", Time.Date 2024 1 1, Time.Date 2024 1 5, nightWeek⟩,
       ⟨2, "s", Time.Date 2024 2 5, Time.Date 2024 2 9, nightWeek⟩,
       ⟨3, "s", Time.Date 2024 2 26, Time.Date 2024 3 1, nightWeek⟩]
    Leaves :=
      [⟨1, Time.Date 2024 2 27, "V", 8, "APPROVED", "r1"⟩,
       ⟨2, Time.Date 2024 2 28, "V", 8, "APPROVED", "r1"⟩,
       ⟨3, Time.Date 2024 2 29, "V", 8, "APPROVED", "r2"⟩,
       ⟨4, Time.Date 2024 3 1, "V", 8, "APPROVED", "r2"⟩,
       ⟨5, Time.Date 2024 3 4, "H", 8, "ACTUAL", ""⟩]
    Requests :=
      [⟨"r0", "emp", 0, "V", Time.Date 2024 1 2, Time.Date 2024 1 3, "DRAFT", "", 0, [], []⟩,
       ⟨"r1", "emp", 0, "V", Time.Date 2024 2 27, Time.Date 2024 2 28, "APPROVED", "boss", 5,
         [], []⟩,
       ⟨"r2", "emp", 0, "V", Time.Date 2024 2 29, Time.Date 2024 3 1, "APPROVED", "boss", 5,
         [], []⟩]
    Balances := [⟨2022, 120, 0⟩, ⟨2023, 120, 8⟩, ⟨2024, 120, 16⟩, ⟨2025, 120, 0⟩] }

/-- The assigned employee with the draft request `r9` for Friday 2024-03-08 to Monday
2024-03-11, as `NewLeaveRequest` creates it: the two workdays are materialized, the
weekend is not. -/
def empWeekendRequest : Employee :=
  match empAssigned.NewLeaveRequest specSched "emp" "V" (Time.Date 2024 3 8)
      (Time.Date 2024 3 11) 0 "r9" (Time.Date 2024 2 1) with
  | some (.ok e1) => e1
  | _ => emp0

/-- The labels of the `switch` of `UpdateLeaveRequest`; the `switch` has no `default`. -/
def knownFields : List String :=
  ["startdate", "start", "enddate", "end", "code", "primarycode", "dates", "requested",
    "approve", "unapprove", "day", "requestday"]

/-- What the case `day` does to one requested day for the date `lvDate`. -/
def editDay (lvDate : Time) (code : String) (hours : ℚ) (lv : LeaveDay) : LeaveDay :=
  if lv.LeaveDate.Equal lvDate then
    { lv with Code := code, Hours := if code = "" then 0 else hours }
  else lv

/-! ## Editing one ledger entry -/

/-- The call `time.ParseInLocation("01/02/2006", s, time.UTC)`: two month digits, two
day digits and four year digits separated by `/`, a month in 1..12 and a day of that
month; `none` is the returned parse error. -/
def parseDateUS (s : String) : Option Time :=
  match s.data with
  | [m1, m2, '/', d1, d2, '/', y1, y2, y3, y4] =>
    match digitsVal [y1, y2, y3, y4], digitsVal [m1, m2], digitsVal [d1, d2] with
    | some y, some m, some d =>
      if 1 ≤ m ∧ m ≤ 12 ∧ 1 ≤ d ∧ d ≤ daysIn y m then some (Time.Date y m d) else none
    | _, _, _ => none
  | _ => none

/-- The `switch` of `UpdateLeave` on the matching entry; `parseHours` is the call
`strconv.ParseFloat(value, 64)`, `none` for its error. -/
def updateLeaveOne (parseHours : String → Option ℚ) (lv : LeaveDay) (field value : String) :
    Except Fault LeaveDay :=
  let f := toLower field
  if f = "date" then
    match parseDateUS value with
    | none => .error (.error "parsing time")
    | some date => .ok { lv with LeaveDate := date }
  else if f = "code" then .ok { lv with Code := value }
  else if f = "hours" then
    match parseHours value with
    | none => .error (.error "invalid syntax")
    | some hrs => .ok { lv with Hours := hrs }
  else if f = "status" then .ok { lv with Status := value }
  else if f = "requestid" then .ok { lv with RequestID := value }
  else .ok lv

/-- The loop of `UpdateLeave`: `found` is never set, so every entry is visited; the
entries passed are in the first list, `old` is the copy of the last matching entry as
it was, its date at midnight. A parse error returns at once with a nil entry. -/
def updateLeaveLoop (parseHours : String → Option ℚ) (id : Int) (field value : String) :
    List LeaveDay → List LeaveDay → Option LeaveDay →
    List LeaveDay × Except Fault (Option LeaveDay)
  | done, [], old => (done, .ok old)
  | done, lv :: rest, old =>
    if lv.ID = id then
      match updateLeaveOne parseHours lv field value with
      | .error f => (done ++ lv :: rest, .error f)
      | .ok lv2 =>
        updateLeaveLoop parseHours id field value (done ++ [lv2]) rest
          (some { lv with LeaveDate := lv.LeaveDate.Midnight })
    else updateLeaveLoop parseHours id field value (done ++ [lv]) rest old

/-- The method `Employee.UpdateLeave`: the employee afterwards and the returned entry
or error. -/
def Employee.UpdateLeave (parseHours : String → Option ℚ) (e : Employee) (id : Int)
    (field value : String) : Employee × Except Fault (Option LeaveDay) :=
  let e := e.ConvertFromData
  let r := updateLeaveLoop parseHours id field value [] e.Leaves none
  ({ e with Leaves := r.1 }, r.2)

/-- No two manually entered ledger entries, those with an empty `RequestID`, have the
same date and the same code. -/
def manualUnique (l : List LeaveDay) : Prop :=
  l.Pairwise fun a b =>
    a.RequestID = "" → b.RequestID = "" → ¬ (a.LeaveDate.Equal b.LeaveDate ∧ a.Code = b.Code)

instance (l : List LeaveDay) : Decidable (manualUnique l) := by
  unfold manualUnique; infer_instance

/-- An employee with two manually entered ledger entries of code `V`, on 2024-03-04 and
on 2024-03-05. -/
def empManual : Employee :=
  { emp0 with
    Leaves :=
      [⟨1, Time.Date 2024 3 4, "V", 8, "APPROVED", ""⟩,
       ⟨2, Time.Date 2024 3 5, "V", 8, "APPROVED", ""⟩] }

/-- The call `strconv.ParseFloat(s, 64)` on a plain decimal numeral `ddd` or `ddd.ddd`;
`none`, the error, for anything else. -/
def specParseHours (s : String) : Option ℚ :=
  match s.data.span Char.isDigit with
  | (ip, []) => (digitsVal ip).map fun a => (a : ℚ)
  | (ip, c :: fp) =>
    if c = '.' ∧ fp.all Char.isDigit then
      match digitsVal ip, digitsVal fp with
      | some a, some b => some ((a : ℚ) + (b : ℚ) / (10 : ℚ) ^ fp.length)
      | _, _ => none
    else none

/-! ## Work history, forecast, contacts, site tests -/

/-- Modelled from the spec: `ByEmployeeWork` is not under `src/` and the spec names no
order for the work history; it is ordered by the date worked. `sort.Sort` is taken as
a stable sort. -/
def sortByWork (l : List Work) : List Work :=
  l.insertionSort fun a b => a.DateWorked ≤ b.DateWorked

/-- Modelled from the spec: `ByEmployeeContact` is not under `src/` and the spec names
no order for contacts; they are ordered by `SortID`. `sort.Sort` is taken as a stable
sort. -/
def sortByContact (l : List Contact) : List Contact :=
  l.insertionSort fun a b => a.SortID ≤ b.SortID

/-- The method `Employee.GetWorkedHours`: hours of the work entries dated `start` or
later and before `stop`. It does not expand the payload and writes nothing. -/
def Employee.GetWorkedHours (e : Employee) (start stop : Time) : ℚ :=
  e.Work.foldl
    (fun answer wk =>
      if (wk.DateWorked.Equal start ∨ wk.DateWorked.After start) ∧ wk.DateWorked.Before stop
      then answer + wk.Hours else answer)
    0

/-- The method `Employee.GetLastWorkday`: the employee afterwards, its work history
sorted in place, and the returned date. -/
def Employee.GetLastWorkday (e : Employee) : Employee × Time :=
  let e := e.ConvertFromData
  let work := sortByWork e.Work
  ({ e with Work := work },
    match work.getLast? with
    | some w => w.DateWorked.Midnight
    | none => epoch)

/-- The fields of `labor.LaborCode`, a type of another module, that
`GetForecastHours` reads. -/
structure LaborCode where
  ChargeNumber : String
  Extension : String
  StartDate : Time
  EndDate : Time
deriving DecidableEq, Repr

/-- A work code and whether it is a leave code. -/
structure EmployeeCompareCode where
  Code : String
  IsLeave : Bool
deriving DecidableEq, Repr

/-- The test of `GetForecastHours` for a labor code of an assignment. -/
def laborMatch (lCode : LaborCode) (lc : EmployeeLaborCode) : Prop :=
  EqualFold lCode.ChargeNumber lc.ChargeNumber ∧ EqualFold lCode.Extension lc.Extension

instance (lCode : LaborCode) (lc : EmployeeLaborCode) : Decidable (laborMatch lCode lc) := by
  unfold laborMatch; infer_instance

/-- The first loop of `GetForecastHours`: whether some assignment carries the labor
code. -/
def hasLabor (lCode : LaborCode) (asgmts : List Assignment) : Bool :=
  asgmts.foldl
    (fun found a =>
      a.LaborCodes.foldl (fun found lc => if laborMatch lCode lc then true else found) found)
    false

/-- The innermost loops of `GetForecastHours`: `std` is added for every labor code that
matches, of every assignment whose range holds `current`. -/
def addStd (lCode : LaborCode) (asgmts : List Assignment) (current : Time) (std answer : ℚ) :
    ℚ :=
  asgmts.foldl
    (fun answer a =>
      if current.Equal a.StartDate ∨ current.Equal a.EndDate ∨
          (current.After a.StartDate ∧ current.Before a.EndDate) then
        a.LaborCodes.foldl
          (fun answer lc => if laborMatch lCode lc then answer + std else answer) answer
      else answer)
    answer

/-- The body of the day loop of `GetForecastHours`; `none` when `GetStandardWorkday`
used up its bound. -/
def forecastDay (S : Sched) (e : Employee) (lCode : LaborCode)
    (workcodes : List EmployeeCompareCode) (offset : ℚ) (lastWork current : Time) (answer : ℚ) :
    Option ℚ :=
  if current.After lastWork then
    if e.GetWorkedHours current (current.AddDays 1) = 0 then
      if current.Equal lCode.StartDate ∨ current.Equal lCode.EndDate ∨
          (current.After lCode.StartDate ∧ current.Before lCode.EndDate) then
        match e.GetWorkday S current offset with
        | some wd =>
          if wd.Code ≠ "" then
            workcodes.foldl
              (fun acc wc =>
                match acc with
                | none => none
                | some answer =>
                  if EqualFold wc.Code wd.Code ∧ !wc.IsLeave then
                    match e.GetStandardWorkday S current with
                    | none => none
                    | some std => some (addStd lCode e.Assignments current std answer)
                  else some answer)
              (some answer)
          else some answer
        | none => some answer
      else some answer
    else some answer
  else some answer

/-- The day loop of `GetForecastHours` from `current` to `stop`, with a bound on the
number of tests; `none` when a bound is used up. -/
def forecastLoop (S : Sched) (e : Employee) (lCode : LaborCode)
    (workcodes : List EmployeeCompareCode) (offset : ℚ) (lastWork stop : Time) :
    Nat → Time → ℚ → Option ℚ
  | 0, _, _ => none
  | n + 1, current, answer =>
    if current.Before stop then
      match forecastDay S e lCode workcodes offset lastWork current answer with
      | none => none
      | some answer => forecastLoop S e lCode workcodes offset lastWork stop n
          (current.AddDays 1) answer
    else some answer

/-- The method `Employee.GetForecastHours`: the employee afterwards and the returned
hours. Past the two early returns a non-empty work history is sorted in place. The day
loop is bounded by the number of days from the start to `stop` plus two tests. -/
def Employee.GetForecastHours (S : Sched) (e : Employee) (lCode : LaborCode)
    (start stop : Time) (workcodes : List EmployeeCompareCode) (offset : ℚ) :
    Employee × Option ℚ :=
  let e := e.ConvertFromData
  if !hasLabor lCode e.Assignments then (e, some 0)
  else if lCode.EndDate.Before start ∨ lCode.StartDate.After stop then (e, some 0)
  else
    let work := if e.Work.length > 0 then sortByWork e.Work else e.Work
    let lastWork :=
      match work.getLast? with
      | some w => w.DateWorked
      | none => epoch
    let e := { e with Work := work }
    (e, forecastLoop S e lCode workcodes offset lastWork stop
      (((stop - start.Midnight) / nsPerDay).toNat + 2) start.Midnight 0)

/-- The loop of `AddContactInfo`: the contacts with the value stored in those of the
type, whether there is one, and the largest `Id`, -1 for none. -/
def contactScan (l : List Contact) (typeID : Int) (value : String) :
    List Contact × Bool × Int :=
  l.foldl
    (fun st c =>
      let next := if st.2.2 < c.Id then c.Id else st.2.2
      if c.TypeID = typeID then (st.1 ++ [{ c with Value := value }], true, next)
      else (st.1 ++ [c], st.2.1, next))
    ([], false, -1)

/-- The method `Employee.AddContactInfo`. It does not expand the payload. -/
def Employee.AddContactInfo (e : Employee) (typeID : Int) (value : String) (sortid : Int) :
    Employee :=
  let st := contactScan e.ContactInfo typeID value
  if !st.2.1 then
    { e with ContactInfo := sortByContact (st.1 ++
        [{ Id := st.2.2 + 1, TypeID := typeID, Value := value, SortID := sortid }]) }
  else { e with ContactInfo := st.1 }

/-- The method `Employee.IsAssigned`. -/
def Employee.IsAssigned (e : Employee) (site workcenter : String) (start stop : Time) : Bool :=
  let e := e.ConvertFromData
  e.Assignments.foldl
    (fun answer a =>
      if EqualFold a.Site site ∧ EqualFold a.Workcenter workcenter ∧
          a.StartDate.After stop ∧ a.EndDate.Before start then true else answer)
    false

/-- The method `Employee.AtSite`. -/
def Employee.AtSite (e : Employee) (site : String) (start stop : Time) : Bool :=
  let e := e.ConvertFromData
  e.Assignments.foldl
    (fun answer a =>
      if EqualFold a.Site site ∧ a.StartDate.Before stop ∧ a.EndDate.After start then true
      else answer)
    false

/-- The assigned employee with two work entries, the later one first. -/
def empWorkUnsorted : Employee :=
  { empAssigned with
    Work := [⟨Time.Date 2024 3 5, "c1", "x", 8⟩, ⟨Time.Date 2024 3 4, "c1", "x", 8⟩] }

/-- An employee in the collapsed form: the payload holds one assignment, one ledger
entry and one labor code, the live fields are empty. -/
def empCollapsed : Employee :=
  { emp0 with
    Data := some
      { CompanyInfo := ⟨"acme", "e1"⟩
        Assignments := [⟨1, "s", "w", Time.Date 2024 1 1, sentinel, Time.Date 2024 1 1, 0, [], []⟩]
        Variations := []
        Balances := [⟨2024, 120, 0⟩]
        Leaves := [⟨1, Time.Date 2024 3 4, "V", 8, "APPROVED", ""⟩]
        Requests := []
        LaborCodes := [⟨"c1", "x"⟩] } }

/-- The employee with the unsorted work history and the labor code `c1`/`x` on its
assignment. -/
def empLabor : Employee :=
  { empWorkUnsorted with
    Assignments := empWorkUnsorted.Assignments.map fun a => { a with LaborCodes := [⟨"c1", "x"⟩] } }

/-! ## Package `plans`: reading periods (`src/soap/plans/readingperiod.go`) -/

/-- One day of a reading plan. The type is declared outside `src/`; `Passages` stands
for the fields that `readingperiod.go` does not read. -/
structure ReadingDay where
  Day : Int
  Completed : Bool
  Passages : List String
deriving DecidableEq, Repr

/-- A reading period. -/
structure ReadingPeriod where
  ID : Int
  Days : List ReadingDay
deriving DecidableEq, Repr

/-- Modelled from the spec: `ByReadingDay` is not under `src/` and the spec does not
describe it; the days are ordered by their `Day` number. `sort.Sort` is taken as a
stable sort. -/
def sortByReadingDay (l : List ReadingDay) : List ReadingDay :=
  l.insertionSort fun a b => a.Day ≤ b.Day

/-- The loop `for d, rday := range m.Days` of `UpdateReadingDay` from index `d` on, the
first argument counting the indices left. `rday` is read from the slice as it is when
the index is reached, so a `Day` number that an earlier pass stored at `d` is seen.
`updatePassage` is the method `ReadingDay.UpdatePassage`, whose source is not under
`src/`. Returns the days, `found`, and the error of `UpdatePassage` if there is one. -/
def readingLoop (updatePassage : ReadingDay → Int → String → String → Except String ReadingDay)
    (day id : Int) (field value : String) :
    Nat → Nat → List ReadingDay → Bool → List ReadingDay × Bool × Option Fault
  | 0, _, days, found => (days, found, none)
  | n + 1, d, days, found =>
    match days.get? d with
    | none => (days, found, none)
    | some rday =>
      if rday.Day = day then
        if toLower field = "sort" then
          if toLower value = "up" ∧ d > 0 then
            match days.get? (d - 1) with
            | none => (days, true, some (.panic "index out of range"))
            | some prev =>
              let days := days.set (d - 1) { prev with Day := rday.Day }
              let days := days.set d { rday with Day := prev.Day }
              readingLoop updatePassage day id field value n (d + 1) days true
          else if toLower value = "down" ∧ (d : Int) < (days.length : Int) - 1 then
            match days.get? (d + 1) with
            | none => (days, true, some (.panic "index out of range"))
            | some next =>
              let days := days.set (d + 1) { next with Day := rday.Day }
              let days := days.set d { rday with Day := next.Day }
              readingLoop updatePassage day id field value n (d + 1) days true
          else readingLoop updatePassage day id field value n (d + 1) days true
        else
          match updatePassage rday id field value with
          | .error err => (days, true, some (.error err))
          | .ok rday2 =>
            readingLoop updatePassage day id field value n (d + 1) (days.set d rday2) true
      else readingLoop updatePassage day id field value n (d + 1) days found

/-- The method `ReadingPeriod.UpdateReadingDay`: the period afterwards and the returned
error, `none` for nil. -/
def ReadingPeriod.UpdateReadingDay
    (updatePassage : ReadingDay → Int → String → String → Except String ReadingDay)
    (m : ReadingPeriod) (day id : Int) (field value : String) : ReadingPeriod × Option Fault :=
  if day = 0 then (m, some (.error "day can't be zero"))
  else
    let days := sortByReadingDay m.Days
    let r := readingLoop updatePassage day id field value days.length 0 days false
    match r.2.2 with
    | some f => ({ m with Days := r.1 }, some f)
    | none =>
      if !r.2.1 then ({ m with Days := r.1 }, some (.error "plan day not found"))
      else ({ m with Days := r.1 }, none)

/-- A reading of `UpdatePassage` that changes nothing. -/
def keepPassage (rday : ReadingDay) (_ : Int) (_ _ : String) : Except String ReadingDay :=
  .ok rday

/-- A period of three days numbered 1, 2, 3. -/
def periodThree : ReadingPeriod :=
  { ID := 1, Days := [⟨1, false, ["Gen 1"]⟩, ⟨2, false, ["Gen 2"]⟩, ⟨3, false, ["Gen 3"]⟩] }

/-! ## Package `teams`: company holidays (`src/teams/company.go`) -/

/-- A company holiday. -/
structure CompanyHoliday where
  Code : String
  Name : String
  SortID : Nat
  ActualDates : List Time
deriving DecidableEq, Repr

/-- The body of `ByCompanyHoliday.Less` on the two elements. -/
def holidayLess (a b : CompanyHoliday) : Bool :=
  if a.Code = b.Code then decide (a.SortID < b.SortID) else decide (EqualFold a.Code "H")

/-- The method `ByCompanyHoliday.Less(i, j)`; an index outside the slice is the runtime
panic. -/
def ByCompanyHoliday.Less (c : List CompanyHoliday) (i j : Nat) : Except Fault Bool :=
  match c.get? i, c.get? j with
  | some a, some b => .ok (holidayLess a b)
  | _, _ => .error (.panic "index out of range")

/-! ## Package `bible`: books (`src/soap/bible/book.go`) -/

/-- A book; `Chapters` stands for the chapters, whose type is declared outside `src/`. -/
structure BibleBook where
  Id : Int
  Code : String
  Title : String
  Chapters : List String
deriving DecidableEq, Repr

/-- The length `len(s)` of a Go string: the number of bytes of its UTF-8 form. -/
def byteLen (s : String) : Nat :=
  (s.data.map fun c =>
    if c.toNat < 128 then 1 else if c.toNat < 2048 then 2 else if c.toNat < 65536 then 3 else 4).sum

/-- The characters of `cs` that lie within the first `n` bytes. -/
def takeBytes : Nat → List Char → List Char
  | _, [] => []
  | n, c :: cs =>
    if byteLen ⟨[c]⟩ ≤ n then c :: takeBytes (n - byteLen ⟨[c]⟩) cs else []

/-- The method `BibleBook.IsBook`: the slice expression `b.Title[:length]` panics when
`length` exceeds `len(b.Title)`. A cut inside a character of several bytes keeps the
characters before it. -/
def BibleBook.IsBook (b : BibleBook) (name : String) : Except Fault Bool :=
  let length := byteLen name
  if length > byteLen b.Title then .error (.panic "slice bounds out of range")
  else .ok (decide (EqualFold ⟨takeBytes length b.Title.data⟩ name))

/-- An employee whose two assignments are stored out of start-date order: the open one
from 2024-02-01 before the closed one of January 2024. -/
def empUnsorted : Employee :=
  { emp0 with
    Assignments :=
      [⟨2, "s", "w2", Time.Date 2024 2 1, sentinel, epoch, 0, [], []⟩,
       ⟨1, "s", "w1", Time.Date 2024 1 1, Time.Date 2024 1 31, epoch, 0, [], []⟩] }

/-- The request `r1` of the scenario as submitted: 2024-03-04..2024-03-08, code `V`,
five requested days of 8 hours. -/
def scenarioRequest : LeaveRequest :=
  { ID := "r1", EmployeeID := "emp", RequestDate := Time.Date 2024 2 1, PrimaryCode := "V",
    StartDate := Time.Date 2024 3 4, EndDate := Time.Date 2024 3 8, Status := "REQUESTED",
    ApprovedBy := "", ApprovalDate := zeroTime,
    RequestedDays :=
      [⟨0, Time.Date 2024 3 4, "V", 8, "REQUESTED", "r1"⟩,
       ⟨0, Time.Date 2024 3 5, "V", 8, "REQUESTED", "r1"⟩,
       ⟨0, Time.Date 2024 3 6, "V", 8, "REQUESTED", "r1"⟩,
       ⟨0, Time.Date 2024 3 7, "V", 8, "REQUESTED", "r1"⟩,
       ⟨0, Time.Date 2024 3 8, "V", 8, "REQUESTED", "r1"⟩],
    Comments := [] }

/-- An employee on a schedule of four 10-hour days, Monday to Thursday, from 2024-01-01,
with work recorded on 2024-03-01 and three ledger entries: 6 hours entered at 22:00 of
2024-03-04, 5 hours on 2024-03-06, and 2 hours on 2024-02-28. -/
def empTenHour : Employee :=
  { emp0 with
    Assignments :=
      [⟨1, "s", "w", Time.Date 2024 1 1, sentinel, epoch, 0,
        [⟨0, [⟨0, "", "", 0⟩, ⟨1, "w", "D", 10⟩, ⟨2, "w", "D", 10⟩, ⟨3, "w", "D", 10⟩,
              ⟨4, "w", "D", 10⟩, ⟨5, "", "", 0⟩, ⟨6, "", "", 0⟩]⟩], []⟩]
    Work := [⟨Time.Date 2024 3 1, "c1", "x", 10⟩]
    Leaves :=
      [⟨1, (Time.Date 2024 3 4).AddHours 22, "V", 6, "APPROVED", ""⟩,
       ⟨2, Time.Date 2024 3 6, "V", 5, "APPROVED", ""⟩,
       ⟨3, Time.Date 2024 2 28, "S", 2, "ACTUAL", ""⟩] }

/-- An employee whose only assignment carries the ID 2^63. -/
def empHugeID : Employee :=
  { emp0 with
    Assignments :=
      [⟨9223372036854775808, "s", "w1", Time.Date 2024 1 1, sentinel, epoch, 0, [], []⟩] }

/-- An employee whose two assignments carry the IDs 2^63 - 1 and 2^63. -/
def empHugeIDs : Employee :=
  { emp0 with
    Assignments :=
      [⟨9223372036854775807, "s", "w1", Time.Date 2024 1 1, Time.Date 2024 1 31, epoch, 0, [],
        []⟩,
       ⟨9223372036854775808, "s", "w2", Time.Date 2024 2 1, sentinel, epoch, 0, [], []⟩] }

/-! # Theorems -/

/-! ## Work suppresses leave -/

theorem workPass_fst_from (work : List Work) (date : Time) (a : ℚ) (t : Time) :
    (work.foldl
      (fun st wk =>
        (if wk.DateWorked.SameDay date then st.1 + wk.Hours else st.1,
         if wk.DateWorked.After st.2 then wk.DateWorked.Midnight else st.2))
      (a, t)).1 = a + workedOn work date := by
  induction work generalizing a t with
  | nil => simp [workedOn]
  | cons wk rest ih =>
    rw [List.foldl_cons, ih]
    by_cases h : wk.DateWorked.SameDay date
    · simp [workedOn, List.filter_cons, h, add_assoc]
    · simp [workedOn, List.filter_cons, h]

theorem workPass_fst (work : List Work) (date : Time) :
    (workPass work date).1 = workedOn work date := by
  unfold workPass
  rw [workPass_fst_from]
  simp

theorem convert_work (e : Employee) : e.ConvertFromData.Work = e.Work := by
  unfold Employee.ConvertFromData
  cases e.Data <;> rfl

/-- C3: on a date whose work entries sum to more than zero hours, `GetWorkday`
returns exactly what `GetWorkdayWOLeave` returns, and the result is the same for
every employee that differs only in the leave ledger. -/
theorem C3_work_suppresses_leave (S : Sched) (e : Employee) (date : Time) (offset : ℚ)
    (hwork : workedOn e.Work date > 0) :
    e.GetWorkday S date offset = e.GetWorkdayWOLeave S date offset ∧
    ∀ e2 : Employee,
      { e2.ConvertFromData with Leaves := [] } = { e.ConvertFromData with Leaves := [] } →
      e2.GetWorkday S date offset = e.GetWorkday S date offset := by
  have key : ∀ x : Employee, workedOn x.Work date > 0 →
      x.GetWorkday S date offset = x.GetWorkdayWOLeave S date offset := by
    intro x hx
    unfold Employee.GetWorkday Employee.GetWorkdayWOLeave
    simp only [workPass_fst, convert_work]
    rw [if_pos hx]
  refine ⟨key e hwork, ?_⟩
  intro e2 h2
  have hw : e2.Work = e.Work := by
    have := congrArg Employee.Work h2
    simpa [convert_work] using this
  rw [key e hwork, key e2 (by rw [hw]; exact hwork)]
  unfold Employee.GetWorkdayWOLeave
  have ha : e2.ConvertFromData.Assignments = e.ConvertFromData.Assignments := by
    have := congrArg Employee.Assignments h2
    simpa using this
  have hv : e2.ConvertFromData.Variations = e.ConvertFromData.Variations := by
    have := congrArg Employee.Variations h2
    simpa using this
  simp only [ha, hv]

/-- A work entry of 6 hours on 2024-03-04 and an 8-hour ledger entry on the same day:
the workday of the schedule is returned. -/
theorem C3_work_suppresses_leave_witness :
    workedOn [⟨Time.Date 2024 3 4, "c", "e", 6⟩] (Time.Date 2024 3 4) > 0 ∧
    ({ empAssigned with
        Work := [⟨Time.Date 2024 3 4, "c", "e", 6⟩]
        Leaves := [⟨1, Time.Date 2024 3 4, "V", 8, "APPROVED", ""⟩] } : Employee).GetWorkday
      specSched (Time.Date 2024 3 4) 0 = some ⟨1, "w", "D", 8⟩ :=
  ⟨by decide!, by
    rw [(C3_work_suppresses_leave specSched _ (Time.Date 2024 3 4) 0 (by decide!)).1]
    decide!⟩

/-! ## The collapsed payload -/

theorem convert_data (e : Employee) : e.ConvertFromData.Data = none := by
  unfold Employee.ConvertFromData
  cases h : e.Data <;> simp [h]

theorem convert_of_none (e : Employee) (h : e.Data = none) : e.ConvertFromData = e := by
  unfold Employee.ConvertFromData
  rw [h]

theorem convert_idem (e : Employee) : e.ConvertFromData.ConvertFromData = e.ConvertFromData :=
  convert_of_none _ (convert_data e)

/-! ## Positions -/

theorem lastPosFrom_none {α : Type} (p : α → Bool) (l : List α) (i : Nat) (pos : Int)
    (h : ∀ x ∈ l, p x = false) : lastPosFrom p l i pos = pos := by
  induction l generalizing i pos with
  | nil => rfl
  | cons x t ih =>
    have hx : p x = false := h x (List.mem_cons_self _ _)
    simp only [lastPosFrom, hx]
    exact ih _ _ (fun y hy => h y (List.mem_cons_of_mem _ hy))

theorem lastPosFrom_split {α : Type} (p : α → Bool) (pre : List α) (x : α) (post : List α)
    (i : Nat) (pos : Int) (hx : p x = true) (hpost : ∀ y ∈ post, p y = false) :
    lastPosFrom p (pre ++ x :: post) i pos = ((i + pre.length : Nat) : Int) := by
  induction pre generalizing i pos with
  | nil =>
    simp only [List.nil_append, lastPosFrom, hx, if_true, List.length_nil, Nat.add_zero]
    exact lastPosFrom_none p post _ _ hpost
  | cons z t ih =>
    show lastPosFrom p (t ++ x :: post) (i + 1) (if p z = true then (i : Int) else pos) = _
    rw [ih, List.length_cons]
    congr 1
    omega

theorem exists_last_split {α : Type} (p : α → Bool) (l : List α) (h : ∃ x ∈ l, p x = true) :
    ∃ pre x post, l = pre ++ x :: post ∧ p x = true ∧ ∀ y ∈ post, p y = false := by
  induction l with
  | nil => obtain ⟨x, hx, _⟩ := h; cases hx
  | cons z t ih =>
    by_cases ht : ∃ x ∈ t, p x = true
    · obtain ⟨pre, x, post, hl, hx, hpost⟩ := ih ht
      exact ⟨z :: pre, x, post, by rw [hl]; rfl, hx, hpost⟩
    · obtain ⟨x, hxm, hx⟩ := h
      have hz : p z = true := by
        rcases List.mem_cons.1 hxm with rfl | hm
        · exact hx
        · exact absurd ⟨x, hm, hx⟩ ht
      refine ⟨[], z, t, rfl, hz, ?_⟩
      intro y hy
      cases hpy : p y
      · rfl
      · exact absurd ⟨y, hy, hpy⟩ ht

theorem cut_split {α : Type} (pre : List α) (x : α) (post : List α) :
    cut (pre ++ x :: post) pre.length (pre.length + 1) = pre ++ post := by
  unfold cut
  rw [List.take_left' rfl]
  have : pre ++ x :: post = (pre ++ [x]) ++ post := by simp
  rw [this, List.drop_left' (by simp)]

theorem deleteAt_idxsFrom {α : Type} (p : α → Bool) (t pre : List α) :
    deleteAt (idxsFrom p t pre.length) (pre ++ t) = pre ++ t.filter fun x => !p x := by
  induction t generalizing pre with
  | nil => simp [idxsFrom, deleteAt]
  | cons x t ih =>
    have h1 := ih (pre ++ [x])
    simp only [List.length_append, List.length_singleton, List.append_assoc,
      List.singleton_append] at h1
    by_cases hx : p x = true
    · simp only [idxsFrom, hx, if_true, List.filter_cons, Bool.not_true]
      unfold deleteAt at h1 ⊢
      rw [List.foldr_cons, h1]
      have := cut_split pre x (t.filter fun x => !p x)
      simpa using this
    · simp only [Bool.not_eq_true] at hx
      simp only [idxsFrom, hx, List.filter_cons, Bool.not_false]
      simpa using h1

/-! ## Repeated upsert -/

theorem leaveScan_found_from (l : List LeaveDay) (id : Int) (date : Time) (code : String)
    (st : Bool × Int) (h : st.1 = true) :
    (l.foldl
      (fun st lv =>
        if (lv.LeaveDate.Equal date ∧ EqualFold lv.Code code) ∨ lv.ID = id then (true, st.2)
        else if lv.ID > st.2 then (st.1, lv.ID) else st)
      st).1 = true := by
  induction l generalizing st with
  | nil => exact h
  | cons lv t ih =>
    rw [List.foldl_cons]
    apply ih
    split_ifs <;> simp [h]

theorem leaveScan_found (l : List LeaveDay) (id : Int) (date : Time) (code : String)
    (h : ∃ lv ∈ l, lv.LeaveDate = date ∧ EqualFold lv.Code code) :
    (leaveScan l id date code).1 = true := by
  obtain ⟨lv, hm, hd, hc⟩ := h
  obtain ⟨pre, post, rfl⟩ := List.append_of_mem hm
  unfold leaveScan
  rw [List.foldl_append, List.foldl_cons]
  apply leaveScan_found_from
  simp [hd, hc]

/-- Whenever the ledger already holds an entry of the date and code, `AddLeave`
returns the expanded employee as it was: nothing of the call is stored. -/
theorem AddLeave_of_match (e : Employee) (id : Int) (date : Time) (code status : String)
    (hours : ℚ) (requestID : Option String)
    (h : ∃ lv ∈ e.ConvertFromData.Leaves, lv.LeaveDate = date ∧ EqualFold lv.Code code) :
    e.AddLeave id date code status hours requestID = .ok e.ConvertFromData := by
  unfold Employee.AddLeave
  simp [leaveScan_found _ id date code h]

/-- C4: on an empty ledger, `AddLeave` for 2024-03-04, code `V`, 8 hours, status
`APPROVED`, followed by `AddLeave` for the same date and code with 4 hours and status
`ACTUAL`, leaves one entry, and it still carries 8 hours and `APPROVED`: the second
call stores nothing. -/
theorem C4_second_AddLeave_is_lost :
    ∃ e1 : Employee,
      emp0.AddLeave 0 (Time.Date 2024 3 4) "V" "APPROVED" 8 (some "r1") = .ok e1 ∧
      e1.AddLeave 0 (Time.Date 2024 3 4) "V" "ACTUAL" 4 (some "r1") = .ok e1 ∧
      e1.Leaves = [⟨1, Time.Date 2024 3 4, "V", 8, "APPROVED", "r1"⟩] :=
  ⟨{ emp0 with Leaves := [⟨1, Time.Date 2024 3 4, "V", 8, "APPROVED", "r1"⟩] },
    by decide!, by decide!, rfl⟩

/-! ## Yearly balances -/

theorem balanceScan_fst_from (l : List AnnualLeave) (year : Int) (st : Bool × ℚ × ℚ) :
    (l.foldl
      (fun st al =>
        let found := if al.Year = year then true else st.1
        if al.Year = year - 1 then (found, al.Annual, al.Carryover) else (found, st.2.1, st.2.2))
      st).1 = (st.1 || l.any fun al => decide (al.Year = year)) := by
  induction l generalizing st with
  | nil => simp
  | cons al t ih =>
    rw [List.foldl_cons, ih]
    simp only [List.any_cons]
    split_ifs <;> first | (exfalso; omega) | simp [*]

theorem balanceScan_snd_from (l : List AnnualLeave) (year : Int) (st : Bool × ℚ × ℚ)
    (h : ∀ al ∈ l, al.Year ≠ year - 1) :
    (l.foldl
      (fun st al =>
        let found := if al.Year = year then true else st.1
        if al.Year = year - 1 then (found, al.Annual, al.Carryover) else (found, st.2.1, st.2.2))
      st).2 = st.2 := by
  induction l generalizing st with
  | nil => rfl
  | cons al t ih =>
    rw [List.foldl_cons, ih _ (fun x hx => h x (List.mem_cons_of_mem _ hx))]
    simp [h al (List.mem_cons_self _ _)]

theorem balanceScan_found (l : List AnnualLeave) (year : Int) :
    (balanceScan l year).1 = true ↔ ∃ al ∈ l, al.Year = year := by
  unfold balanceScan
  rw [balanceScan_fst_from]
  simp

theorem balanceScan_no_prior (l : List AnnualLeave) (year : Int)
    (h : ∀ al ∈ l, al.Year ≠ year - 1) : (balanceScan l year).2 = (0, 0) := by
  unfold balanceScan
  rw [balanceScan_snd_from _ _ _ h]

theorem balanceScan_prior (pre : List AnnualLeave) (p : AnnualLeave) (post : List AnnualLeave)
    (year : Int) (hp : p.Year = year - 1) (hpost : ∀ q ∈ post, q.Year ≠ year - 1) :
    (balanceScan (pre ++ p :: post) year).2 = (p.Annual, p.Carryover) := by
  unfold balanceScan
  rw [List.foldl_append, List.foldl_cons, balanceScan_snd_from _ _ _ hpost]
  simp [hp]

theorem halvings_spec (fuel : Nat) : ∀ n, n ≤ fuel → 0 < n →
    2 ^ halvings fuel n ≤ n ∧ n < 2 ^ (halvings fuel n + 1) := by
  induction fuel with
  | zero => intro n h h0; omega
  | succ f ih =>
    intro n h h0
    unfold halvings
    by_cases h2 : n < 2
    · simp only [h2, if_true]
      constructor <;> simp <;> omega
    · simp only [h2, if_false]
      obtain ⟨h3, h4⟩ := ih (n / 2) (by omega) (by omega)
      constructor
      · rw [pow_succ]; omega
      · rw [pow_succ]; omega

theorem ilog2_spec (n : Nat) (h : 0 < n) : 2 ^ ilog2 n ≤ n ∧ n < 2 ^ (ilog2 n + 1) :=
  halvings_spec n n (le_refl _) h

theorem floorLog2_le (a : ℚ) (h : 0 < a) : (2 : ℚ) ^ floorLog2 a ≤ a := by
  unfold floorLog2
  simp only
  split_ifs with hk
  · exact hk
  · have hn : 0 < a.num.natAbs := Int.natAbs_pos.mpr (Rat.num_pos.mpr h).ne.symm
    have hd : 0 < a.den := a.den_pos
    obtain ⟨h1, -⟩ := ilog2_spec _ hn
    obtain ⟨-, h2⟩ := ilog2_spec _ hd
    have ha : a = (a.num.natAbs : ℚ) / (a.den : ℚ) := by
      have : ((a.num.natAbs : Int) : ℚ) = (a.num : ℚ) := by
        rw [Int.natAbs_of_nonneg (Rat.num_pos.mpr h).le]
      rw [← Int.cast_natCast, this, Rat.num_div_den]
    have e1 : ((2 : ℚ) ^ ilog2 a.num.natAbs) ≤ (a.num.natAbs : ℚ) := by exact_mod_cast h1
    have e2 : (a.den : ℚ) ≤ (2 : ℚ) ^ (ilog2 a.den + 1) := by exact_mod_cast h2.le
    have hdq : (0 : ℚ) < a.den := by exact_mod_cast hd
    have : (2 : ℚ) ^ ((ilog2 a.num.natAbs : Int) - (ilog2 a.den : Int) - 1) =
        (2 : ℚ) ^ ilog2 a.num.natAbs / (2 : ℚ) ^ (ilog2 a.den + 1) := by
      rw [sub_sub, zpow_sub₀ (by norm_num)]
      norm_cast
    rw [this]
    calc (2 : ℚ) ^ ilog2 a.num.natAbs / (2 : ℚ) ^ (ilog2 a.den + 1)
        ≤ (a.num.natAbs : ℚ) / (a.den : ℚ) := div_le_div₀ (by positivity) e1 hdq e2
      _ = a := ha.symm

theorem round64_scaled (z : Int) (q : ℚ) (hq : q ≠ 0)
    (h : |q| / (2 : ℚ) ^ (floorLog2 |q| - 52) = (z : ℚ)) : round64 q = q := by
  unfold round64
  simp only [hq, if_false, h]
  have hf : Rat.floor (z : ℚ) = z := by
    have : Rat.floor (z : ℚ) = ⌊(z : ℚ)⌋ := rfl
    rw [this, Int.floor_intCast]
  rw [hf]
  simp only [sub_self, show (0 : ℚ) < 1 / 2 by norm_num, if_true]
  rw [← h]
  have h2 : (2 : ℚ) ^ (floorLog2 |q| - 52) ≠ 0 := zpow_ne_zero _ (by norm_num)
  rw [mul_assoc, div_mul_cancel₀ _ h2]
  split_ifs with hneg
  · rw [abs_of_neg hneg]; ring
  · rw [abs_of_nonneg (not_lt.mp hneg)]; ring

/-- A number with a significand of at most 53 bits is a `float64`: rounding leaves it
as it is. -/
theorem round64_exact (n : Int) (k : Nat) (h : |n| < 2 ^ 53) :
    round64 ((n : ℚ) / 2 ^ k) = (n : ℚ) / 2 ^ k := by
  by_cases hn : n = 0
  · subst hn; simp [round64]
  have hq : (n : ℚ) / 2 ^ k ≠ 0 := by
    apply div_ne_zero
    · exact_mod_cast hn
    · positivity
  have ha : 0 < |(n : ℚ) / 2 ^ k| := abs_pos.mpr hq
  have hle := floorLog2_le _ ha
  have hlt : |(n : ℚ) / 2 ^ k| < (2 : ℚ) ^ ((53 : Int) - k) := by
    have h53 : |(n : ℚ)| < 2 ^ 53 := by
      have : ((|n| : Int) : ℚ) < 2 ^ 53 := by exact_mod_cast h
      rwa [Int.cast_abs] at this
    have e53 : (2 : ℚ) ^ (53 : Int) = 2 ^ 53 := by norm_num
    rw [abs_div, abs_of_pos (by positivity : (0 : ℚ) < 2 ^ k), zpow_sub₀ (by norm_num),
      zpow_natCast, e53]
    exact div_lt_div_of_pos_right h53 (by positivity)
  have hp : floorLog2 |(n : ℚ) / 2 ^ k| < 53 - k := by
    have := lt_of_le_of_lt hle hlt
    exact (zpow_lt_zpow_iff_right₀ (by norm_num : (1 : ℚ) < 2)).mp this
  obtain ⟨t, ht⟩ : ∃ t : Nat, floorLog2 |(n : ℚ) / 2 ^ k| - 52 = -((k : Int) + t) :=
    ⟨(-(k : Int) - (floorLog2 |(n : ℚ) / 2 ^ k| - 52)).toNat, by omega⟩
  apply round64_scaled (|n| * 2 ^ t) _ hq
  rw [ht, zpow_neg, abs_div, abs_of_pos (by positivity : (0 : ℚ) < 2 ^ k)]
  have : (2 : ℚ) ^ ((k : Int) + t) = 2 ^ k * 2 ^ t := by
    rw [zpow_add₀ (by norm_num)]; norm_cast
  rw [this]
  push_cast
  field_simp
  ring

/-- Rounding leaves a whole multiple of `2 ^ -k` below `2 ^ (53 - k)` as it is. -/
theorem round64_grid (k : Nat) (q : ℚ) (hg : ∃ n : Int, q = (n : ℚ) / 2 ^ k)
    (hb : |q| * 2 ^ k < 2 ^ 53) : round64 q = q := by
  obtain ⟨n, rfl⟩ := hg
  apply round64_exact
  rw [abs_div, abs_of_pos (by positivity : (0 : ℚ) < 2 ^ k),
    div_mul_cancel₀ _ (by positivity : (2 : ℚ) ^ k ≠ 0)] at hb
  have : ((|n| : Int) : ℚ) < ((2 ^ 53 : Int) : ℚ) := by
    rw [Int.cast_abs]; exact_mod_cast hb
  exact_mod_cast this

/-- Subtracting one after the other in `float64` is exact on whole multiples of
`2 ^ -k` whose absolute values total less than `2 ^ (53 - k)`. -/
theorem fsub_fold_exact (k : Nat) : ∀ (hs : List ℚ) (c : ℚ),
    (∃ n : Int, c = (n : ℚ) / 2 ^ k) → (∀ h ∈ hs, ∃ n : Int, h = (n : ℚ) / 2 ^ k) →
    (|c| + (hs.map fun h => |h|).sum) * 2 ^ k < 2 ^ 53 →
    hs.foldl fsub c = c - hs.sum := by
  intro hs
  induction hs with
  | nil => intro c _ _ _; simp
  | cons h t ih =>
    intro c hc hall hb
    obtain ⟨n, hn⟩ := hc
    obtain ⟨m, hm⟩ := hall h (List.mem_cons_self _ _)
    have hpos : (0 : ℚ) < 2 ^ k := by positivity
    have hsum : 0 ≤ (t.map fun h => |h|).sum :=
      List.sum_nonneg (by
        intro x hx
        obtain ⟨y, -, rfl⟩ := List.mem_map.mp hx
        exact abs_nonneg y)
    rw [List.map_cons, List.sum_cons] at hb
    have hsub : |c - h| ≤ |c| + |h| := abs_sub c h
    have hg : ∃ z : Int, c - h = z / 2 ^ k := ⟨n - m, by rw [hn, hm]; push_cast; ring⟩
    have hstep : fsub c h = c - h := by
      unfold fsub
      apply round64_grid k _ hg
      calc |c - h| * 2 ^ k ≤ (|c| + (|h| + (t.map fun h => |h|).sum)) * 2 ^ k := by
            apply mul_le_mul_of_nonneg_right _ hpos.le
            linarith
        _ < 2 ^ 53 := hb
    rw [List.foldl_cons, hstep, ih (c - h) hg (fun x hx => hall x (List.mem_cons_of_mem _ hx)),
      List.sum_cons]
    · ring
    · calc (|c - h| + (t.map fun h => |h|).sum) * 2 ^ k
          ≤ (|c| + (|h| + (t.map fun h => |h|).sum)) * 2 ^ k := by
            apply mul_le_mul_of_nonneg_right _ hpos.le
            linarith
        _ < 2 ^ 53 := hb

theorem carryLoop_eq (l : List LeaveDay) (year : Int) (carry : ℚ) :
    carryLoop l year carry =
      (vacationDays l (year - 1)).foldl (fun c lv => fsub c lv.Hours) carry := by
  unfold carryLoop vacationDays
  induction l generalizing carry with
  | nil => simp
  | cons lv t ih =>
    rw [List.foldl_cons, ih]
    by_cases h : lv.LeaveDate.Year = year - 1 ∧ toLower lv.Code = "v" ∧
        toLower lv.Status = "actual"
    · simp only [h, and_self, if_true, List.filter_cons, decide_True, List.foldl_cons]
    · simp [List.filter_cons, h]

/-- The carryover is the exact difference when all numbers are whole multiples of
`2 ^ -k` whose absolute values total less than `2 ^ (53 - k)`. -/
theorem carry_exact (l : List LeaveDay) (y : Int) (a c : ℚ) (k : Nat)
    (ha : ∃ n : Int, a = (n : ℚ) / 2 ^ k) (hc : ∃ n : Int, c = (n : ℚ) / 2 ^ k)
    (hl : ∀ lv ∈ vacationDays l y, ∃ n : Int, lv.Hours = (n : ℚ) / 2 ^ k)
    (hb : (|a| + |c| + ((vacationDays l y).map fun lv => |lv.Hours|).sum) * 2 ^ k < 2 ^ 53) :
    (vacationDays l y).foldl (fun c lv => fsub c lv.Hours) (fadd a c) =
      a + c - vacationUsed l y := by
  obtain ⟨n, hn⟩ := ha
  obtain ⟨m, hm⟩ := hc
  have hpos : (0 : ℚ) < 2 ^ k := by positivity
  have hsum : 0 ≤ ((vacationDays l y).map fun lv => |lv.Hours|).sum :=
    List.sum_nonneg (by
      intro x hx
      obtain ⟨z, -, rfl⟩ := List.mem_map.mp hx
      exact abs_nonneg _)
  have hg : ∃ z : Int, a + c = z / 2 ^ k := ⟨n + m, by rw [hn, hm]; push_cast; ring⟩
  have habs : |a + c| ≤ |a| + |c| := abs_add a c
  have hadd : fadd a c = a + c := by
    unfold fadd
    apply round64_grid k _ hg
    calc |a + c| * 2 ^ k
        ≤ (|a| + |c| + ((vacationDays l y).map fun lv => |lv.Hours|).sum) * 2 ^ k := by
          apply mul_le_mul_of_nonneg_right _ hpos.le
          linarith
      _ < 2 ^ 53 := hb
  have hfold : (vacationDays l y).foldl (fun c lv => fsub c lv.Hours) (fadd a c) =
      ((vacationDays l y).map fun lv => lv.Hours).foldl fsub (fadd a c) := by
    rw [List.foldl_map]
  have hmap : (((vacationDays l y).map fun lv => lv.Hours).map fun h => |h|) =
      (vacationDays l y).map fun lv => |lv.Hours| := by
    rw [List.map_map]; rfl
  rw [hfold, hadd, fsub_fold_exact k _ _ hg]
  · rfl
  · intro h hh
    obtain ⟨lv, hlv, rfl⟩ := List.mem_map.mp hh
    exact hl lv hlv
  · rw [hmap]
    calc (|a + c| + ((vacationDays l y).map fun lv => |lv.Hours|).sum) * 2 ^ k
        ≤ (|a| + |c| + ((vacationDays l y).map fun lv => |lv.Hours|).sum) * 2 ^ k := by
          apply mul_le_mul_of_nonneg_right _ hpos.le
          linarith
      _ < 2 ^ 53 := hb

/-- C6, as amended: `CreateLeaveBalance(year)` changes no balance when one for `year`
exists, and calling it twice equals calling it once; otherwise it appends exactly one
balance for `year`: annual 120 and carryover 0 when there is no balance for `year - 1`
or the last such balance has annual 0, and otherwise the annual of that balance and,
as carryover, the `float64` sum of its annual and carryover from which the hours of
the `ACTUAL` entries of code `V` dated in `year - 1` are subtracted one after the
other in ledger order, each difference rounded to `float64`. That carryover is the
annual plus the carryover minus the sum of these hours when, for some `k`, all these
numbers are whole multiples of `2 ^ -k` whose absolute values total less than
`2 ^ (53 - k)`. -/
theorem C6_create_leave_balance (e : Employee) (year : Int) :
    ((∃ al ∈ e.ConvertFromData.Balances, al.Year = year) →
      (e.CreateLeaveBalance year).Balances = e.ConvertFromData.Balances) ∧
    (e.CreateLeaveBalance year).CreateLeaveBalance year = e.CreateLeaveBalance year ∧
    ((∀ al ∈ e.ConvertFromData.Balances, al.Year ≠ year) →
      ((∀ al ∈ e.ConvertFromData.Balances, al.Year ≠ year - 1) →
        (e.CreateLeaveBalance year).Balances =
          e.ConvertFromData.Balances ++ [⟨year, 120, 0⟩]) ∧
      (∀ pre p post, e.ConvertFromData.Balances = pre ++ p :: post → p.Year = year - 1 →
        (∀ q ∈ post, q.Year ≠ year - 1) →
        (p.Annual = 0 →
          (e.CreateLeaveBalance year).Balances =
            e.ConvertFromData.Balances ++ [⟨year, 120, 0⟩]) ∧
        (p.Annual ≠ 0 →
          (e.CreateLeaveBalance year).Balances =
            e.ConvertFromData.Balances ++
              [⟨year, p.Annual,
                (vacationDays e.ConvertFromData.Leaves (year - 1)).foldl
                  (fun c lv => fsub c lv.Hours) (fadd p.Annual p.Carryover)⟩] ∧
          ∀ k : Nat, (∃ n : Int, p.Annual = (n : ℚ) / 2 ^ k) →
            (∃ n : Int, p.Carryover = (n : ℚ) / 2 ^ k) →
            (∀ lv ∈ vacationDays e.ConvertFromData.Leaves (year - 1),
              ∃ n : Int, lv.Hours = (n : ℚ) / 2 ^ k) →
            (|p.Annual| + |p.Carryover| +
                ((vacationDays e.ConvertFromData.Leaves (year - 1)).map
                  fun lv => |lv.Hours|).sum) * 2 ^ k < 2 ^ 53 →
            (e.CreateLeaveBalance year).Balances =
              e.ConvertFromData.Balances ++
                [⟨year, p.Annual,
                  p.Annual + p.Carryover -
                    vacationUsed e.ConvertFromData.Leaves (year - 1)⟩]))) := by
  have hfound : ∀ x : Employee, (∃ al ∈ x.ConvertFromData.Balances, al.Year = year) →
      x.CreateLeaveBalance year = x.ConvertFromData := by
    intro x hx
    unfold Employee.CreateLeaveBalance
    simp [(balanceScan_found _ year).2 hx]
  have hnot : ∀ x : Employee, (∀ al ∈ x.ConvertFromData.Balances, al.Year ≠ year) →
      (balanceScan x.ConvertFromData.Balances year).1 = false := by
    intro x hx
    cases hb : (balanceScan x.ConvertFromData.Balances year).1
    · rfl
    · obtain ⟨al, hm, hy⟩ := (balanceScan_found _ year).1 hb
      exact absurd hy (hx al hm)
  refine ⟨fun h => by rw [hfound e h], ?_, ?_⟩
  · by_cases h : ∃ al ∈ e.ConvertFromData.Balances, al.Year = year
    · rw [hfound e h, hfound _ (by rw [convert_idem]; exact h), convert_idem]
    · have hn : ∀ al ∈ e.ConvertFromData.Balances, al.Year ≠ year := by
        intro al hm hy
        exact h ⟨al, hm, hy⟩
      have hd : (e.CreateLeaveBalance year).Data = none := by
        unfold Employee.CreateLeaveBalance
        simp [hnot e hn, convert_data]
      have hex : ∃ al ∈ (e.CreateLeaveBalance year).ConvertFromData.Balances,
          al.Year = year := by
        rw [convert_of_none _ hd]
        unfold Employee.CreateLeaveBalance
        simp only [hnot e hn, Bool.not_false, if_true]
        refine ⟨_, List.mem_append_right _ (List.mem_singleton_self _), ?_⟩
        split_ifs <;> rfl
      rw [hfound _ hex, convert_of_none _ hd]
  · intro hn
    refine ⟨fun hprior => ?_, fun pre p post hsplit hp hpost => ⟨fun h0 => ?_, fun h0 => ?_⟩⟩
    · unfold Employee.CreateLeaveBalance
      simp [hnot e hn, balanceScan_no_prior _ year hprior]
    · have hs := balanceScan_prior pre p post year hp hpost
      rw [← hsplit] at hs
      unfold Employee.CreateLeaveBalance
      simp [hnot e hn, hs, h0]
    · have hs := balanceScan_prior pre p post year hp hpost
      rw [← hsplit] at hs
      have hbal : (e.CreateLeaveBalance year).Balances =
          e.ConvertFromData.Balances ++
            [⟨year, p.Annual,
              (vacationDays e.ConvertFromData.Leaves (year - 1)).foldl
                (fun c lv => fsub c lv.Hours) (fadd p.Annual p.Carryover)⟩] := by
        unfold Employee.CreateLeaveBalance
        simp [hnot e hn, hs, h0, carryLoop_eq]
      refine ⟨hbal, fun k ha hc hl hb => ?_⟩
      rw [hbal, carry_exact _ _ _ _ k ha hc hl hb]

/-- The two carryover computations of C6: 120, 0 and 40 hours of vacation give 80,
by the exact formula; 120, 0 and five days of 7.6 hours give 82.00000000000003, the
`float64` 82 + 2 ^ -45. -/
theorem C6_create_leave_balance_witness :
    (empVacation.CreateLeaveBalance 2024).Balances = [⟨2023, 120, 0⟩, ⟨2024, 120, 80⟩] ∧
    (empSevenSix.CreateLeaveBalance 2024).Balances =
      [⟨2023, 120, 0⟩, ⟨2024, 120, 2885118511284225 / 35184372088832⟩] :=
  ⟨((((C6_create_leave_balance empVacation 2024).2.2 (by decide!)).2
      [] ⟨2023, 120, 0⟩ [] rfl rfl (by simp)).2 (by decide!)).2 0
      ⟨120, by norm_num⟩ ⟨0, by norm_num⟩
      (fun lv hlv => by
        have h := (by decide! : ∀ lv ∈ vacationDays empVacation.ConvertFromData.Leaves
          (2024 - 1), lv.Hours = 8 ∨ lv.Hours = 32) lv hlv
        rcases h with h | h <;> rw [h]
        · exact ⟨8, by norm_num⟩
        · exact ⟨32, by norm_num⟩)
      (by decide!) |>.trans (by decide!),
   ((((C6_create_leave_balance empSevenSix 2024).2.2 (by decide!)).2
      [] ⟨2023, 120, 0⟩ [] rfl rfl (by simp)).2 (by decide!)).1.trans (by decide!)⟩

/-- C6 fails as stated, in two ways. With a 2023 balance of annual 0 and carryover 40
the balance created for 2024 has annual 120 and carryover 0, not the annual 0 and the
carryover 40 of the formula. With a 2023 balance of annual 120 and carryover 0 and
five `ACTUAL` days of code `V` of 7.6 hours each (as `float64`) in 2023 the carryover
is 82 + 2 ^ -45, which is neither the 120 + 0 minus the sum of the hours of the
formula nor the `float64` nearest to it, 82. -/
theorem C6_counterexample :
    (∀ al ∈ empZeroAnnual.ConvertFromData.Balances, al.Year ≠ 2024) ∧
    (∃ p ∈ empZeroAnnual.ConvertFromData.Balances, p.Year = 2024 - 1 ∧
      (empZeroAnnual.CreateLeaveBalance 2024).Balances ≠
        empZeroAnnual.ConvertFromData.Balances ++
          [⟨2024, p.Annual,
            p.Annual + p.Carryover - vacationUsed empZeroAnnual.ConvertFromData.Leaves 2023⟩]) ∧
    (empZeroAnnual.CreateLeaveBalance 2024).Balances = [⟨2023, 0, 40⟩, ⟨2024, 120, 0⟩] ∧
    (∀ al ∈ empSevenSix.ConvertFromData.Balances, al.Year ≠ 2024) ∧
    (empSevenSix.CreateLeaveBalance 2024).Balances =
      [⟨2023, 120, 0⟩, ⟨2024, 120, 82 + 1 / 2 ^ 45⟩] ∧
    120 + 0 - vacationUsed empSevenSix.ConvertFromData.Leaves 2023 =
      46161896180547585 / 562949953421312 ∧
    round64 (120 + 0 - vacationUsed empSevenSix.ConvertFromData.Leaves 2023) = 82 ∧
    (empSevenSix.CreateLeaveBalance 2024).Balances ≠
      empSevenSix.ConvertFromData.Balances ++
        [⟨2024, 120, 120 + 0 - vacationUsed empSevenSix.ConvertFromData.Leaves 2023⟩] := by
  refine ⟨by decide!, ⟨⟨2023, 0, 40⟩, by decide!, by decide!, by decide!⟩, by decide!,
    by decide!, by decide!, by decide!, by decide!, by decide!⟩

/-- Rounding on examples: 7.6 and a third are rounded to 53 bits, a tie goes to the
even significand, and a `float64` is left as it is. -/
theorem round64_examples :
    round64 (76 / 10) = sevenSix ∧ round64 sevenSix = sevenSix ∧
    round64 (1 / 3) = 6004799503160661 / 18014398509481984 ∧
    round64 (-(1 / 3)) = -(6004799503160661 / 18014398509481984) ∧
    round64 (2 ^ 53 + 1) = 2 ^ 53 ∧ round64 (2 ^ 53 + 3) = 2 ^ 53 + 4 ∧
    fsub 120 sevenSix = 3954723422784717 / 35184372088832 ∧
    fadd (round64 (1 / 10)) (round64 (2 / 10)) = 1351079888211149 / 4503599627370496 := by
  refine ⟨by decide!, by decide!, by decide!, by decide!, by decide!, by decide!,
    by decide!, by decide!⟩

/-- The carryover example: annual 120, carryover 0 and 40 `ACTUAL` hours of code `V`
in 2023 give a 2024 balance of annual 120 and carryover 80. -/
theorem carryover_example :
    vacationUsed empVacation.Leaves 2023 = 40 ∧
    (empVacation.CreateLeaveBalance 2024).Balances = [⟨2023, 120, 0⟩, ⟨2024, 120, 80⟩] := by
  constructor <;> decide!

/-! ## Deleting a request -/

/-- C7: `DeleteLeaveRequest` returns an error and leaves requests and ledger as they
were when no request has the id; otherwise it returns no error, removes the last
request of that id, and the ledger afterwards is the date-sorted ledger without the
entries whose `RequestID` is the id and whose status is not `ACTUAL`: every other
entry is kept, with its multiplicity. -/
theorem C7_delete_leave_request (e : Employee) (request : String) :
    ((∀ r ∈ e.ConvertFromData.Requests, r.ID ≠ request) →
      (e.DeleteLeaveRequest request).2 = some (.error "request not found") ∧
      (e.DeleteLeaveRequest request).1.Requests = e.ConvertFromData.Requests ∧
      (e.DeleteLeaveRequest request).1.Leaves = e.ConvertFromData.Leaves) ∧
    ((∃ r ∈ e.ConvertFromData.Requests, r.ID = request) →
      (e.DeleteLeaveRequest request).2 = none ∧
      (∃ pre r post, e.ConvertFromData.Requests = pre ++ r :: post ∧ r.ID = request ∧
        (∀ q ∈ post, q.ID ≠ request) ∧
        (e.DeleteLeaveRequest request).1.Requests = pre ++ post) ∧
      (e.DeleteLeaveRequest request).1.Leaves =
        (sortByLeaveDay e.ConvertFromData.Leaves).filter
          (fun lv => !decide (lv.RequestID = request ∧ toLower lv.Status ≠ "actual")) ∧
      (e.DeleteLeaveRequest request).1.Leaves.Perm
        (e.ConvertFromData.Leaves.filter
          (fun lv => !decide (lv.RequestID = request ∧ toLower lv.Status ≠ "actual"))) ∧
      (∀ lv ∈ e.ConvertFromData.Leaves,
        (lv.RequestID ≠ request ∨ toLower lv.Status = "actual") →
        lv ∈ (e.DeleteLeaveRequest request).1.Leaves)) := by
  constructor
  · intro hnone
    have hpos : lastPosFrom (fun r : LeaveRequest => decide (r.ID = request))
        e.ConvertFromData.Requests 0 (-1) = -1 :=
      lastPosFrom_none _ _ _ _ (by intro r hr; simpa using hnone r hr)
    unfold Employee.DeleteLeaveRequest
    simp [hpos]
  · intro hsome
    obtain ⟨pre, r, post, hsplit, hr, hpost⟩ :=
      exists_last_split (fun r : LeaveRequest => decide (r.ID = request))
        e.ConvertFromData.Requests (by simpa using hsome)
    have hpos : lastPosFrom (fun r : LeaveRequest => decide (r.ID = request))
        e.ConvertFromData.Requests 0 (-1) = ((0 + pre.length : Nat) : Int) := by
      rw [hsplit]
      exact lastPosFrom_split _ pre r post 0 (-1) hr hpost
    have hdel : ∀ l : List LeaveDay,
        deleteAt (idxsFrom (ownedPending request) l 0) l =
          l.filter (fun lv => !decide (lv.RequestID = request ∧ toLower lv.Status ≠ "actual")) := by
      intro l
      have := deleteAt_idxsFrom (ownedPending request) l []
      simpa [ownedPending] using this
    have hres : e.DeleteLeaveRequest request =
        ({ e.ConvertFromData with
            Requests := pre ++ post
            Leaves := (sortByLeaveDay e.ConvertFromData.Leaves).filter
              (fun lv => !decide (lv.RequestID = request ∧ toLower lv.Status ≠ "actual")) },
          none) := by
      unfold Employee.DeleteLeaveRequest
      simp only [hpos, hdel]
      rw [if_neg (by omega)]
      simp only [Nat.zero_add, Int.toNat_ofNat]
      rw [hsplit, cut_split]
    have hperm : ((sortByLeaveDay e.ConvertFromData.Leaves).filter
        (fun lv => !decide (lv.RequestID = request ∧ toLower lv.Status ≠ "actual"))).Perm
        (e.ConvertFromData.Leaves.filter
          (fun lv => !decide (lv.RequestID = request ∧ toLower lv.Status ≠ "actual"))) :=
      List.Perm.filter _ (List.perm_insertionSort _ _)
    rw [hres]
    refine ⟨rfl, ⟨pre, r, post, hsplit, by simpa using hr, ?_, rfl⟩, rfl, hperm, ?_⟩
    · intro q hq
      simpa using hpost q hq
    · intro lv hlv hkeep
      apply hperm.symm.subset
      rw [List.mem_filter]
      refine ⟨hlv, ?_⟩
      rcases hkeep with h | h <;> simp [h]

/-- Deleting request `r1` of `empTwoRequests`: the pending entry of `r1` goes, its
`ACTUAL` entry, the manual entry and the entry of `r2` stay. -/
theorem delete_request_example :
    (empTwoRequests.DeleteLeaveRequest "r1").2 = none ∧
    (empTwoRequests.DeleteLeaveRequest "r1").1.Requests.map (fun r => r.ID) = ["r2"] ∧
    (empTwoRequests.DeleteLeaveRequest "r1").1.Leaves.map (fun lv => lv.ID) = [1, 3, 4] ∧
    (empTwoRequests.DeleteLeaveRequest "zz").2 = some (.error "request not found") := by
  refine ⟨by decide!, by decide!, by decide!, by decide!⟩

/-! ## Variation before assignment -/

theorem foldl_skip {α β : Type} (f : β → α → β) (l : List α) (b : β)
    (h : ∀ x ∈ l, ∀ c, f c x = c) : l.foldl f b = b := by
  induction l generalizing b with
  | nil => rfl
  | cons x t ih =>
    rw [List.foldl_cons, h x (List.mem_cons_self _ _)]
    exact ih b (fun y hy => h y (List.mem_cons_of_mem _ hy))

theorem asgmtPass_last (S : Sched) (pre : List Assignment) (a : Assignment)
    (post : List Assignment) (date : Time) (offset : ℚ)
    (ha : covers a.StartDate a.EndDate date)
    (hpost : ∀ b ∈ post, ¬ covers b.StartDate b.EndDate date) :
    asgmtPass S (pre ++ a :: post) date offset = (a.Site, S.AsgmtWorkday a date offset) := by
  unfold asgmtPass
  rw [List.foldl_append, List.foldl_cons, if_pos ha]
  exact foldl_skip _ _ _ (fun b hb c => if_neg (hpost b hb))

theorem variPass_last (S : Sched) (vpre : List Variation) (v : Variation)
    (vpost : List Variation) (siteid : String) (date : Time) (wkday : Option Workday)
    (hv : covers v.StartDate v.EndDate date)
    (hpost : ∀ w ∈ vpost, ¬ covers w.StartDate w.EndDate date) :
    variPass S (vpre ++ v :: vpost) siteid date wkday = S.VariWorkday v siteid date := by
  unfold variPass
  rw [List.foldl_append, List.foldl_cons, if_pos hv]
  exact foldl_skip _ _ _ (fun w hw c => if_neg (hpost w hw))

theorem leavePass_none (l : List LeaveDay) (date : Time) (offset std : ℚ) (lastWork : Time)
    (wkday : Option Workday) (h : ∀ lv ∈ l, ¬ leaveApplies lv date offset std lastWork) :
    leavePass l date offset std lastWork wkday = wkday := by
  unfold leavePass
  exact foldl_skip _ _ _ (fun lv hlv c => if_neg (h lv hlv))

/-- C2, as amended: when some assignment and some variation cover the date, and no
leave override applies (the work hours of the day are positive, or no ledger entry
qualifies for the day), `GetWorkday` returns `Variation.GetWorkday` of the last
covering variation, for the site of the last covering assignment and the date. -/
theorem C2_variation_precedence (S : Sched) (e : Employee) (date : Time) (offset : ℚ)
    (hA : ∃ a ∈ e.ConvertFromData.Assignments, covers a.StartDate a.EndDate date)
    (hV : ∃ v ∈ e.ConvertFromData.Variations, covers v.StartDate v.EndDate date)
    (hleave : workedOn e.Work date > 0 ∨
      ∀ lv ∈ e.ConvertFromData.Leaves,
        ¬ leaveApplies lv date offset (stdWorkDayOf S e.ConvertFromData date)
          (workPass e.Work date).2) :
    ∃ pre a post vpre v vpost,
      e.ConvertFromData.Assignments = pre ++ a :: post ∧
      covers a.StartDate a.EndDate date ∧
      (∀ b ∈ post, ¬ covers b.StartDate b.EndDate date) ∧
      e.ConvertFromData.Variations = vpre ++ v :: vpost ∧
      covers v.StartDate v.EndDate date ∧
      (∀ w ∈ vpost, ¬ covers w.StartDate w.EndDate date) ∧
      e.GetWorkday S date offset = S.VariWorkday v a.Site date := by
  obtain ⟨pre, a, post, hsa, ha, hpa⟩ :=
    exists_last_split (fun a : Assignment => decide (covers a.StartDate a.EndDate date))
      e.ConvertFromData.Assignments (by simpa using hA)
  obtain ⟨vpre, v, vpost, hsv, hv, hpv⟩ :=
    exists_last_split (fun v : Variation => decide (covers v.StartDate v.EndDate date))
      e.ConvertFromData.Variations (by simpa using hV)
  have ha1 : covers a.StartDate a.EndDate date := by simpa using ha
  have hv1 : covers v.StartDate v.EndDate date := by simpa using hv
  have hpa1 : ∀ b ∈ post, ¬ covers b.StartDate b.EndDate date := by
    intro b hb
    simpa using hpa b hb
  have hpv1 : ∀ w ∈ vpost, ¬ covers w.StartDate w.EndDate date := by
    intro w hw
    simpa using hpv w hw
  refine ⟨pre, a, post, vpre, v, vpost, hsa, ha1, hpa1, hsv, hv1, hpv1, ?_⟩
  unfold Employee.GetWorkday
  simp only [hsa, hsv, asgmtPass_last S pre a post date offset ha1 hpa1,
    variPass_last S vpre v vpost _ date _ hv1 hpv1, workPass_fst, convert_work]
  rcases hleave with hw | hl
  · rw [if_pos hw]
  · split_ifs
    · rfl
    · exact leavePass_none _ _ _ _ _ _ hl

/-- On 2024-03-04 the varied employee without ledger entries gets the `N` day of the
variation. -/
theorem C2_variation_precedence_witness :
    (∃ a ∈ empVaried.ConvertFromData.Assignments,
      covers a.StartDate a.EndDate (Time.Date 2024 3 4)) ∧
    (∃ v ∈ empVaried.ConvertFromData.Variations,
      covers v.StartDate v.EndDate (Time.Date 2024 3 4)) ∧
    empVaried.GetWorkday specSched (Time.Date 2024 3 4) 0 = some ⟨1, "w", "N", 10⟩ ∧
    ∃ pre a post vpre v vpost,
      empVaried.ConvertFromData.Assignments = pre ++ a :: post ∧
      covers a.StartDate a.EndDate (Time.Date 2024 3 4) ∧
      (∀ b ∈ post, ¬ covers b.StartDate b.EndDate (Time.Date 2024 3 4)) ∧
      empVaried.ConvertFromData.Variations = vpre ++ v :: vpost ∧
      covers v.StartDate v.EndDate (Time.Date 2024 3 4) ∧
      (∀ w ∈ vpost, ¬ covers w.StartDate w.EndDate (Time.Date 2024 3 4)) ∧
      empVaried.GetWorkday specSched (Time.Date 2024 3 4) 0 =
        specSched.VariWorkday v a.Site (Time.Date 2024 3 4) :=
  ⟨by decide!, by decide!, by decide!,
    C2_variation_precedence specSched empVaried (Time.Date 2024 3 4) 0 (by decide!) (by decide!)
      (Or.inr (by decide!))⟩

/-- C2 fails as stated: on 2024-03-04 an assignment and a variation cover the date, and
the 8-hour ledger entry of code `V` is what `GetWorkday` returns, not the workday of
the variation. -/
theorem C2_counterexample :
    (∃ a ∈ empVariedOnLeave.ConvertFromData.Assignments,
      covers a.StartDate a.EndDate (Time.Date 2024 3 4)) ∧
    (∃ v ∈ empVariedOnLeave.ConvertFromData.Variations,
      covers v.StartDate v.EndDate (Time.Date 2024 3 4)) ∧
    empVariedOnLeave.GetWorkday specSched (Time.Date 2024 3 4) 0 = some ⟨0, "", "V", 8⟩ ∧
    (∀ a ∈ empVariedOnLeave.ConvertFromData.Assignments,
      ∀ v ∈ empVariedOnLeave.ConvertFromData.Variations,
        specSched.VariWorkday v a.Site (Time.Date 2024 3 4) = some ⟨1, "w", "N", 10⟩ ∧
        empVariedOnLeave.GetWorkday specSched (Time.Date 2024 3 4) 0 ≠
          specSched.VariWorkday v a.Site (Time.Date 2024 3 4)) := by
  refine ⟨by decide!, by decide!, by decide!, by decide!⟩

/-! ## The loop over the requests -/

theorem forall₂_getElem? {α β : Type} {R : α → β → Prop} {l : List α} {l2 : List β}
    (h : List.Forall₂ R l l2) (i : Nat) (a : α) (ha : l[i]? = some a) :
    ∃ b, l2[i]? = some b ∧ R a b := by
  induction h generalizing i with
  | nil => simp at ha
  | cons hab _ ih =>
    cases i with
    | zero =>
      simp only [List.getElem?_cons_zero, Option.some.injEq] at ha
      subst ha
      exact ⟨_, by simp, hab⟩
    | succ n =>
      simp only [List.getElem?_cons_succ] at ha
      simpa using ih n ha

/-- When the `switch` succeeds on every request with a result related to the request
by `P`, the loop returns no error, keeps the requests of another id as they are and
stores back a `P`-related request at every position of the id. -/
theorem updateLoop_ok (D : Deps) (request field value : String) (offset : ℚ) (now : Time)
    (P : LeaveRequest → LeaveRequest → Prop)
    (hP : ∀ e req msg, ∃ r, updateOne D e req field value offset now msg = .ok r ∧ P req r.2.1)
    (todo done : List LeaveRequest) (e : Employee) (msg : String) (lr : Option LeaveRequest) :
    (updateLoop D request field value offset now done todo e msg lr).err = none ∧
    ∃ todo2, (updateLoop D request field value offset now done todo e msg lr).e.Requests =
        done ++ todo2 ∧
      List.Forall₂ (fun r r2 => (r.ID = request → P r r2) ∧ (r.ID ≠ request → r2 = r))
        todo todo2 := by
  induction todo generalizing done e msg lr with
  | nil => exact ⟨rfl, [], by simp [updateLoop], List.Forall₂.nil⟩
  | cons req rest ih =>
    by_cases hid : req.ID = request
    · obtain ⟨r, hr, hPr⟩ := hP { e with Requests := done ++ req :: rest } req msg
      have hstep : updateLoop D request field value offset now done (req :: rest) e msg lr =
          updateLoop D request field value offset now (done ++ [r.2.1]) rest r.1 r.2.2
            (some r.2.1) := by
        rw [updateLoop, if_pos hid, hr]
      obtain ⟨h1, todo2, h2, h3⟩ := ih (done ++ [r.2.1]) r.1 r.2.2 (some r.2.1)
      rw [hstep]
      refine ⟨h1, r.2.1 :: todo2, by simpa using h2, List.Forall₂.cons ⟨fun _ => hPr, ?_⟩ h3⟩
      intro hne
      exact absurd hid hne
    · have hstep : updateLoop D request field value offset now done (req :: rest) e msg lr =
          updateLoop D request field value offset now (done ++ [req]) rest e msg lr := by
        rw [updateLoop, if_neg hid]
      obtain ⟨h1, todo2, h2, h3⟩ := ih (done ++ [req]) e msg lr
      rw [hstep]
      refine ⟨h1, req :: todo2, by simpa using h2, List.Forall₂.cons ⟨?_, fun _ => rfl⟩ h3⟩
      intro he
      exact absurd he hid

/-! ## Reapproval on a change of the end date -/

theorem reapprove_fields (name what : String) (req : LeaveRequest) (message : String) :
    (EqualFold req.Status "approved" →
      (reapprove name what req message).1 =
        { req with Status := "REQUESTED", ApprovalDate := zeroTime, ApprovedBy := "" }) ∧
    (¬ EqualFold req.Status "approved" → (reapprove name what req message).1 = req) := by
  unfold reapprove
  constructor <;> intro h <;> simp [h]

theorem dateChange_fields (D : Deps) (e : Employee) (req : LeaveRequest) (outside : Bool)
    (what : String) (start stop : Time) (offset : ℚ) (message : String) :
    (dateChange D e req outside what start stop offset message).2.1.StartDate = start ∧
    (dateChange D e req outside what start stop offset message).2.1.EndDate = stop ∧
    (outside = true → EqualFold req.Status "approved" →
      (dateChange D e req outside what start stop offset message).2.1.Status = "REQUESTED" ∧
      (dateChange D e req outside what start stop offset message).2.1.ApprovedBy = "" ∧
      (dateChange D e req outside what start stop offset message).2.1.ApprovalDate = zeroTime) ∧
    (outside = false ∨ ¬ EqualFold req.Status "approved" →
      (dateChange D e req outside what start stop offset message).2.1.Status = req.Status ∧
      (dateChange D e req outside what start stop offset message).2.1.ApprovedBy =
        req.ApprovedBy ∧
      (dateChange D e req outside what start stop offset message).2.1.ApprovalDate =
        req.ApprovalDate) := by
  unfold dateChange
  refine ⟨rfl, rfl, ?_, ?_⟩
  · intro ho ha
    simp [ho, (reapprove_fields _ _ req message).1 ha]
  · intro h
    cases outside with
    | false => simp
    | true =>
      have hn : ¬ EqualFold req.Status "approved" := by
        rcases h with h | h
        · cases h
        · exact h
      simp [(reapprove_fields _ _ req message).2 hn]

theorem updateOne_enddate (D : Deps) (e : Employee) (req : LeaveRequest) (field value : String)
    (offset : ℚ) (now : Time) (message : String) (lvDate : Time)
    (hf : toLower field = "enddate") (hparse : parseDate value = some lvDate) :
    updateOne D e req field value offset now message =
      .ok (dateChange D e req (lvDate.Before req.StartDate ∨ lvDate.After req.EndDate)
        "Ending Date" req.StartDate lvDate offset message) := by
  unfold updateOne
  simp [hf, hparse]

/-- C5: with field `enddate` and a well-formed date, an `APPROVED` request goes to
`REQUESTED` with `ApprovedBy` and `ApprovalDate` cleared when the new date is before
its `StartDate` or after its `EndDate`, and keeps status `APPROVED`, approver and
approval date when the new date lies within the old range; the call returns no error
and the new date is stored as `EndDate`. -/
theorem C5_enddate_reapproval (D : Deps) (e : Employee) (request field value : String)
    (offset : ℚ) (now : Time) (lvDate : Time) (i : Nat) (req : LeaveRequest)
    (hf : toLower field = "enddate")
    (hparse : parseDate value = some lvDate)
    (hreq : e.ConvertFromData.Requests[i]? = some req)
    (hid : req.ID = request)
    (hst : req.Status = "APPROVED") :
    (e.UpdateLeaveRequest D request field value offset now).err = none ∧
    ∃ req2, (e.UpdateLeaveRequest D request field value offset now).e.Requests[i]? = some req2 ∧
      req2.EndDate = lvDate ∧
      (lvDate.Before req.StartDate ∨ lvDate.After req.EndDate →
        req2.Status = "REQUESTED" ∧ req2.ApprovedBy = "" ∧ req2.ApprovalDate = zeroTime) ∧
      (¬ lvDate.Before req.StartDate ∧ ¬ lvDate.After req.EndDate →
        req2.Status = "APPROVED" ∧ req2.ApprovedBy = req.ApprovedBy ∧
        req2.ApprovalDate = req.ApprovalDate) := by
  have hloop := updateLoop_ok D request field value offset now
    (fun r r2 => r2.EndDate = lvDate ∧
      ((lvDate.Before r.StartDate ∨ lvDate.After r.EndDate) → EqualFold r.Status "approved" →
        r2.Status = "REQUESTED" ∧ r2.ApprovedBy = "" ∧ r2.ApprovalDate = zeroTime) ∧
      (¬ (lvDate.Before r.StartDate ∨ lvDate.After r.EndDate) →
        r2.Status = r.Status ∧ r2.ApprovedBy = r.ApprovedBy ∧ r2.ApprovalDate = r.ApprovalDate))
    (by
      intro e1 r msg
      refine ⟨_, updateOne_enddate D e1 r field value offset now msg lvDate hf hparse, ?_⟩
      obtain ⟨_, h2, h3, h4⟩ := dateChange_fields D e1 r
        (decide (lvDate.Before r.StartDate ∨ lvDate.After r.EndDate)) "Ending Date" r.StartDate
        lvDate offset msg
      refine ⟨h2, ?_, ?_⟩
      · intro ho ha
        exact h3 (by simpa using ho) ha
      · intro hn
        exact h4 (Or.inl (by simpa using hn)))
    e.ConvertFromData.Requests [] e.ConvertFromData "" none
  obtain ⟨herr, todo2, hreqs, hall⟩ := hloop
  obtain ⟨req2, hget, hrel⟩ := forall₂_getElem? hall i req hreq
  obtain ⟨hend, hout, hin⟩ := hrel.1 hid
  refine ⟨herr, req2, ?_, hend, ?_, ?_⟩
  · unfold Employee.UpdateLeaveRequest
    rw [hreqs]
    simpa using hget
  · intro ho
    exact hout ho (by rw [hst]; decide)
  · intro hn
    have := hin (by
      intro h
      rcases h with h | h
      · exact hn.1 h
      · exact hn.2 h)
    rw [hst] at this
    exact this

/-- The approved request `r1` of the scenario, 2024-03-04..2024-03-08: end date
2024-03-12 sends it back to `REQUESTED`. -/
theorem C5_enddate_reapproval_witness :
    toLower "enddate" = "enddate" ∧
    parseDate "2024-03-12" = some (Time.Date 2024 3 12) ∧
    (∃ req, empApproved.ConvertFromData.Requests[0]? = some req ∧ req.ID = "r1" ∧
      req.Status = "APPROVED" ∧ (Time.Date 2024 3 12).After req.EndDate) ∧
    (empApproved.UpdateLeaveRequest specDeps "r1" "enddate" "2024-03-12" 0 5).err = none ∧
    ∃ req2, (empApproved.UpdateLeaveRequest specDeps "r1" "enddate" "2024-03-12" 0
        5).e.Requests[0]? = some req2 ∧
      req2.EndDate = Time.Date 2024 3 12 ∧
      (Time.Date 2024 3 12 < Time.Date 2024 3 4 ∨ Time.Date 2024 3 8 < Time.Date 2024 3 12 →
        req2.Status = "REQUESTED" ∧ req2.ApprovedBy = "" ∧ req2.ApprovalDate = zeroTime) ∧
      (¬ Time.Date 2024 3 12 < Time.Date 2024 3 4 ∧ ¬ Time.Date 2024 3 8 < Time.Date 2024 3 12 →
        req2.Status = "APPROVED" ∧ req2.ApprovedBy = "boss" ∧
        req2.ApprovalDate = Time.Date 2024 2 2) :=
  ⟨by decide, by decide, ⟨_, rfl, by decide!, by decide!, by decide!⟩,
    C5_enddate_reapproval specDeps empApproved "r1" "enddate" "2024-03-12" 0 5
      (Time.Date 2024 3 12) 0
      ⟨"r1", "emp", Time.Date 2024 2 1, "V", Time.Date 2024 3 4, Time.Date 2024 3 8, "APPROVED",
        "boss", Time.Date 2024 2 2,
        (List.range 5).map (fun i =>
          ⟨0, (Time.Date 2024 3 4).AddDays i, "V", 8, "APPROVED", "r1"⟩), []⟩
      (by decide) (by decide) (by decide!) rfl rfl⟩

/-! ## The end-to-end scenario -/

/-- The state the scenario starts from: one request `r1`, `APPROVED` by `boss`, for
2024-03-04..2024-03-08, five materialized days of 8 hours and code `V`, and five
`APPROVED` ledger entries of `r1`, one for each of the five days. -/
theorem scenario_state :
    empApproved.Requests.map
        (fun r => (r.ID, r.PrimaryCode, r.Status, r.ApprovedBy, r.StartDate, r.EndDate)) =
      [("r1", "V", "APPROVED", "boss", Time.Date 2024 3 4, Time.Date 2024 3 8)] ∧
    empApproved.Requests.map
        (fun r => r.RequestedDays.map fun d => (d.LeaveDate, d.Code, d.Hours)) =
      [(List.range 5).map fun i => ((Time.Date 2024 3 4).AddDays i, "V", 8)] ∧
    empApproved.Leaves =
      (List.range 5).map fun i =>
        ⟨i, (Time.Date 2024 3 4).AddDays i, "V", 8, "APPROVED", "r1"⟩ := by
  refine ⟨by decide!, by decide!, by decide!⟩

/-- C8, as amended: in the scenario, the change of the end date to 2024-03-06 returns
no error and no notice, leaves the request `APPROVED` with its approver and approval
date, and stores 2024-03-06 as its `EndDate`. -/
theorem C8_enddate_inside_keeps_approval :
    scenarioEndChange.err = none ∧
    scenarioEndChange.message = "" ∧
    scenarioEndChange.e.Requests.map
        (fun r => (r.ID, r.Status, r.ApprovedBy, r.ApprovalDate, r.StartDate, r.EndDate)) =
      [("r1", "APPROVED", "boss", Time.Date 2024 2 2, Time.Date 2024 3 4,
        Time.Date 2024 3 6)] := by
  refine ⟨by decide!, by decide!, by decide!⟩

/-- C8 fails as stated: after the change of the end date to 2024-03-06 the request is
not `REQUESTED`, and the ledger holds entries of the request for 2024-03-07 and for
2024-03-08. -/
theorem C8_counterexample :
    (∀ r ∈ scenarioEndChange.e.Requests, r.ID = "r1" → r.Status ≠ "REQUESTED") ∧
    (∃ r ∈ scenarioEndChange.e.Requests, r.ID = "r1") ∧
    (∃ lv ∈ scenarioEndChange.e.Leaves,
      lv.RequestID = "r1" ∧ lv.LeaveDate = Time.Date 2024 3 7) ∧
    (∃ lv ∈ scenarioEndChange.e.Leaves,
      lv.RequestID = "r1" ∧ lv.LeaveDate = Time.Date 2024 3 8) := by
  refine ⟨by decide!, by decide!, by decide!, by decide!⟩

/-! ## Approval and the ledger -/

/-- C9: approving the approved request `r1` of the scenario again leaves ten ledger
entries of `r1`, two for each of its five days; and approving `r1` on a ledger that
holds an `ACTUAL` entry of `r1` and a manual `ACTUAL` entry inside the range removes
both of them. -/
theorem C9_approve_duplicates_and_drops_actuals :
    (scenarioReapprove.err = none ∧
      scenarioReapprove.e.Leaves.map (fun lv => (lv.ID, lv.LeaveDate, lv.RequestID)) =
        [(0, Time.Date 2024 3 4, "r1"), (5, Time.Date 2024 3 4, "r1"),
         (1, Time.Date 2024 3 5, "r1"), (6, Time.Date 2024 3 5, "r1"),
         (2, Time.Date 2024 3 6, "r1"), (7, Time.Date 2024 3 6, "r1"),
         (3, Time.Date 2024 3 7, "r1"), (8, Time.Date 2024 3 7, "r1"),
         (4, Time.Date 2024 3 8, "r1"), (9, Time.Date 2024 3 8, "r1")]) ∧
    ((empActualInRange.UpdateLeaveRequest specDeps "r1" "approve" "boss" 0
        (Time.Date 2024 2 2)).err = none ∧
      (empActualInRange.UpdateLeaveRequest specDeps "r1" "approve" "boss" 0
        (Time.Date 2024 2 2)).e.Leaves.map
          (fun lv => (lv.ID, lv.LeaveDate, lv.Status, lv.RequestID)) =
        [(1, Time.Date 2024 3 1, "ACTUAL", ""),
         (4, Time.Date 2024 3 4, "APPROVED", "r1"), (5, Time.Date 2024 3 5, "APPROVED", "r1"),
         (6, Time.Date 2024 3 6, "APPROVED", "r1"), (7, Time.Date 2024 3 7, "APPROVED", "r1"),
         (8, Time.Date 2024 3 8, "APPROVED", "r1")]) := by
  refine ⟨⟨by decide!, by decide!⟩, by decide!, by decide!⟩

/-! ## The purge before re-materialization -/

/-- C10: moving the start of the approved request `r1` to 2024-03-01, or its dates to
2024-03-01..2024-03-08, on the mixed ledger empties the ledger: the purge cuts
everything from the first to the last entry of `r1`, the manual `ACTUAL` sick day, the
`ACTUAL` day of `r1` and the day of request `r2` included. -/
theorem C10_purge_cuts_a_block :
    purgeRequestLeaves empMixedLedger.Leaves "r1" = [] ∧
    (empMixedLedger.UpdateLeaveRequest specDeps "r1" "startdate" "2024-03-01" 0
        (Time.Date 2024 2 3)).err = none ∧
    (empMixedLedger.UpdateLeaveRequest specDeps "r1" "startdate" "2024-03-01" 0
        (Time.Date 2024 2 3)).e.Leaves = [] ∧
    (empMixedLedger.UpdateLeaveRequest specDeps "r1" "dates" "2024-03-01|2024-03-08" 0
        (Time.Date 2024 2 3)).err = none ∧
    (empMixedLedger.UpdateLeaveRequest specDeps "r1" "dates" "2024-03-01|2024-03-08" 0
        (Time.Date 2024 2 3)).e.Leaves = [] ∧
    (empMixedLedger.UpdateLeaveRequest specDeps "r1" "startdate" "2024-03-01" 0
        (Time.Date 2024 2 3)).e.Requests.map (fun r => (r.ID, r.Status)) =
      [("r1", "REQUESTED")] := by
  refine ⟨by decide!, by decide!, by decide!, by decide!, by decide!, by decide!⟩

/-! ## Timeline contiguity -/

theorem sort_of_increasing (l : List Assignment)
    (h : l.Pairwise (fun a b => a.StartDate < b.StartDate)) : sortByAssignment l = l := by
  unfold sortByAssignment
  apply List.Sorted.insertionSort_eq
  exact List.Pairwise.imp (fun hab => le_of_lt hab) h

theorem closeLast_nil (start : Time) : closeLast [] start = [] := rfl

theorem closeLast_snoc (init : List Assignment) (z : Assignment) (start : Time) :
    closeLast (init ++ [z]) start = init ++ [{ z with EndDate := start.AddDays (-1) }] := by
  unfold closeLast
  simp

theorem contigFrom_add (init : List Assignment) (x z z2 new : Assignment)
    (hz : z2.StartDate = z.StartDate) (hz2 : z2.EndDate = new.StartDate.AddDays (-1))
    (hne : z2.EndDate ≠ sentinel) (hnew : new.EndDate = sentinel)
    (h : contigFrom x (init ++ [z])) : contigFrom x (init ++ [z2, new]) := by
  induction init generalizing x with
  | nil =>
    obtain ⟨h1, h2, _⟩ := h
    exact ⟨by rw [hz]; exact h1, h2, hz2, hne, hnew⟩
  | cons y t ih =>
    obtain ⟨h1, h2, h3⟩ := h
    exact ⟨h1, h2, ih y h3⟩

theorem contiguous_add (l : List Assignment) (new : Assignment) (start : Time)
    (hs : new.StartDate = start) (hnew : new.EndDate = sentinel)
    (hne : start.AddDays (-1) ≠ sentinel) (h : contiguous l) :
    contiguous (closeLast l start ++ [new]) := by
  rcases List.eq_nil_or_concat l with rfl | ⟨init, z, rfl⟩
  · exact hnew
  · rw [List.concat_eq_append] at h ⊢
    rw [closeLast_snoc, List.append_assoc]
    cases init with
    | nil => exact ⟨by rw [hs], hne, hnew⟩
    | cons x t =>
      exact contigFrom_add t x z _ new rfl (by rw [hs]) hne hnew h

theorem contigFrom_remove (init : List Assignment) (x y y2 z : Assignment)
    (hy : y2.StartDate = y.StartDate) (hy2 : y2.EndDate = sentinel)
    (h : contigFrom x (init ++ [y, z])) : contigFrom x (init ++ [y2]) := by
  induction init generalizing x with
  | nil =>
    obtain ⟨h1, h2, _⟩ := h
    exact ⟨by rw [hy]; exact h1, h2, hy2⟩
  | cons w t ih =>
    obtain ⟨h1, h2, h3⟩ := h
    exact ⟨h1, h2, ih w h3⟩

theorem contiguous_remove (init : List Assignment) (y z : Assignment)
    (h : contiguous (init ++ [y, z])) :
    contiguous (init ++ [{ y with EndDate := sentinel }]) := by
  cases init with
  | nil => exact rfl
  | cons x t => exact contigFrom_remove t x y _ z rfl rfl h

theorem increasing_congr (l l2 : List Assignment)
    (h : l.map (fun a => a.StartDate) = l2.map (fun a => a.StartDate)) :
    l.Pairwise (fun a b => a.StartDate < b.StartDate) ↔
      l2.Pairwise (fun a b => a.StartDate < b.StartDate) := by
  have key : ∀ m : List Assignment, m.Pairwise (fun a b => a.StartDate < b.StartDate) ↔
      (m.map (fun a => a.StartDate)).Pairwise (fun s t => s < t) := by
    intro m
    rw [List.pairwise_map]
  rw [key l, key l2, h]

theorem maxAsgmtID_nil : maxAsgmtID [] = 0 := rfl

/-- The assignments after `AddAssignment`, before any use of the invariant. -/
theorem AddAssignment_assignments (e : Employee) (site wkctr : String) (start : Time) :
    ∃ new : Assignment, new.StartDate = start ∧ new.EndDate = sentinel ∧
      new.ID = nextID (maxAsgmtID e.ConvertFromData.Assignments) ∧
      (e.AddAssignment site wkctr start).Assignments =
        sortByAssignment
          (closeLast (sortByAssignment e.ConvertFromData.Assignments) start ++ [new]) ∧
      (e.AddAssignment site wkctr start).Data = none := by
  refine ⟨_, ?_, ?_, ?_, rfl, ?_⟩
  · rfl
  · rfl
  · rfl
  · exact convert_data e

theorem Timeline_add (e : Employee) (site wkctr : String) (start : Time)
    (hinv : Timeline e.ConvertFromData.Assignments)
    (hadm : admissibleOp e (.add site wkctr start)) :
    Timeline (e.AddAssignment site wkctr start).ConvertFromData.Assignments := by
  obtain ⟨hsorted, hcont, hhead⟩ := hinv
  obtain ⟨hlt, hday⟩ := hadm
  obtain ⟨new, hs, hend, hid, hasg, hdata⟩ := AddAssignment_assignments e site wkctr start
  rw [convert_of_none _ hdata, hasg, sort_of_increasing _ hsorted]
  have hne : start.AddDays (-1) ≠ sentinel := by
    intro h
    apply hday
    simp only [Time.AddDays, Time] at h ⊢
    omega
  have hinc : (closeLast e.ConvertFromData.Assignments start ++ [new]).Pairwise
      (fun a b => a.StartDate < b.StartDate) := by
    rcases List.eq_nil_or_concat e.ConvertFromData.Assignments with h0 | ⟨init, z, h0⟩
    · rw [h0, closeLast_nil]
      simp
    · rw [List.concat_eq_append] at h0
      rw [h0, closeLast_snoc]
      rw [h0] at hsorted hlt
      rw [List.pairwise_append]
      refine ⟨?_, List.pairwise_singleton _ _, ?_⟩
      · exact (increasing_congr _ _ (by simp)).1 hsorted
      · intro a ha b hb
        rw [List.mem_singleton] at hb
        rw [hb, hs]
        rcases List.mem_append.1 ha with h | h
        · exact hlt a (List.mem_append_left _ h)
        · rw [List.mem_singleton] at h
          rw [h]
          exact hlt z (by simp)
  rw [sort_of_increasing _ hinc]
  refine ⟨hinc, contiguous_add _ new start hs hend hne hcont, ?_⟩
  intro a ha
  rcases List.eq_nil_or_concat e.ConvertFromData.Assignments with h0 | ⟨init, z, h0⟩
  · rw [h0, closeLast_nil] at ha
    simp only [List.nil_append, List.head?_cons, Option.some.injEq] at ha
    rw [← ha, hid, h0, maxAsgmtID_nil]
    rfl
  · rw [List.concat_eq_append] at h0
    rw [h0, closeLast_snoc] at ha
    rw [h0] at hhead
    cases init with
    | nil =>
      simp only [List.nil_append, List.singleton_append, List.head?_cons,
        Option.some.injEq] at ha
      rw [← ha]
      exact hhead z rfl
    | cons x t => exact hhead a (by simpa using ha)

theorem RemoveAssignment_noop (e : Employee) (id : Nat)
    (hinc : e.ConvertFromData.Assignments.Pairwise (fun a b => a.StartDate < b.StartDate))
    (h : id ≤ 1 ∨ ∀ a ∈ e.ConvertFromData.Assignments, a.ID ≠ id) :
    e.RemoveAssignment id = .ok e.ConvertFromData := by
  unfold Employee.RemoveAssignment
  by_cases hid : id > 1
  · have hno : ∀ a ∈ e.ConvertFromData.Assignments, a.ID ≠ id := by
      rcases h with h | h
      · omega
      · exact h
    have hpos : lastPosFrom (fun a : Assignment => decide (a.ID = id))
        e.ConvertFromData.Assignments 0 (-1) = -1 :=
      lastPosFrom_none _ _ _ _ (by intro a ha; simpa using hno a ha)
    simp [hid, sort_of_increasing _ hinc, hpos]
  · simp [hid]

theorem RemoveAssignment_last (e : Employee) (id : Nat) (init : List Assignment)
    (y z : Assignment) (hid : id > 1)
    (hl : e.ConvertFromData.Assignments = init ++ [y, z])
    (hinc : e.ConvertFromData.Assignments.Pairwise (fun a b => a.StartDate < b.StartDate))
    (hz : z.ID = id) :
    e.RemoveAssignment id =
      .ok { e.ConvertFromData with
            Assignments := init ++ [{ y with EndDate := sentinel }] } := by
  have hpos : lastPosFrom (fun a : Assignment => decide (a.ID = id))
      (init ++ [y, z]) 0 (-1) = ((init.length + 1 : Nat) : Int) := by
    have := lastPosFrom_split (fun a : Assignment => decide (a.ID = id)) (init ++ [y]) z []
      0 (-1) (by simpa using hz) (by simp)
    simpa using this
  have hget : (init ++ [y, z])[init.length]? = some y := by
    rw [List.getElem?_append_right (le_refl _)]
    simp
  have hsort : sortByAssignment (init ++ [y, z]) = init ++ [y, z] := by
    rw [← hl]
    exact sort_of_increasing _ hinc
  unfold Employee.RemoveAssignment
  simp only [hid, if_true, hl, hsort, hpos]
  have h1 : ((init.length + 1 : Nat) : Int) - 1 = (init.length : Int) := by omega
  rw [if_pos (by omega), h1]
  simp only [Int.toNat_ofNat, hget]
  rw [if_neg (by omega)]
  congr 2
  have hc := cut_split (init ++ [{ y with EndDate := sentinel }]) z []
  simp only [List.length_append, List.length_singleton, List.append_assoc,
    List.singleton_append, List.append_nil] at hc
  rw [← hc]
  simp

theorem Timeline_remove (e : Employee) (id : Nat)
    (hinv : Timeline e.ConvertFromData.Assignments)
    (hadm : admissibleOp e (.remove id)) :
    ∃ e1, e.RemoveAssignment id = .ok e1 ∧ Timeline e1.ConvertFromData.Assignments := by
  obtain ⟨hsorted, hcont, hhead⟩ := hinv
  have hnoop : (id ≤ 1 ∨ ∀ a ∈ e.ConvertFromData.Assignments, a.ID ≠ id) →
      ∃ e1, e.RemoveAssignment id = .ok e1 ∧ Timeline e1.ConvertFromData.Assignments := by
    intro h
    refine ⟨_, RemoveAssignment_noop e id hsorted h, ?_⟩
    rw [convert_idem]
    exact ⟨hsorted, hcont, hhead⟩
  rcases hadm with h | h | h
  · exact hnoop (Or.inl h)
  · exact hnoop (Or.inr h)
  · by_cases hid : id > 1
    · rw [sort_of_increasing _ hsorted] at h
      rcases List.eq_nil_or_concat e.ConvertFromData.Assignments with h0 | ⟨l1, z, h0⟩
      · rw [h0] at h
        simp at h
      · rw [List.concat_eq_append] at h0
        rw [h0] at h
        have hz : z.ID = id := by simpa using h
        rcases List.eq_nil_or_concat l1 with h1 | ⟨init, y, h1⟩
        · exfalso
          rw [h1] at h0
          have := hhead z (by rw [h0]; rfl)
          omega
        · rw [List.concat_eq_append] at h1
          have hl : e.ConvertFromData.Assignments = init ++ [y, z] := by
            rw [h0, h1]
            simp
          refine ⟨_, RemoveAssignment_last e id init y z hid hl hsorted hz, ?_⟩
          have hd : ({ e.ConvertFromData with
              Assignments := init ++ [{ y with EndDate := sentinel }] } : Employee).Data =
              none := convert_data e
          rw [convert_of_none _ hd]
          rw [hl] at hsorted hcont hhead
          refine ⟨?_, contiguous_remove init y z hcont, ?_⟩
          · have h2 : (init ++ [y]).Pairwise (fun a b => a.StartDate < b.StartDate) := by
              have : init ++ [y, z] = (init ++ [y]) ++ [z] := by simp
              rw [this] at hsorted
              exact (List.pairwise_append.1 hsorted).1
            exact (increasing_congr _ _ (by simp)).1 h2
          · intro a ha
            cases init with
            | nil =>
              simp only [List.nil_append, List.head?_cons, Option.some.injEq] at ha
              rw [← ha]
              exact hhead y rfl
            | cons x t => exact hhead a (by simpa using ha)
    · exact hnoop (Or.inl (by omega))

theorem Timeline_run (ops : List TimelineOp) (e : Employee)
    (hinv : Timeline e.ConvertFromData.Assignments) (hadm : admissibleRun ops e = true) :
    ∃ e1, runOps ops e = .ok e1 ∧ Timeline e1.ConvertFromData.Assignments := by
  induction ops generalizing e with
  | nil => exact ⟨e, rfl, hinv⟩
  | cons op ops ih =>
    simp only [admissibleRun, Bool.and_eq_true, decide_eq_true_eq] at hadm
    obtain ⟨hop, hrest⟩ := hadm
    have hstep : ∃ e1, applyOp e op = .ok e1 ∧ Timeline e1.ConvertFromData.Assignments := by
      cases op with
      | add site wkctr start => exact ⟨_, rfl, Timeline_add e site wkctr start hinv hop⟩
      | remove id => exact Timeline_remove e id hinv hop
    obtain ⟨e1, h1, hinv1⟩ := hstep
    rw [h1] at hrest
    obtain ⟨e2, h2, hinv2⟩ := ih e1 hinv1 hrest
    exact ⟨e2, by simp only [runOps, h1]; exact h2, hinv2⟩

/-- C1, as amended: starting from an employee with no assignments, after every finite
sequence of `AddAssignment` calls whose start is later than every present start date
and is not the day after the sentinel, and of `RemoveAssignment` calls whose id is at
most 1, is carried by no assignment or is carried by the assignment last in start-date
order, every call completes and the assignments ordered by `StartDate` are contiguous:
each end date is one day before the next start date and only the last is the
sentinel. -/
theorem C1_timeline_contiguity (e : Employee) (ops : List TimelineOp)
    (hempty : e.ConvertFromData.Assignments = [])
    (hadm : admissibleRun ops e = true) :
    ∃ e1, runOps ops e = .ok e1 ∧
      contiguous (sortByAssignment e1.ConvertFromData.Assignments) := by
  have hinv : Timeline e.ConvertFromData.Assignments := by
    rw [hempty]
    exact ⟨List.Pairwise.nil, trivial, by simp⟩
  obtain ⟨e1, h1, hsorted, hcont, _⟩ := Timeline_run ops e hinv hadm
  exact ⟨e1, h1, by rw [sort_of_increasing _ hsorted]; exact hcont⟩

/-- The sequence `opsInOrder` on the empty employee is admissible and ends with three
contiguous assignments. -/
theorem C1_timeline_contiguity_witness :
    emp0.ConvertFromData.Assignments = [] ∧ admissibleRun opsInOrder emp0 = true ∧
    (∃ e1, runOps opsInOrder emp0 = .ok e1 ∧
      contiguous (sortByAssignment e1.ConvertFromData.Assignments)) ∧
    (∃ e1, runOps opsInOrder emp0 = .ok e1 ∧
      e1.Assignments.map (fun a => (a.ID, a.StartDate, a.EndDate)) =
        [(1, Time.Date 2024 1 1, Time.Date 2024 2 29),
         (2, Time.Date 2024 3 1, Time.Date 2024 3 31),
         (3, Time.Date 2024 4 1, sentinel)]) :=
  ⟨rfl, by decide!, C1_timeline_contiguity emp0 opsInOrder rfl (by decide!),
    ⟨_, rfl, by decide!⟩⟩

set_option maxRecDepth 100000 in
/-- C1 fails as stated: three assignments added in date order and the middle one
removed leave two assignments that both end at the sentinel, the first one not ending
the day before the second one starts. -/
theorem C1_counterexample :
    ∃ e1, runOps opsRemoveMiddle emp0 = .ok e1 ∧
      (sortByAssignment e1.Assignments).map (fun a => (a.ID, a.StartDate, a.EndDate)) =
        [(1, Time.Date 2024 1 1, sentinel), (3, Time.Date 2024 3 1, sentinel)] ∧
      ¬ contiguous (sortByAssignment e1.ConvertFromData.Assignments) :=
  ⟨_, rfl, by decide!, by decide!⟩

/-! ## The civil calendar -/

set_option maxHeartbeats 4000000 in
theorem yoe_bounds (doe : Int) (h0 : 0 ≤ doe) (h1 : doe < 146097) :
    0 ≤ (doe - doe / 1460 + doe / 36524 - doe / 146096) / 365 ∧
    (doe - doe / 1460 + doe / 36524 - doe / 146096) / 365 ≤ 399 ∧
    0 ≤ doe - (365 * ((doe - doe / 1460 + doe / 36524 - doe / 146096) / 365) +
        (doe - doe / 1460 + doe / 36524 - doe / 146096) / 365 / 4 -
        (doe - doe / 1460 + doe / 36524 - doe / 146096) / 365 / 100) ∧
    doe - (365 * ((doe - doe / 1460 + doe / 36524 - doe / 146096) / 365) +
        (doe - doe / 1460 + doe / 36524 - doe / 146096) / 365 / 4 -
        (doe - doe / 1460 + doe / 36524 - doe / 146096) / 365 / 100) ≤ 365 := by
  have hc : 0 ≤ doe / 1460 ∧ doe / 1460 ≤ 100 := by omega
  generalize hcd : doe / 1460 = c at *
  obtain ⟨hc0, hc1⟩ := hc
  interval_cases c <;>
    first
    | omega
    | (by_cases h3 : doe < 36524 <;> by_cases h4 : doe < 73048 <;>
        by_cases h5 : doe < 109572 <;> by_cases h6 : doe < 146096 <;> omega)

/-- The day number of the civil date of a day number is that day number. -/
theorem civil_roundtrip (z : Int) :
    daysFromCivil (civilFromDays z).1 (civilFromDays z).2.1 (civilFromDays z).2.2 = z := by
  simp only [daysFromCivil, civilFromDays]
  generalize hera : (z + 719468) / 146097 = era
  generalize hdoe : z + 719468 - era * 146097 = doe
  have hdoe0 : 0 ≤ doe ∧ doe < 146097 := by omega
  have hz : z = era * 146097 + doe - 719468 := by omega
  have hb := yoe_bounds doe hdoe0.1 hdoe0.2
  generalize (doe - doe / 1460 + doe / 36524 - doe / 146096) / 365 = yoe at hb ⊢
  obtain ⟨hy0, hy1, hd0, hd1⟩ := hb
  generalize hdoy : doe - (365 * yoe + yoe / 4 - yoe / 100) = doy at hd0 hd1 ⊢
  have hdoe2 : doe = 365 * yoe + yoe / 4 - yoe / 100 + doy := by omega
  clear hera hdoe hdoy hdoe0
  subst hz hdoe2
  generalize hmp : (5 * doy + 2) / 153 = mp
  have hm : 0 ≤ mp ∧ mp ≤ 11 := by omega
  have e1 : (yoe + era * 400) / 400 = era := by omega
  by_cases h10 : mp < 10
  · have e3 : (mp + 3 + 9) % 12 = mp := by omega
    have e4 : ¬ (mp + 3 ≤ 2) := by omega
    simp only [h10, if_true, e4, if_false, e1, e3]
    omega
  · have e3 : (mp - 9 + 9) % 12 = mp := by omega
    have e4 : mp - 9 ≤ 2 := by omega
    have e5 : yoe + era * 400 + 1 - 1 = yoe + era * 400 := by omega
    simp only [h10, if_false, e4, if_true, e5, e1, e3]
    omega

/-- Midnight of the calendar day of an instant is the instant rounded down to a whole
number of days. -/
theorem Midnight_eq (t : Time) : t.Midnight = t / nsPerDay * nsPerDay := by
  unfold Time.Midnight Time.Date Time.Year Time.Month Time.Day
  rw [civil_roundtrip]

theorem Midnight_bounds (t : Time) : t.Midnight ≤ t ∧ t < t.Midnight.AddDays 1 := by
  rw [Midnight_eq]
  simp only [Time.AddDays, nsPerDay, Time]
  omega

theorem Weekday_days (q : Int) : Time.Weekday (q * nsPerDay) = (q + 4) % 7 := by
  unfold Time.Weekday
  rw [Int.mul_ediv_cancel _ (by decide : nsPerDay ≠ 0)]

theorem epoch_eq : epoch = 0 := by decide

/-! ## The standard workday -/

theorem GetWorkday_convert (S : Sched) (e : Employee) (date : Time) (offset : ℚ) :
    e.ConvertFromData.GetWorkday S date offset = e.GetWorkday S date offset := by
  unfold Employee.GetWorkday
  rw [convert_idem]

theorem backToSunday_days (n : Nat) (q : Int) (h : (q + 4) % 7 < n) :
    backToSunday n (q * nsPerDay) = some ((q - (q + 4) % 7) * nsPerDay) := by
  induction n generalizing q with
  | zero => omega
  | succ n ih =>
    unfold backToSunday
    rw [Weekday_days]
    by_cases h0 : (q + 4) % 7 = 0
    · simp [h0]
    · rw [if_pos h0]
      have hq : Time.AddDays (q * nsPerDay) (-1) = (q - 1) * nsPerDay := by
        simp only [Time.AddDays]
        ring
      rw [hq, ih (q - 1) (by omega)]
      congr 2
      omega

theorem forthToSaturday_days (n : Nat) (q : Int) (h : 6 - (q + 4) % 7 < n) :
    forthToSaturday n (q * nsPerDay) = some ((q + (6 - (q + 4) % 7)) * nsPerDay) := by
  induction n generalizing q with
  | zero => omega
  | succ n ih =>
    unfold forthToSaturday
    rw [Weekday_days]
    by_cases h6 : (q + 4) % 7 = 6
    · simp [h6]
    · rw [if_pos h6]
      have hq : Time.AddDays (q * nsPerDay) 1 = (q + 1) * nsPerDay := by
        simp only [Time.AddDays]
        ring
      rw [hq, ih (q + 1) (by omega)]
      congr 2
      omega

theorem countCoded_step (S : Sched) (e : Employee) (stop : Time) (f : Nat) (start : Time)
    (count : Nat) :
    countCoded S e stop (f + 1) start count =
      if start.Before stop ∨ start.Equal stop then
        countCoded S e stop f (start.AddDays 1)
          (count + if codedDay S e start = true then 1 else 0)
      else some count := by
  rw [countCoded]
  unfold codedDay
  cases hwd : e.GetWorkday S start 0 with
  | none => simp
  | some wd =>
    by_cases hc : wd.Code = ""
    · simp [hc]
    · simp [hc]

theorem countCoded_range (S : Sched) (e : Employee) (n : Nat) (start : Time) (count fuel : Nat)
    (hfuel : n < fuel) :
    countCoded S e (start.AddDays ((n : Int) - 1)) fuel start count =
      some (count + ((List.range n).map fun i : Nat => start.AddDays (i : Int)).countP
        (codedDay S e)) := by
  induction n generalizing start count fuel with
  | zero =>
    cases fuel with
    | zero => omega
    | succ f =>
      rw [countCoded_step]
      have hlt : ¬ (start.Before (start.AddDays (((0 : Nat) : Int) - 1)) ∨
          start.Equal (start.AddDays (((0 : Nat) : Int) - 1))) := by
        simp only [Time.Before, Time.Equal, Time.AddDays, nsPerDay, Time]
        omega
      rw [if_neg hlt]
      simp
  | succ n ih =>
    cases fuel with
    | zero => omega
    | succ f =>
      rw [countCoded_step]
      have hle : start.Before (start.AddDays (((n + 1 : Nat) : Int) - 1)) ∨
          start.Equal (start.AddDays (((n + 1 : Nat) : Int) - 1)) := by
        simp only [Time.Before, Time.Equal, Time.AddDays, nsPerDay, Time]
        omega
      rw [if_pos hle]
      have hstop : start.AddDays (((n + 1 : Nat) : Int) - 1) =
          (start.AddDays 1).AddDays ((n : Int) - 1) := by
        simp only [Time.AddDays, Time]
        push_cast
        ring
      have hlist : (List.range (n + 1)).map (fun i : Nat => start.AddDays (i : Int)) =
          start :: (List.range n).map (fun i : Nat => (start.AddDays 1).AddDays (i : Int)) := by
        rw [List.range_succ_eq_map, List.map_cons, List.map_map]
        congr 1
        · simp [Time.AddDays]
        · apply List.map_congr_left
          intro i _
          simp only [Function.comp, Time.AddDays, Time]
          push_cast
          ring
      rw [hstop, ih (start.AddDays 1) _ f (by omega), hlist, List.countP_cons]
      congr 1
      omega

theorem weekStart_days (date : Time) :
    weekStart date = (date / nsPerDay - (date / nsPerDay + 4) % 7) * nsPerDay := by
  unfold weekStart
  rw [Midnight_eq, Weekday_days]
  simp only [Time.AddDays]
  ring

/-- C17: `GetStandardWorkday` ends within eight tests of each of its loops, whatever
more it is allowed; the days it counts are the seven days from the Sunday on or before
the date to the Saturday after, the week that contains the date; it returns 10 when
fewer than five of them resolve through `GetWorkday` at offset 0 to a workday with a
code, and 8 otherwise. -/
theorem C17_standard_workday (S : Sched) (e : Employee) (date : Time) :
    (∀ fuel, 8 ≤ fuel →
      e.GetStandardWorkdayFuel S date fuel =
        some (if (weekDays date).countP (codedDay S e) < 5 then 10 else 8)) ∧
    e.GetStandardWorkday S date =
      some (if (weekDays date).countP (codedDay S e) < 5 then 10 else 8) ∧
    (weekDays date).length = 7 ∧
    (weekStart date).Weekday = 0 ∧
    ((weekStart date).AddDays 6).Weekday = 6 ∧
    weekStart date ≤ date ∧ date < (weekStart date).AddDays 7 := by
  obtain ⟨q, hq⟩ : ∃ q : Int, q = date / nsPerDay := ⟨_, rfl⟩
  have hws : weekStart date = (q - (q + 4) % 7) * nsPerDay := by
    rw [hq]
    exact weekStart_days date
  have hmain : ∀ fuel, 8 ≤ fuel →
      e.GetStandardWorkdayFuel S date fuel =
        some (if (weekDays date).countP (codedDay S e) < 5 then 10 else 8) := by
    intro fuel hfuel
    unfold Employee.GetStandardWorkdayFuel
    rw [Midnight_eq, ← hq, backToSunday_days fuel q (by omega),
      forthToSaturday_days fuel q (by omega)]
    have hstop : ((q + (6 - (q + 4) % 7)) * nsPerDay : Int) =
        (weekStart date).AddDays (((7 : Nat) : Int) - 1) := by
      rw [hws]
      simp only [Time.AddDays]
      push_cast
      ring
    simp only [hstop, ← hws]
    rw [countCoded_range S e.ConvertFromData 7 (weekStart date) 0 fuel (by omega)]
    have hcd : codedDay S e.ConvertFromData = codedDay S e := by
      funext d
      unfold codedDay
      rw [GetWorkday_convert]
    simp only [hcd, Nat.zero_add, weekDays]
  refine ⟨hmain, hmain 8 (le_refl _), ?_, ?_, ?_, ?_, ?_⟩
  · unfold weekDays
    rw [List.length_map, List.length_range]
  · rw [hws, Weekday_days]
    omega
  · have : Time.AddDays ((q - (q + 4) % 7) * nsPerDay) 6 =
        (q - (q + 4) % 7 + 6) * nsPerDay := by
      simp only [Time.AddDays]
      ring
    rw [hws, this, Weekday_days]
    omega
  · rw [hws, hq]
    simp only [nsPerDay, Time]
    omega
  · rw [hws, hq]
    simp only [Time.AddDays, nsPerDay, Time]
    omega

/-! ## Leave override -/

theorem workPass_snd_from (work : List Work) (date : Time) (a : ℚ) (k : Int) :
    (work.foldl
      (fun st wk =>
        (if wk.DateWorked.SameDay date then st.1 + wk.Hours else st.1,
         if wk.DateWorked.After st.2 then wk.DateWorked.Midnight else st.2))
      (a, k * nsPerDay)).2 =
      work.foldl (fun m wk => max m wk.DateWorked.Midnight) (k * nsPerDay) := by
  induction work generalizing a k with
  | nil => rfl
  | cons wk rest ih =>
    rw [List.foldl_cons, List.foldl_cons]
    have hstep : (if wk.DateWorked.After (k * nsPerDay) then wk.DateWorked.Midnight
        else k * nsPerDay) = max (k * nsPerDay) wk.DateWorked.Midnight := by
      rw [Midnight_eq]
      simp only [Time.After, nsPerDay, Time]
      split_ifs with h
      · rw [max_eq_right (by omega)]
      · rw [max_eq_left (by omega)]
    have hk : ∃ k2 : Int, max (k * nsPerDay) wk.DateWorked.Midnight = k2 * nsPerDay := by
      rcases max_choice (k * nsPerDay) wk.DateWorked.Midnight with h | h
      · exact ⟨k, h⟩
      · exact ⟨wk.DateWorked / nsPerDay, by rw [h, Midnight_eq]⟩
    obtain ⟨k2, hk2⟩ := hk
    simp only [hstep, hk2]
    exact ih _ k2

/-- The `lastWork` of `GetWorkday` is midnight of the latest day with work on record. -/
theorem workPass_snd (work : List Work) (date : Time) :
    (workPass work date).2 = lastWorkDay work := by
  unfold workPass lastWorkDay
  have h0 : epoch = 0 * nsPerDay := by decide
  rw [h0]
  exact workPass_snd_from work date 0 0

theorem stdWorkDayOf_eq (S : Sched) (e : Employee) (date : Time) (std : ℚ)
    (hstd :
      (∃ pre a post, e.Assignments = pre ++ a :: post ∧
          S.UseAssignment a e.SiteID date = true ∧
          (∀ b ∈ post, S.UseAssignment b e.SiteID date = false) ∧
          std = S.StandardWorkday a) ∨
        ((∀ a ∈ e.Assignments, S.UseAssignment a e.SiteID date = false) ∧ std = 8)) :
    stdWorkDayOf S e date = std := by
  unfold stdWorkDayOf
  rcases hstd with ⟨pre, a, post, hl, ha, hpost, hs⟩ | ⟨hnone, hs⟩
  · rw [hl, List.foldl_append, List.foldl_cons, if_pos ha, hs]
    exact foldl_skip _ _ _ (fun b hb c => by simp [hpost b hb])
  · rw [hs]
    exact foldl_skip _ _ _ (fun b hb c => by simp [hnone b hb])

/-- The leave loop of `GetWorkday` in the terms of the model: with no work on the date
the last qualifying entry gives the workday, and with none the result is that of
`GetWorkdayWOLeave`. -/
theorem GetWorkday_leave (S : Sched) (e : Employee) (date : Time) (offset : ℚ)
    (hwork : ¬ workedOn e.Work date > 0) :
    ((∃ lv ∈ e.ConvertFromData.Leaves,
        leaveApplies lv date offset (stdWorkDayOf S e.ConvertFromData date)
          (lastWorkDay e.Work)) →
      ∃ pre lv post, e.ConvertFromData.Leaves = pre ++ lv :: post ∧
        leaveApplies lv date offset (stdWorkDayOf S e.ConvertFromData date)
          (lastWorkDay e.Work) ∧
        (∀ x ∈ post, ¬ leaveApplies x date offset (stdWorkDayOf S e.ConvertFromData date)
          (lastWorkDay e.Work)) ∧
        e.GetWorkday S date offset = some ⟨0, "", lv.Code, lv.Hours⟩) ∧
    ((∀ lv ∈ e.ConvertFromData.Leaves,
        ¬ leaveApplies lv date offset (stdWorkDayOf S e.ConvertFromData date)
          (lastWorkDay e.Work)) →
      e.GetWorkday S date offset = e.GetWorkdayWOLeave S date offset) := by
  have hget : e.GetWorkday S date offset =
      leavePass e.ConvertFromData.Leaves date offset (stdWorkDayOf S e.ConvertFromData date)
        (lastWorkDay e.Work) (e.GetWorkdayWOLeave S date offset) := by
    unfold Employee.GetWorkday Employee.GetWorkdayWOLeave
    simp only [workPass_fst, workPass_snd, convert_work]
    rw [if_neg hwork]
  constructor
  · intro hex
    obtain ⟨pre, lv, post, hsplit, hlv, hpost⟩ :=
      exists_last_split
        (fun lv : LeaveDay => decide (leaveApplies lv date offset
          (stdWorkDayOf S e.ConvertFromData date) (lastWorkDay e.Work)))
        e.ConvertFromData.Leaves (by simpa using hex)
    have hlv1 : leaveApplies lv date offset (stdWorkDayOf S e.ConvertFromData date)
        (lastWorkDay e.Work) := by simpa using hlv
    refine ⟨pre, lv, post, hsplit, hlv1, ?_, ?_⟩
    · intro x hx
      simpa using hpost x hx
    · rw [hget, hsplit]
      unfold leavePass
      rw [List.foldl_append, List.foldl_cons, if_pos hlv1]
      exact foldl_skip _ _ _ (fun x hx c => if_neg (by simpa using hpost x hx))
  · intro hnone
    rw [hget]
    exact leavePass_none _ _ _ _ _ _ hnone

/-- C12: with no work hours on the date, `GetWorkday` returns the workday built from a
ledger entry (ID 0, empty work center, the code and hours of the entry) exactly when
some ledger entry qualifies, and then from the last one that does; when none qualifies
the result is that of `GetWorkdayWOLeave`. An entry qualifies when its date `shift lv`
falls on the calendar day of `date` and either its hours exceed half of `std` or
`shift lv` is before the last work day. Here `shift lv` is the date of the entry, moved
by the whole hours of the offset (the fraction dropped) when the date carries an hour
of day, and `std` is the standard workday of the last assignment in use at the site of
the employee on the date, 8 when no assignment is in use. -/
theorem C12_leave_override (S : Sched) (e : Employee) (date : Time) (offset std : ℚ)
    (shift : LeaveDay → Time)
    (hwork : ¬ workedOn e.Work date > 0)
    (hstd :
      (∃ pre a post, e.ConvertFromData.Assignments = pre ++ a :: post ∧
          S.UseAssignment a e.ConvertFromData.SiteID date = true ∧
          (∀ b ∈ post, S.UseAssignment b e.ConvertFromData.SiteID date = false) ∧
          std = S.StandardWorkday a) ∨
        ((∀ a ∈ e.ConvertFromData.Assignments,
            S.UseAssignment a e.ConvertFromData.SiteID date = false) ∧ std = 8))
    (hshift : ∀ lv : LeaveDay, shift lv =
      if lv.LeaveDate.Hour ≠ 0 then
        lv.LeaveDate + Int.tdiv offset.num offset.den * 3600000000000
      else lv.LeaveDate) :
    ((∃ lv ∈ e.ConvertFromData.Leaves,
        (shift lv).SameDay date ∧
          (lv.Hours > std / 2 ∨ shift lv < lastWorkDay e.Work)) →
      ∃ pre lv post, e.ConvertFromData.Leaves = pre ++ lv :: post ∧
        ((shift lv).SameDay date ∧
          (lv.Hours > std / 2 ∨ shift lv < lastWorkDay e.Work)) ∧
        (∀ x ∈ post, ¬ ((shift x).SameDay date ∧
          (x.Hours > std / 2 ∨ shift x < lastWorkDay e.Work))) ∧
        e.GetWorkday S date offset = some ⟨0, "", lv.Code, lv.Hours⟩) ∧
    ((∀ lv ∈ e.ConvertFromData.Leaves,
        ¬ ((shift lv).SameDay date ∧
          (lv.Hours > std / 2 ∨ shift lv < lastWorkDay e.Work))) →
      e.GetWorkday S date offset = e.GetWorkdayWOLeave S date offset) := by
  have hs := stdWorkDayOf_eq S e.ConvertFromData date std hstd
  have hsh : ∀ lv : LeaveDay, shifted lv offset = shift lv := by
    intro lv
    rw [hshift]
    rfl
  have h := GetWorkday_leave S e date offset hwork
  simp only [leaveApplies, hs, hsh, Time.Before] at h
  exact h

/-- C12, witness. The employee `empTenHour` has a standard workday of 10 hours and last
worked on 2024-03-01. With offset 3 the entry of 6 hours entered at 22:00 of 2024-03-04
counts for 2024-03-05, where it gives the workday, and not for 2024-03-04; with offset 0
it counts for 2024-03-04. The entry of 5 hours on 2024-03-06 does not exceed half of
10 hours and does not qualify, so the day of the schedule is returned. The entry of 2
hours on 2024-02-28 is before the last work day and gives the workday. -/
theorem C12_leave_override_witness :
    (empTenHour.GetWorkday specSched (Time.Date 2024 3 6) 3 =
        empTenHour.GetWorkdayWOLeave specSched (Time.Date 2024 3 6) 3 ∧
      empTenHour.GetWorkday specSched (Time.Date 2024 3 6) 3 = some ⟨3, "w", "D", 10⟩) ∧
    ((∃ pre lv post, empTenHour.ConvertFromData.Leaves = pre ++ lv :: post ∧
        (Time.SameDay
            (if lv.LeaveDate.Hour ≠ 0 then
              lv.LeaveDate + Int.tdiv (3 : ℚ).num (3 : ℚ).den * 3600000000000
            else lv.LeaveDate) (Time.Date 2024 3 5) ∧
          (lv.Hours > 10 / 2 ∨
            (if lv.LeaveDate.Hour ≠ 0 then
              lv.LeaveDate + Int.tdiv (3 : ℚ).num (3 : ℚ).den * 3600000000000
            else lv.LeaveDate) < lastWorkDay empTenHour.Work)) ∧
        (∀ x ∈ post, ¬ (Time.SameDay
            (if x.LeaveDate.Hour ≠ 0 then
              x.LeaveDate + Int.tdiv (3 : ℚ).num (3 : ℚ).den * 3600000000000
            else x.LeaveDate) (Time.Date 2024 3 5) ∧
          (x.Hours > 10 / 2 ∨
            (if x.LeaveDate.Hour ≠ 0 then
              x.LeaveDate + Int.tdiv (3 : ℚ).num (3 : ℚ).den * 3600000000000
            else x.LeaveDate) < lastWorkDay empTenHour.Work))) ∧
        empTenHour.GetWorkday specSched (Time.Date 2024 3 5) 3 =
          some ⟨0, "", lv.Code, lv.Hours⟩) ∧
      empTenHour.GetWorkday specSched (Time.Date 2024 3 5) 3 = some ⟨0, "", "V", 6⟩) ∧
    empTenHour.GetWorkday specSched (Time.Date 2024 3 4) 3 = some ⟨1, "w", "D", 10⟩ ∧
    empTenHour.GetWorkday specSched (Time.Date 2024 3 4) 0 = some ⟨0, "", "V", 6⟩ ∧
    empTenHour.GetWorkday specSched (Time.Date 2024 2 28) 0 = some ⟨0, "", "S", 2⟩ ∧
    lastWorkDay empTenHour.Work = Time.Date 2024 3 1 :=
  ⟨⟨(C12_leave_override specSched empTenHour (Time.Date 2024 3 6) 3 10
        (fun lv => if lv.LeaveDate.Hour ≠ 0 then
          lv.LeaveDate + Int.tdiv (3 : ℚ).num (3 : ℚ).den * 3600000000000
        else lv.LeaveDate)
        (by decide!)
        (Or.inl ⟨[], _, [], rfl, by decide!, by simp, by decide!⟩)
        (fun _ => rfl)).2 (by decide!),
      by decide!⟩,
    ⟨(C12_leave_override specSched empTenHour (Time.Date 2024 3 5) 3 10
        (fun lv => if lv.LeaveDate.Hour ≠ 0 then
          lv.LeaveDate + Int.tdiv (3 : ℚ).num (3 : ℚ).den * 3600000000000
        else lv.LeaveDate)
        (by decide!)
        (Or.inl ⟨[], _, [], rfl, by decide!, by simp, by decide!⟩)
        (fun _ => rfl)).1 (by decide!),
      by decide!⟩,
    by decide!, by decide!, by decide!, by decide!⟩

/-! ## The actual workday -/

theorem actualPass_eq (l : List LeaveDay) (date : Time) (wkday : Option Workday) :
    actualPass l date wkday = l.foldl (actualStep date) (wkday, false) := rfl

theorem actual_fold_filter (l : List LeaveDay) (date : Time) (st : Option Workday × Bool) :
    l.foldl (actualStep date) st =
      (l.filter fun lv => decide (actualOn date lv)).foldl (actualStep date) st := by
  induction l generalizing st with
  | nil => rfl
  | cons lv t ih =>
    by_cases h : actualOn date lv
    · simp only [List.filter_cons, h, decide_True, if_true, List.foldl_cons]
      exact ih _
    · simp only [List.filter_cons, h, decide_False, List.foldl_cons]
      have : actualStep date st lv = st := by
        unfold actualStep
        rw [if_neg h]
      rw [this]
      exact ih _

theorem actual_fold_true (A : List LeaveDay) (date : Time) (wd : Workday)
    (hA : ∀ lv ∈ A, actualOn date lv) :
    ∃ code, A.foldl (actualStep date) (some wd, true) =
      (some ⟨wd.ID, wd.Workcenter, code, wd.Hours + (A.map fun lv => lv.Hours).sum⟩, true) := by
  induction A generalizing wd with
  | nil => exact ⟨wd.Code, by simp⟩
  | cons lv t ih =>
    have hlv : actualOn date lv := hA lv (List.mem_cons_self _ _)
    have ht : ∀ x ∈ t, actualOn date x := fun x hx => hA x (List.mem_cons_of_mem _ hx)
    rw [List.foldl_cons]
    by_cases hle : lv.Hours ≤ wd.Hours
    · have hs : actualStep date (some wd, true) lv =
          (some { wd with Hours := wd.Hours + lv.Hours }, true) := by
        unfold actualStep
        simp [hlv, hle]
      obtain ⟨code, hc⟩ := ih { wd with Hours := wd.Hours + lv.Hours } ht
      exact ⟨code, by rw [hs, hc]; simp [add_assoc]⟩
    · have hs : actualStep date (some wd, true) lv =
          (some { wd with Hours := wd.Hours + lv.Hours, Code := lv.Code }, true) := by
        unfold actualStep
        simp [hlv, hle]
      obtain ⟨code, hc⟩ := ih { wd with Hours := wd.Hours + lv.Hours, Code := lv.Code } ht
      exact ⟨code, by rw [hs, hc]; simp [add_assoc]⟩

theorem actualOn_filter (date : Time) :
    (fun lv : LeaveDay => decide (actualOn date lv)) =
      fun lv => decide (lv.LeaveDate = date ∧ EqualFold lv.Status "actual") := by
  funext lv
  simp [actualOn]

/-- C14: when some ledger entry is dated exactly the date with status `ACTUAL`
(whatever the case), `GetWorkdayActual` returns a workday of ID 0 and empty work center
whose hours are the sum of the hours of all such entries; the result depends on the
ledger through these entries only; and when there is none the result is that of
`GetWorkdayWOLeave`. -/
theorem C14_actual_hours (S : Sched) (e : Employee) (date : Time) (offset : ℚ) :
    (e.ConvertFromData.Leaves.filter
        (fun lv => decide (lv.LeaveDate = date ∧ EqualFold lv.Status "actual")) ≠ [] →
      ∃ code, e.GetWorkdayActual S date offset =
        some ⟨0, "", code,
          ((e.ConvertFromData.Leaves.filter
            (fun lv => decide (lv.LeaveDate = date ∧ EqualFold lv.Status "actual"))).map
              fun lv => lv.Hours).sum⟩) ∧
    (e.ConvertFromData.Leaves.filter
        (fun lv => decide (lv.LeaveDate = date ∧ EqualFold lv.Status "actual")) = [] →
      e.GetWorkdayActual S date offset = e.GetWorkdayWOLeave S date offset) ∧
    (∀ e2 : Employee,
      { e2.ConvertFromData with Leaves := [] } = { e.ConvertFromData with Leaves := [] } →
      e2.ConvertFromData.Leaves.filter
          (fun lv => decide (lv.LeaveDate = date ∧ EqualFold lv.Status "actual")) =
        e.ConvertFromData.Leaves.filter
          (fun lv => decide (lv.LeaveDate = date ∧ EqualFold lv.Status "actual")) →
      e2.GetWorkdayActual S date offset = e.GetWorkdayActual S date offset) := by
  have hget : ∀ x : Employee, x.GetWorkdayActual S date offset =
      ((x.ConvertFromData.Leaves.filter
          (fun lv => decide (lv.LeaveDate = date ∧ EqualFold lv.Status "actual"))).foldl
        (actualStep date) (x.GetWorkdayWOLeave S date offset, false)).1 := by
    intro x
    unfold Employee.GetWorkdayActual Employee.GetWorkdayWOLeave
    simp only [actualPass_eq]
    rw [actual_fold_filter, actualOn_filter]
  refine ⟨?_, ?_, ?_⟩
  · intro hne
    rw [hget]
    have hall : ∀ lv ∈ e.ConvertFromData.Leaves.filter
        (fun lv => decide (lv.LeaveDate = date ∧ EqualFold lv.Status "actual")),
        actualOn date lv := by
      intro lv hlv
      have := (List.mem_filter.1 hlv).2
      simpa [actualOn] using this
    cases hA : e.ConvertFromData.Leaves.filter
        (fun lv => decide (lv.LeaveDate = date ∧ EqualFold lv.Status "actual")) with
    | nil => exact absurd hA hne
    | cons x t =>
      rw [hA] at hall
      have hx : actualOn date x := hall x (List.mem_cons_self _ _)
      have hs : actualStep date (e.GetWorkdayWOLeave S date offset, false) x =
          (some (leaveWorkday x), true) := by
        unfold actualStep
        simp [hx]
      obtain ⟨code, hc⟩ := actual_fold_true t date (leaveWorkday x)
        (fun y hy => hall y (List.mem_cons_of_mem _ hy))
      refine ⟨code, ?_⟩
      rw [List.foldl_cons, hs, hc]
      simp [leaveWorkday]
  · intro hnil
    rw [hget, hnil]
    rfl
  · intro e2 hsame hfilter
    rw [hget e2, hget e, hfilter]
    have hwo : e2.GetWorkdayWOLeave S date offset = e.GetWorkdayWOLeave S date offset := by
      unfold Employee.GetWorkdayWOLeave
      have ha : e2.ConvertFromData.Assignments = e.ConvertFromData.Assignments := by
        have := congrArg Employee.Assignments hsame
        simpa using this
      have hv : e2.ConvertFromData.Variations = e.ConvertFromData.Variations := by
        have := congrArg Employee.Variations hsame
        simpa using this
      simp only [ha, hv]
    rw [hwo]

/-- C13: with `ACTUAL` entries of 3 hours (code `A`), 3 hours (code `B`) and 4 hours
(code `C`) on 2024-03-04, `GetWorkdayActual` returns 10 hours under code `A`, and the
entry with the largest hours is the one of code `C`: each later entry is compared with
the hours accumulated so far, not with the hours of the entries before it. -/
theorem C13_code_follows_running_total :
    empThreeActuals.GetWorkdayActual specSched (Time.Date 2024 3 4) 0 =
      some ⟨0, "", "A", 10⟩ ∧
    (∀ lv ∈ empThreeActuals.Leaves,
      lv.LeaveDate = Time.Date 2024 3 4 ∧ EqualFold lv.Status "actual" ∧ lv.Hours ≤ 4 ∧
      (lv.Hours = 4 → lv.Code = "C")) ∧
    (∃ lv ∈ empThreeActuals.Leaves, lv.Hours = 4) := by
  refine ⟨by decide!, by decide!, by decide!⟩

/-- With two `ACTUAL` entries on the date the code returned is that of the entry with
the larger hours, the first one on a tie. -/
theorem actual_two_entries (date : Time) (x y : LeaveDay) (wk : Option Workday)
    (hx : actualOn date x) (hy : actualOn date y) :
    (actualPass [x, y] date wk).1 =
      some ⟨0, "", if y.Hours ≤ x.Hours then x.Code else y.Code, x.Hours + y.Hours⟩ := by
  rw [actualPass_eq]
  simp only [List.foldl_cons, List.foldl_nil]
  unfold actualStep
  by_cases hle : y.Hours ≤ x.Hours <;> simp [hx, hy, hle, leaveWorkday]

/-! ## Adding and removing one assignment -/

theorem toInt64_small (n : Nat) (h : n < 2 ^ 63) : toInt64 n = (n : Int) := by
  unfold toInt64
  have h1 : n % 2 ^ 64 = n := Nat.mod_eq_of_lt (by omega)
  rw [h1, if_pos h]

theorem nextID_small (n : Nat) (h : n < 2 ^ 63) : nextID (n : Int) = n + 1 := by
  unfold nextID
  have h1 : ((n : Int) + 1) % 2 ^ 64 = (n : Int) + 1 := Int.emod_eq_of_lt (by omega) (by omega)
  rw [h1]
  omega

theorem maxAsgmtID_from (l : List Assignment) (m : Nat) (h : ∀ a ∈ l, a.ID < 2 ^ 63) :
    l.foldl (fun m a => if toInt64 a.ID > m then toInt64 a.ID else m) (m : Int) =
      ((max m (largestID l) : Nat) : Int) := by
  induction l generalizing m with
  | nil => simp [largestID]
  | cons a t ih =>
    have ha := toInt64_small a.ID (h a (List.mem_cons_self _ _))
    have ht := fun b hb => h b (List.mem_cons_of_mem _ hb)
    have hl : largestID (a :: t) = max a.ID (largestID t) := rfl
    rw [List.foldl_cons, ha, hl]
    by_cases hgt : (a.ID : Int) > (m : Int)
    · rw [if_pos hgt, ih a.ID ht]
      congr 1
      omega
    · rw [if_neg hgt, ih m ht]
      congr 1
      omega

theorem maxAsgmtID_eq (l : List Assignment) (h : ∀ a ∈ l, a.ID < 2 ^ 63) :
    maxAsgmtID l = (largestID l : Int) := by
  unfold maxAsgmtID
  have := maxAsgmtID_from l 0 h
  simp only [Nat.cast_zero] at this
  rw [this]
  congr 1
  omega

theorem le_largestID (l : List Assignment) (a : Assignment) (h : a ∈ l) :
    a.ID ≤ largestID l := by
  induction l with
  | nil => cases h
  | cons b t ih =>
    have hl : largestID (b :: t) = max b.ID (largestID t) := rfl
    rw [hl]
    rcases List.mem_cons.1 h with rfl | hm
    · omega
    · have := ih hm
      omega

/-- The assignments after `AddAssignment`: the date-sorted list of the old ones, its
last one closed, and the new one, sorted again. -/
theorem largestID_lt (l : List Assignment) (b : Nat) (hb : 0 < b) (h : ∀ a ∈ l, a.ID < b) :
    largestID l < b := by
  induction l with
  | nil => exact hb
  | cons a t ih =>
    have hl : largestID (a :: t) = max a.ID (largestID t) := rfl
    have h1 := h a (List.mem_cons_self _ _)
    have h2 := ih (fun x hx => h x (List.mem_cons_of_mem _ hx))
    rw [hl]
    omega

theorem AddAssignment_new (e : Employee) (site wkctr : String) (start : Time)
    (hids : ∀ a ∈ e.ConvertFromData.Assignments, a.ID < 2 ^ 63) :
    ∃ new : Assignment, new.ID = largestID e.ConvertFromData.Assignments + 1 ∧
      new.Site = site ∧ new.Workcenter = wkctr ∧ new.StartDate = start ∧
      new.EndDate = sentinel ∧
      (e.AddAssignment site wkctr start).Assignments =
        sortByAssignment
          (closeLast (sortByAssignment e.ConvertFromData.Assignments) start ++ [new]) := by
  refine ⟨_, ?_, ?_, ?_, ?_, ?_, rfl⟩
  · show nextID (maxAsgmtID e.ConvertFromData.Assignments) = _
    rw [maxAsgmtID_eq _ hids, nextID_small _ (largestID_lt _ _ (by norm_num) hids)]
  · rfl
  · rfl
  · rfl
  · rfl

theorem sortByAssignment_sorted (l : List Assignment) :
    (sortByAssignment l).Sorted fun a b => a.StartDate ≤ b.StartDate := by
  haveI : IsTotal Assignment (fun a b => a.StartDate ≤ b.StartDate) :=
    ⟨fun a b => le_total a.StartDate b.StartDate⟩
  haveI : IsTrans Assignment (fun a b => a.StartDate ≤ b.StartDate) :=
    ⟨fun a b c hab hbc => le_trans hab hbc⟩
  exact List.sorted_insertionSort _ l

/-- On an employee whose assignment IDs are all below 2^63, `AddAssignment` adds exactly
one assignment: its ID is the largest existing ID plus one (1 when there is none), its
start date is `start`, its end date the sentinel; the old assignment that is last in
start-date order gets the end date `start` minus one day, every other one is unchanged,
and the result is sorted by start date. -/
theorem AddAssignment_adds_one (e : Employee) (site wkctr : String) (start : Time)
    (hids : ∀ a ∈ e.ConvertFromData.Assignments, a.ID < 2 ^ 63) :
    ∃ new : Assignment,
      new.ID = largestID e.ConvertFromData.Assignments + 1 ∧
      new.Site = site ∧ new.Workcenter = wkctr ∧
      new.StartDate = start ∧ new.EndDate = sentinel ∧
      (e.AddAssignment site wkctr start).Assignments.Perm
        (closeLast (sortByAssignment e.ConvertFromData.Assignments) start ++ [new]) ∧
      ((e.AddAssignment site wkctr start).Assignments.Sorted
        fun a b => a.StartDate ≤ b.StartDate) ∧
      (e.AddAssignment site wkctr start).Assignments.length =
        e.ConvertFromData.Assignments.length + 1 ∧
      (sortByAssignment e.ConvertFromData.Assignments).Perm e.ConvertFromData.Assignments ∧
      (e.ConvertFromData.Assignments = [] →
        (e.AddAssignment site wkctr start).Assignments = [new] ∧ new.ID = 1) ∧
      (∀ init z, sortByAssignment e.ConvertFromData.Assignments = init ++ [z] →
        closeLast (sortByAssignment e.ConvertFromData.Assignments) start =
          init ++ [{ z with EndDate := start.AddDays (-1) }]) := by
  obtain ⟨new, hid, hsite, hwk, hs, hend, hasg⟩ := AddAssignment_new e site wkctr start hids
  have hperm : (e.AddAssignment site wkctr start).Assignments.Perm
      (closeLast (sortByAssignment e.ConvertFromData.Assignments) start ++ [new]) := by
    rw [hasg]
    exact List.perm_insertionSort _ _
  have hclose : ∀ init z, sortByAssignment e.ConvertFromData.Assignments = init ++ [z] →
      closeLast (sortByAssignment e.ConvertFromData.Assignments) start =
        init ++ [{ z with EndDate := start.AddDays (-1) }] := by
    intro init z h
    rw [h, closeLast_snoc]
  have hlen : (closeLast (sortByAssignment e.ConvertFromData.Assignments) start).length =
      e.ConvertFromData.Assignments.length := by
    have hsl : (sortByAssignment e.ConvertFromData.Assignments).length =
        e.ConvertFromData.Assignments.length := List.length_insertionSort _ _
    rcases List.eq_nil_or_concat (sortByAssignment e.ConvertFromData.Assignments) with
      h0 | ⟨init, z, h0⟩
    · rw [h0, closeLast_nil, ← hsl, h0]
    · rw [List.concat_eq_append] at h0
      rw [hclose init z h0, ← hsl, h0]
      simp
  refine ⟨new, hid, hsite, hwk, hs, hend, hperm, ?_, ?_, List.perm_insertionSort _ _, ?_,
    hclose⟩
  · rw [hasg]
    exact sortByAssignment_sorted _
  · rw [hperm.length_eq, List.length_append, hlen]
    rfl
  · intro h0
    constructor
    · rw [hasg, h0]
      rfl
    · rw [hid, h0]
      rfl

/-- C18: the ID that `AddAssignment` gives is not always one more than the largest
existing ID. The loop compares `int(asgmt.ID)`, which is negative for an ID of 2^63 or
more, so such an ID is passed over: on the employee whose only assignment carries the
ID 2^63 the new assignment gets the ID 1, not 2^63 + 1. The rest is as the claim says:
the old assignment is closed on the day before the start and the new one follows. -/
theorem C18_new_id_skips_large_ids :
    (empHugeID.Assignments.map fun a => a.ID) = [9223372036854775808] ∧
      toInt64 9223372036854775808 = -9223372036854775808 ∧
      ((empHugeID.AddAssignment "s" "w2" (Time.Date 2024 2 1)).Assignments.map
          fun a => (a.ID, a.StartDate, a.EndDate)) =
        [(9223372036854775808, Time.Date 2024 1 1, Time.Date 2024 1 31),
         (1, Time.Date 2024 2 1, sentinel)] := by
  decide!

/-- C19, as amended: in every state of the employee in which the assignment IDs are
all below 2^63, hence after every sequence of calls that leads to such a state, the
assignment that `AddAssignment` adds gets the largest ID present plus one, an ID
greater than, so different from, the ID of every assignment present at the time of the
call. -/
theorem C19_new_id_above_present (e : Employee) (site wkctr : String) (start : Time)
    (hids : ∀ a ∈ e.ConvertFromData.Assignments, a.ID < 2 ^ 63) :
    ∃ new ∈ (e.AddAssignment site wkctr start).Assignments,
      new.StartDate = start ∧ new.EndDate = sentinel ∧
      new.ID = largestID e.ConvertFromData.Assignments + 1 ∧
      ∀ a ∈ e.ConvertFromData.Assignments, a.ID < new.ID := by
  obtain ⟨new, hid, _, _, hs, hend, hasg⟩ := AddAssignment_new e site wkctr start hids
  refine ⟨new, ?_, hs, hend, hid, ?_⟩
  · rw [hasg]
    apply (List.perm_insertionSort _ _).symm.subset
    simp
  · intro a ha
    have := le_largestID _ a ha
    omega

/-- C19 at work: `empOutOfOrder` carries the IDs 2 and 1, and the assignment added
next gets the ID 3. -/
theorem C19_new_id_above_present_witness :
    (empOutOfOrder.ConvertFromData.Assignments.map fun a => a.ID) = [2, 1] ∧
    (∀ a ∈ empOutOfOrder.ConvertFromData.Assignments, a.ID < 2 ^ 63) ∧
    ∃ new ∈ (empOutOfOrder.AddAssignment "s" "w3" (Time.Date 2024 3 1)).Assignments,
      new.StartDate = Time.Date 2024 3 1 ∧ new.EndDate = sentinel ∧ new.ID = 3 ∧
      ∀ a ∈ empOutOfOrder.ConvertFromData.Assignments, a.ID < new.ID := by
  obtain ⟨new, hm, hs, he, hid, hlt⟩ :=
    C19_new_id_above_present empOutOfOrder "s" "w3" (Time.Date 2024 3 1) (by decide)
  exact ⟨by decide!, by decide, new, hm, hs, he, hid.trans (by decide!), hlt⟩

/-- Without the bound the new ID can be one that is present: with the IDs 2^63 - 1 and
2^63 the sum wraps and the new assignment gets 2^63 again. -/
theorem new_id_wraps_example :
    (empHugeIDs.Assignments.map fun a => a.ID) = [9223372036854775807, 9223372036854775808] ∧
      ((empHugeIDs.AddAssignment "s" "w3" (Time.Date 2024 3 1)).Assignments.map fun a => a.ID) =
        [9223372036854775807, 9223372036854775808, 9223372036854775808] := by
  decide!

/-- C19 fails as stated: after two adds the assignment of 2024-02-01 has ID 2; it is
removed, and the assignment added next, of 2024-03-01, gets ID 2 again. -/
theorem C19_counterexample :
    ∃ e2 e3 : Employee,
      runOps (opsReuse.take 2) emp0 = .ok e2 ∧
      (∃ a ∈ e2.Assignments, a.ID = 2 ∧ a.StartDate = Time.Date 2024 2 1) ∧
      runOps (opsReuse.take 3) emp0 = .ok e3 ∧
      (∀ a ∈ e3.Assignments, a.ID ≠ 2) ∧
      (∃ e4, runOps opsReuse emp0 = .ok e4 ∧
        e4.Assignments = (e3.AddAssignment "s" "w3" (Time.Date 2024 3 1)).Assignments ∧
        ∃ new ∈ e4.Assignments, new.ID = 2 ∧ new.StartDate = Time.Date 2024 3 1) :=
  ⟨_, _, rfl, by decide!, rfl, by decide!, _, rfl, by decide!, by decide!⟩

/-- C20: the assignment of ID 2 of `empOutOfOrder` is the first in start-date order;
`RemoveAssignment(2)` indexes the assignment before it, at position -1, and panics. -/
theorem C20_remove_first_panics :
    empOutOfOrder.Assignments.map (fun a => (a.ID, a.StartDate)) =
      [(2, Time.Date 2024 1 1), (1, Time.Date 2024 2 1)] ∧
    empOutOfOrder.RemoveAssignment 2 = .error (.panic "index out of range [-1]") := by
  refine ⟨by decide!, by decide!⟩

/-! ## Backward steps of the status -/

theorem dateChange_status (D : Deps) (e : Employee) (req : LeaveRequest) (outside : Bool)
    (what : String) (start stop : Time) (offset : ℚ) (message : String) :
    (dateChange D e req outside what start stop offset message).2.1.Status = req.Status ∨
    (EqualFold req.Status "approved" ∧
      (dateChange D e req outside what start stop offset message).2.1.Status = "REQUESTED") := by
  obtain ⟨_, _, h3, h4⟩ := dateChange_fields D e req outside what start stop offset message
  by_cases ha : EqualFold req.Status "approved"
  · cases outside with
    | false => exact Or.inl (h4 (Or.inl rfl)).1
    | true => exact Or.inr ⟨ha, (h3 rfl ha).1⟩
  · exact Or.inl (h4 (Or.inr ha)).1

/-- What one pass of the `switch` can do to the status of a request. -/
theorem updateOne_status (D : Deps) (e : Employee) (req : LeaveRequest) (field value : String)
    (offset : ℚ) (now : Time) (message : String) (r : Employee × LeaveRequest × String)
    (h : updateOne D e req field value offset now message = .ok r) :
    r.2.1.Status = req.Status ∨
    (isDateField field ∧ EqualFold req.Status "approved" ∧ r.2.1.Status = "REQUESTED") ∨
    (toLower field = "requested" ∧ r.2.1.Status = "REQUESTED") ∨
    (toLower field = "approve" ∧ r.2.1.Status = "APPROVED") ∨
    (toLower field = "unapprove" ∧ r.2.1.Status = "DRAFT") := by
  unfold updateOne at h
  simp only [] at h
  split_ifs at h with h1 h2 h3 h4 h5 h6 h7 h8
  · have hd : isDateField field := by
      unfold isDateField
      rcases h1 with h | h <;> simp [h]
    split at h
    · cases h
    · injection h with h
      subst h
      rcases dateChange_status D e req _ _ _ _ offset message with hs | hs
      · exact Or.inl hs
      · exact Or.inr (Or.inl ⟨hd, hs⟩)
  · have hd : isDateField field := by
      unfold isDateField
      rcases h2 with h | h <;> simp [h]
    split at h
    · cases h
    · injection h with h
      subst h
      rcases dateChange_status D e req _ _ _ _ offset message with hs | hs
      · exact Or.inl hs
      · exact Or.inr (Or.inl ⟨hd, hs⟩)
  · injection h with h
    subst h
    exact Or.inl rfl
  · have hd : isDateField field := by
      unfold isDateField
      simp [h4]
    split at h
    · cases h
    · split at h
      · cases h
      · split at h
        · cases h
        · split at h
          · cases h
          · injection h with h
            subst h
            rcases dateChange_status D e req _ _ _ _ offset message with hs | hs
            · exact Or.inl hs
            · exact Or.inr (Or.inl ⟨hd, hs⟩)
  · injection h with h
    subst h
    exact Or.inr (Or.inr (Or.inl ⟨h5, rfl⟩))
  · injection h with h
    subst h
    exact Or.inr (Or.inr (Or.inr (Or.inl ⟨h6, rfl⟩)))
  · injection h with h
    subst h
    exact Or.inr (Or.inr (Or.inr (Or.inr ⟨h7, rfl⟩)))
  · split at h
    · injection h with h
      subst h
      exact Or.inl rfl
    · cases h
  · injection h with h
    subst h
    exact Or.inl rfl

theorem forall₂_self {α : Type} (R : α → α → Prop) (hR : ∀ a, R a a) (l : List α) :
    List.Forall₂ R l l := by
  induction l with
  | nil => exact List.Forall₂.nil
  | cons a t ih => exact List.Forall₂.cons (hR a) ih

/-- Whatever the outcome of the call, every request stored afterwards is the request
that was at its position, or comes from it by one successful pass of the `switch`. -/
theorem updateLoop_rel (D : Deps) (request field value : String) (offset : ℚ) (now : Time)
    (P : LeaveRequest → LeaveRequest → Prop)
    (hP : ∀ e req msg r, updateOne D e req field value offset now msg = .ok r → P req r.2.1)
    (todo done : List LeaveRequest) (e : Employee) (msg : String) (lr : Option LeaveRequest) :
    ∃ todo2, (updateLoop D request field value offset now done todo e msg lr).e.Requests =
        done ++ todo2 ∧
      List.Forall₂ (fun r r2 => r2 = r ∨ (r.ID = request ∧ P r r2)) todo todo2 := by
  induction todo generalizing done e msg lr with
  | nil => exact ⟨[], by simp [updateLoop], List.Forall₂.nil⟩
  | cons req rest ih =>
    by_cases hid : req.ID = request
    · cases hr : updateOne D { e with Requests := done ++ req :: rest } req field value offset
          now msg with
      | error f =>
        refine ⟨req :: rest, ?_,
          forall₂_self (fun r r2 => r2 = r ∨ (r.ID = request ∧ P r r2)) (fun a => Or.inl rfl)
            _⟩
        rw [updateLoop, if_pos hid, hr]
      | ok r =>
        have hstep : updateLoop D request field value offset now done (req :: rest) e msg lr =
            updateLoop D request field value offset now (done ++ [r.2.1]) rest r.1 r.2.2
              (some r.2.1) := by
          rw [updateLoop, if_pos hid, hr]
        obtain ⟨todo2, h2, h3⟩ := ih (done ++ [r.2.1]) r.1 r.2.2 (some r.2.1)
        rw [hstep]
        exact ⟨r.2.1 :: todo2, by simpa using h2,
          List.Forall₂.cons (Or.inr ⟨hid, hP _ _ _ _ hr⟩) h3⟩
    · have hstep : updateLoop D request field value offset now done (req :: rest) e msg lr =
          updateLoop D request field value offset now (done ++ [req]) rest e msg lr := by
        rw [updateLoop, if_neg hid]
      obtain ⟨todo2, h2, h3⟩ := ih (done ++ [req]) e msg lr
      rw [hstep]
      exact ⟨req :: todo2, by simpa using h2, List.Forall₂.cons (Or.inl rfl) h3⟩

theorem statusRank_cases (s : String) (n : Nat) (h : statusRank s = some n) :
    (s = "DRAFT" ∧ n = 0) ∨ (s = "REQUESTED" ∧ n = 1) ∨ (s = "APPROVED" ∧ n = 2) := by
  unfold statusRank at h
  split_ifs at h with h1 h2 h3
  · injection h with h
    exact Or.inl ⟨h1, h.symm⟩
  · injection h with h
    exact Or.inr (Or.inl ⟨h2, h.symm⟩)
  · injection h with h
    exact Or.inr (Or.inr ⟨h3, h.symm⟩)

theorem movedBack_cases (before after : String) (h : movedBack before after = true) :
    (before = "REQUESTED" ∧ after = "DRAFT") ∨ (before = "APPROVED" ∧ after = "DRAFT") ∨
    (before = "APPROVED" ∧ after = "REQUESTED") := by
  unfold movedBack at h
  split at h
  · rename_i a b ha hb
    have hlt : a < b := by simpa using h
    rcases statusRank_cases _ _ ha with ⟨h1, h2⟩ | ⟨h1, h2⟩ | ⟨h1, h2⟩ <;>
      rcases statusRank_cases _ _ hb with ⟨h3, h4⟩ | ⟨h3, h4⟩ | ⟨h3, h4⟩ <;>
      first
      | (exfalso; omega)
      | exact Or.inl ⟨h3, h1⟩
      | exact Or.inr (Or.inl ⟨h3, h1⟩)
      | exact Or.inr (Or.inr ⟨h3, h1⟩)
  · cases h

/-- C11, as amended: whatever the field and the value, a request of another id is
stored back as it was, and when the status of a request after the call is earlier in
the order `DRAFT < REQUESTED < APPROVED` than before, then either the field was a
date change (start, end or dates), the status was `APPROVED` and is now `REQUESTED`;
or the field was `requested`, the status was `APPROVED` and is now `REQUESTED`; or the
field was `unapprove` and the status is now `DRAFT`. -/
theorem C11_backward_steps (D : Deps) (e : Employee) (request field value : String)
    (offset : ℚ) (now : Time) (i : Nat) (req : LeaveRequest)
    (hreq : e.ConvertFromData.Requests[i]? = some req) :
    ∃ req2, (e.UpdateLeaveRequest D request field value offset now).e.Requests[i]? =
        some req2 ∧
      (req.ID ≠ request → req2 = req) ∧
      (movedBack req.Status req2.Status = true →
        (isDateField field ∧ req.Status = "APPROVED" ∧ req2.Status = "REQUESTED") ∨
        (toLower field = "requested" ∧ req.Status = "APPROVED" ∧
          req2.Status = "REQUESTED") ∨
        (toLower field = "unapprove" ∧ req2.Status = "DRAFT" ∧
          (req.Status = "REQUESTED" ∨ req.Status = "APPROVED"))) := by
  obtain ⟨todo2, hreqs, hall⟩ := updateLoop_rel D request field value offset now
    (fun r r2 =>
      r2.Status = r.Status ∨
      (isDateField field ∧ EqualFold r.Status "approved" ∧ r2.Status = "REQUESTED") ∨
      (toLower field = "requested" ∧ r2.Status = "REQUESTED") ∨
      (toLower field = "approve" ∧ r2.Status = "APPROVED") ∨
      (toLower field = "unapprove" ∧ r2.Status = "DRAFT"))
    (fun e1 r msg res h => updateOne_status D e1 r field value offset now msg res h)
    e.ConvertFromData.Requests [] e.ConvertFromData "" none
  obtain ⟨req2, hget, hrel⟩ := forall₂_getElem? hall i req hreq
  refine ⟨req2, ?_, ?_, ?_⟩
  · unfold Employee.UpdateLeaveRequest
    rw [hreqs]
    simpa using hget
  · intro hne
    rcases hrel with h | ⟨h, _⟩
    · exact h
    · exact absurd h hne
  · intro hback
    have hcases := movedBack_cases _ _ hback
    have hstep : req2.Status = req.Status ∨
        (isDateField field ∧ EqualFold req.Status "approved" ∧ req2.Status = "REQUESTED") ∨
        (toLower field = "requested" ∧ req2.Status = "REQUESTED") ∨
        (toLower field = "approve" ∧ req2.Status = "APPROVED") ∨
        (toLower field = "unapprove" ∧ req2.Status = "DRAFT") := by
      rcases hrel with h | ⟨_, h⟩
      · exact Or.inl (by rw [h])
      · exact h
    rcases hstep with h | ⟨hd, _, h⟩ | ⟨hf, h⟩ | ⟨_, h⟩ | ⟨hf, h⟩
    · exfalso
      rw [h] at hcases
      rcases hcases with ⟨h1, h2⟩ | ⟨h1, h2⟩ | ⟨h1, h2⟩ <;> rw [h1] at h2 <;> simp at h2
    · rcases hcases with ⟨_, h2⟩ | ⟨_, h2⟩ | ⟨h1, _⟩
      · rw [h] at h2; simp at h2
      · rw [h] at h2; simp at h2
      · exact Or.inl ⟨hd, h1, h⟩
    · rcases hcases with ⟨_, h2⟩ | ⟨_, h2⟩ | ⟨h1, _⟩
      · rw [h] at h2; simp at h2
      · rw [h] at h2; simp at h2
      · exact Or.inr (Or.inl ⟨hf, h1, h⟩)
    · exfalso
      rcases hcases with ⟨_, h2⟩ | ⟨_, h2⟩ | ⟨_, h2⟩ <;> rw [h] at h2 <;> simp at h2
    · rcases hcases with ⟨h1, _⟩ | ⟨h1, _⟩ | ⟨_, h2⟩
      · exact Or.inr (Or.inr ⟨hf, h, Or.inl h1⟩)
      · exact Or.inr (Or.inr ⟨hf, h, Or.inr h1⟩)
      · rw [h] at h2; simp at h2

/-- The approved request `r1` of the scenario is at position 0; `unapprove` takes it
back to `DRAFT`. -/
theorem C11_backward_steps_witness :
    (∃ req, empApproved.ConvertFromData.Requests[0]? = some req ∧ req.ID = "r1" ∧
      req.Status = "APPROVED") ∧
    ∃ req2, (empApproved.UpdateLeaveRequest specDeps "r1" "unapprove" "late" 0
        (Time.Date 2024 2 3)).e.Requests[0]? = some req2 ∧
      (("r1" : String) ≠ "r1" → req2 = (empApproved.ConvertFromData.Requests.headD
        ⟨"", "", 0, "", 0, 0, "", "", 0, [], []⟩)) ∧
      (movedBack "APPROVED" req2.Status = true →
        (isDateField "unapprove" ∧ "APPROVED" = "APPROVED" ∧ req2.Status = "REQUESTED") ∨
        (toLower "unapprove" = "requested" ∧ "APPROVED" = "APPROVED" ∧
          req2.Status = "REQUESTED") ∨
        (toLower "unapprove" = "unapprove" ∧ req2.Status = "DRAFT" ∧
          ("APPROVED" = "REQUESTED" ∨ "APPROVED" = "APPROVED"))) :=
  ⟨⟨_, rfl, by decide!, by decide!⟩,
    C11_backward_steps specDeps empApproved "r1" "unapprove" "late" 0 (Time.Date 2024 2 3) 0
      (empApproved.ConvertFromData.Requests.headD ⟨"", "", 0, "", 0, 0, "", "", 0, [], []⟩)
      (by decide!)⟩

/-- C11 fails as stated: `unapprove` moves the approved request of the scenario back
to `DRAFT`, and `requested` moves it back to `REQUESTED`; neither is a date change. -/
theorem C11_counterexample :
    empApproved.Requests.map (fun r => (r.ID, r.Status)) = [("r1", "APPROVED")] ∧
    (empApproved.UpdateLeaveRequest specDeps "r1" "unapprove" "late" 0
        (Time.Date 2024 2 3)).e.Requests.map (fun r => (r.ID, r.Status)) = [("r1", "DRAFT")] ∧
    (empApproved.UpdateLeaveRequest specDeps "r1" "requested" "" 0
        (Time.Date 2024 2 3)).e.Requests.map (fun r => (r.ID, r.Status)) =
      [("r1", "REQUESTED")] ∧
    movedBack "APPROVED" "DRAFT" = true ∧ movedBack "APPROVED" "REQUESTED" = true ∧
    ¬ isDateField "unapprove" ∧ ¬ isDateField "requested" := by
  refine ⟨by decide!, by decide!, by decide!, by decide, by decide, by decide, by decide⟩

/-! ## New requests -/

/-- C15: on the Monday to Friday 8-hour schedule, the range 2024-03-04..2024-03-08 and
code `V` give one `DRAFT` request with five days of 8 hours; but a day for which no
workday resolves is not skipped: for an employee without assignments, whatever the
schedule helpers, and for a range that starts before the only assignment, reading
`wd.Code` of the nil workday panics. -/
theorem C15_unresolved_day_panics :
    (∃ e1, empAssigned.NewLeaveRequest specSched "emp" "V" (Time.Date 2024 3 4)
        (Time.Date 2024 3 8) 0 "r1" (Time.Date 2024 2 1) = some (.ok e1) ∧
      e1.Requests.map (fun r => (r.ID, r.PrimaryCode, r.Status, r.StartDate, r.EndDate)) =
        [("r1", "V", "DRAFT", Time.Date 2024 3 4, Time.Date 2024 3 8)] ∧
      e1.Requests.map (fun r => r.RequestedDays) =
        [(List.range 5).map fun i : Nat =>
          ⟨0, (Time.Date 2024 3 4).AddDays (i : Int), "V", 8, "DRAFT", "r1"⟩]) ∧
    (∀ S : Sched, emp0.GetWorkday S (Time.Date 2024 3 4) 0 = none) ∧
    (∀ S : Sched, emp0.NewLeaveRequest S "emp" "V" (Time.Date 2024 3 4) (Time.Date 2024 3 8) 0
        "r1" (Time.Date 2024 2 1) = some (.error (.panic "nil pointer dereference"))) ∧
    empAssigned.GetWorkday specSched (Time.Date 2023 12 28) 0 = none ∧
    empAssigned.NewLeaveRequest specSched "emp" "V" (Time.Date 2023 12 28)
        (Time.Date 2024 1 3) 0 "r1" (Time.Date 2023 12 1) =
      some (.error (.panic "nil pointer dereference")) := by
  refine ⟨⟨_, rfl, by decide!, by decide!⟩, fun S => rfl, fun S => ?_, by decide!, by decide!⟩
  have hstd : emp0.GetStandardWorkday S (Time.Date 2024 3 4).Midnight = some 10 := by
    have h := (C17_standard_workday S emp0 (Time.Date 2024 3 4).Midnight).2.1
    rw [h]
    have hc : (weekDays (Time.Date 2024 3 4).Midnight).countP (codedDay S emp0) = 0 := by
      rw [List.countP_eq_zero]
      intro d _
      simp [codedDay, show emp0.GetWorkday S d 0 = none from rfl]
    rw [hc]
    rfl
  unfold Employee.NewLeaveRequest
  simp only [convert_of_none emp0 rfl, hstd]
  rfl

/-- C16: the assigned employee and the same employee with a 6-hour ledger entry on
2024-03-05 differ in the ledger only, and `NewLeaveRequest` for 2024-03-04..2024-03-08
materializes 8 hours for 2024-03-05 for the first and 6 hours for the second: the days
are resolved through `GetWorkday`, which reads the ledger. -/
theorem C16_ledger_changes_the_days :
    ({ empSixHours with Leaves := [] } : Employee) = { empAssigned with Leaves := [] } ∧
    materialized (empAssigned.NewLeaveRequest specSched "emp" "V" (Time.Date 2024 3 4)
        (Time.Date 2024 3 8) 0 "r1" (Time.Date 2024 2 1)) =
      [[(Time.Date 2024 3 4, 8), (Time.Date 2024 3 5, 8), (Time.Date 2024 3 6, 8),
        (Time.Date 2024 3 7, 8), (Time.Date 2024 3 8, 8)]] ∧
    materialized (empSixHours.NewLeaveRequest specSched "emp" "V" (Time.Date 2024 3 4)
        (Time.Date 2024 3 8) 0 "r1" (Time.Date 2024 2 1)) =
      [[(Time.Date 2024 3 4, 8), (Time.Date 2024 3 5, 6), (Time.Date 2024 3 6, 8),
        (Time.Date 2024 3 7, 8), (Time.Date 2024 3 8, 8)]] ∧
    empSixHours.GetWorkday specSched (Time.Date 2024 3 5) 0 = some ⟨0, "", "V", 6⟩ ∧
    empSixHours.GetWorkdayWOLeave specSched (Time.Date 2024 3 5) 0 = some ⟨2, "w", "D", 8⟩ := by
  refine ⟨rfl, by decide!, by decide!, by decide!, by decide!⟩

theorem RemoveAssignment_absent (e : Employee) (id : Nat) (hid : id > 1)
    (h : ∀ a ∈ e.ConvertFromData.Assignments, a.ID ≠ id) :
    e.RemoveAssignment id =
      .ok { e.ConvertFromData with
            Assignments := sortByAssignment e.ConvertFromData.Assignments } := by
  unfold Employee.RemoveAssignment
  have hpos : lastPosFrom (fun a : Assignment => decide (a.ID = id))
      (sortByAssignment e.ConvertFromData.Assignments) 0 (-1) = -1 := by
    apply lastPosFrom_none
    intro a ha
    have ha2 : a ∈ e.ConvertFromData.Assignments :=
      (List.perm_insertionSort _ _).mem_iff.mp ha
    simpa using h a ha2
  simp [hid, hpos]

/-- C21: `RemoveAssignment(id)` raises no error when `id` is 1 and when no assignment
carries `id`. For `id` at most 1 the employee is returned as it is. For a larger `id`
that no assignment carries the assignments are sorted by start date before the search:
afterwards they are the sorted list, a permutation of the list before with every record
as it was, every other field is untouched, and the list is unchanged when it was in
start-date order already. -/
theorem C21_remove_assignment_noop (e : Employee) (id : Nat)
    (h : id = 1 ∨ ∀ a ∈ e.ConvertFromData.Assignments, a.ID ≠ id) :
    ∃ e2, e.RemoveAssignment id = .ok e2 ∧
      e2.Assignments.Perm e.ConvertFromData.Assignments ∧
      e2 = { e.ConvertFromData with Assignments := e2.Assignments } ∧
      (id ≤ 1 → e2 = e.ConvertFromData) ∧
      (id > 1 → e2.Assignments = sortByAssignment e.ConvertFromData.Assignments) ∧
      (e.ConvertFromData.Assignments.Pairwise (fun a b => a.StartDate < b.StartDate) →
        e2 = e.ConvertFromData) := by
  by_cases hid : id > 1
  · have hno : ∀ a ∈ e.ConvertFromData.Assignments, a.ID ≠ id := by
      rcases h with h | h
      · omega
      · exact h
    refine ⟨_, RemoveAssignment_absent e id hid hno, ?_, rfl, ?_, fun _ => rfl, ?_⟩
    · exact List.perm_insertionSort _ _
    · intro h1; omega
    · intro hinc
      rw [sort_of_increasing _ hinc]
  · refine ⟨e.ConvertFromData, ?_, List.Perm.refl _, rfl, fun _ => rfl,
      fun h1 => absurd h1 hid, fun _ => rfl⟩
    unfold Employee.RemoveAssignment
    simp [hid]

/-- C21 at work: the assignments of `empUnsorted` are stored with the one from
2024-02-01 first. `RemoveAssignment(1)` returns the employee as it is;
`RemoveAssignment(7)`, an ID that no assignment carries, returns it with the
assignments in start-date order and nothing else changed. -/
theorem C21_remove_assignment_noop_witness :
    (empUnsorted.ConvertFromData.Assignments.map fun a => (a.ID, a.StartDate)) =
      [(2, Time.Date 2024 2 1), (1, Time.Date 2024 1 1)] ∧
    empUnsorted.RemoveAssignment 1 = .ok empUnsorted.ConvertFromData ∧
    ∃ e2, empUnsorted.RemoveAssignment 7 = .ok e2 ∧
      (e2.Assignments.map fun a => (a.ID, a.StartDate)) =
        [(1, Time.Date 2024 1 1), (2, Time.Date 2024 2 1)] ∧
      e2 = { empUnsorted.ConvertFromData with Assignments := e2.Assignments } := by
  obtain ⟨e1, hok1, -, -, hle, -, -⟩ := C21_remove_assignment_noop empUnsorted 1 (Or.inl rfl)
  obtain ⟨e2, hok, -, hframe, -, hsort, -⟩ :=
    C21_remove_assignment_noop empUnsorted 7 (Or.inr (by decide))
  refine ⟨by decide!, ?_, e2, hok, ?_, hframe⟩
  · rw [hok1, hle (by decide)]
  · rw [hsort (by decide)]
    decide!

/-- C21, counterexample: on an employee whose assignments are stored with the one from
2024-02-01 before the one from 2024-01-01, `RemoveAssignment(7)`, an ID that no
assignment carries, returns without error and leaves the two assignments in the other
order: the list is not as it was. -/
theorem C21_counterexample :
    (∀ a ∈ empUnsorted.Assignments, a.ID ≠ 7) ∧
      (empUnsorted.Assignments.map fun a => (a.ID, a.StartDate)) =
        [(2, Time.Date 2024 2 1), (1, Time.Date 2024 1 1)] ∧
      (∃ e2, empUnsorted.RemoveAssignment 7 = .ok e2 ∧
        (e2.Assignments.map fun a => (a.ID, a.StartDate)) =
          [(1, Time.Date 2024 1 1), (2, Time.Date 2024 2 1)] ∧
        e2.Assignments ≠ empUnsorted.Assignments) := by
  refine ⟨by decide, by decide!, ?_⟩
  refine ⟨{ empUnsorted with
      Assignments :=
        [⟨1, "s", "w1", Time.Date 2024 1 1, Time.Date 2024 1 31, epoch, 0, [], []⟩,
         ⟨2, "s", "w2", Time.Date 2024 2 1, sentinel, epoch, 0, [], []⟩] }, ?_, ?_, ?_⟩
  · decide!
  · decide!
  · decide!

theorem dropBack_eq {α : Type} (p : α → Bool) (i : Nat) (l : List α) (h : i ≤ l.length) :
    dropBack p i l = (l.take i).filter (fun x => !p x) ++ l.drop i := by
  induction i generalizing l with
  | zero => simp [dropBack]
  | succ i ih =>
    have hi : i < l.length := h
    have hget : l.get? i = some l[i] := by simp [List.getElem?_eq_getElem hi]
    have htake : l.take (i + 1) = l.take i ++ [l[i]] := by
      rw [List.take_succ]; simp [List.getElem?_eq_getElem hi]
    have hdrop : l.drop i = l[i] :: l.drop (i + 1) := by
      simp
    simp only [dropBack, hget]
    by_cases hp : p l[i] = true
    · have hlen : i ≤ (cut l i (i + 1)).length := by
        simp [cut]; omega
      have ht : (cut l i (i + 1)).take i = l.take i := by
        simp [cut, List.take_append_eq_append_take, List.take_take]
        omega
      have hd : (cut l i (i + 1)).drop i = l.drop (i + 1) := by
        have : (l.take i).length = i := by simp; omega
        simp only [cut]
        rw [List.drop_append_eq_append_drop]
        simp [this]
      have hf : List.filter (fun x => !p x) [l[i]] = [] := by
        simp [List.filter_cons, hp]
      rw [if_pos hp, ih _ hlen, ht, hd, htake, List.filter_append, hf, List.append_nil]
    · have hf : List.filter (fun x => !p x) [l[i]] = [l[i]] := by
        simp [List.filter_cons, hp]
      rw [if_neg hp, ih _ (Nat.le_of_lt hi), htake, hdrop, List.filter_append, hf,
        List.append_assoc]
      rfl

theorem dropBack_filter {α : Type} (p : α → Bool) (l : List α) :
    dropBack p l.length l = l.filter (fun x => !p x) := by
  rw [dropBack_eq p l.length l (le_refl _)]
  simp

/-- C22: after `PurgeOldData(date)` the variations are those whose end date is not
before `date`, the ledger entries those dated not before `date`, the requests those
whose end date is not before `date` and the balances those of the year of `date` or
later. Each list afterwards is the sorted list with the old records filtered out, hence
a rearrangement of the records kept from the list before: kept records are unmodified,
no old record survives, however many old records stand next to each other. This holds
for the state the call leaves behind, whether or not it returns. -/
theorem C22_purge_keeps_exactly_the_recent (e : Employee) (date : Time) :
    ((e.PurgeOldData date).1.Variations =
        (sortByVariation e.ConvertFromData.Variations).filter
          (fun v => !decide (v.EndDate.Before date)) ∧
      (e.PurgeOldData date).1.Variations.Perm
        (e.ConvertFromData.Variations.filter (fun v => !decide (v.EndDate.Before date)))) ∧
    ((e.PurgeOldData date).1.Leaves =
        (sortByLeaveDay e.ConvertFromData.Leaves).filter
          (fun lv => !decide (lv.LeaveDate.Before date)) ∧
      (e.PurgeOldData date).1.Leaves.Perm
        (e.ConvertFromData.Leaves.filter (fun lv => !decide (lv.LeaveDate.Before date)))) ∧
    ((e.PurgeOldData date).1.Requests =
        (sortByLeaveRequest e.ConvertFromData.Requests).filter
          (fun r => !decide (r.EndDate.Before date)) ∧
      (e.PurgeOldData date).1.Requests.Perm
        (e.ConvertFromData.Requests.filter (fun r => !decide (r.EndDate.Before date)))) ∧
    ((e.PurgeOldData date).1.Balances =
        (sortByBalance e.ConvertFromData.Balances).filter
          (fun b => !decide (b.Year < date.Year)) ∧
      (e.PurgeOldData date).1.Balances.Perm
        (e.ConvertFromData.Balances.filter (fun b => !decide (b.Year < date.Year)))) := by
  have hV : (e.PurgeOldData date).1.Variations =
      (sortByVariation e.ConvertFromData.Variations).filter
        (fun v => !decide (v.EndDate.Before date)) := by
    unfold Employee.PurgeOldData
    simp only []
    split <;> exact dropBack_filter _ _
  have hL : (e.PurgeOldData date).1.Leaves =
      (sortByLeaveDay e.ConvertFromData.Leaves).filter
        (fun lv => !decide (lv.LeaveDate.Before date)) := by
    unfold Employee.PurgeOldData
    simp only []
    split <;> exact dropBack_filter _ _
  have hR : (e.PurgeOldData date).1.Requests =
      (sortByLeaveRequest e.ConvertFromData.Requests).filter
        (fun r => !decide (r.EndDate.Before date)) := by
    unfold Employee.PurgeOldData
    simp only []
    split <;> exact dropBack_filter _ _
  have hB : (e.PurgeOldData date).1.Balances =
      (sortByBalance e.ConvertFromData.Balances).filter
        (fun b => !decide (b.Year < date.Year)) := by
    unfold Employee.PurgeOldData
    simp only []
    split <;> exact dropBack_filter _ _
  refine ⟨⟨hV, ?_⟩, ⟨hL, ?_⟩, ⟨hR, ?_⟩, ⟨hB, ?_⟩⟩
  · rw [hV]; exact (List.perm_insertionSort _ _).filter _
  · rw [hL]; exact (List.perm_insertionSort _ _).filter _
  · rw [hR]; exact (List.perm_insertionSort _ _).filter _
  · rw [hB]; exact (List.perm_insertionSort _ _).filter _

/-- The purge on a concrete employee: runs of two and three old records are dropped
whole, the records kept are as they were. -/
theorem purge_example :
    (empPurge.PurgeOldData (Time.Date 2024 3 1)).1 =
      { empPurge with
        Variations := [⟨3, "s", Time.Date 2024 2 26, Time.Date 2024 3 1, nightWeek⟩]
        Leaves :=
          [⟨4, Time.Date 2024 3 1, "V", 8, "APPROVED", "r2"⟩,
           ⟨5, Time.Date 2024 3 4, "H", 8, "ACTUAL", ""⟩]
        Requests :=
          [⟨"r2", "emp", 0, "V", Time.Date 2024 2 29, Time.Date 2024 3 1, "APPROVED", "boss", 5,
            [], []⟩]
        Balances := [⟨2024, 120, 16⟩, ⟨2025, 120, 0⟩] } := by
  decide!

theorem PurgeOldData_no_assignments (e : Employee) (date : Time)
    (h : e.ConvertFromData.Assignments = []) :
    (e.PurgeOldData date).2 = .error (.panic "index out of range [-1]") := by
  unfold Employee.PurgeOldData
  simp [h, sortByAssignment]

theorem PurgeOldData_returns (e : Employee) (date : Time) (init : List Assignment)
    (a : Assignment) (h : sortByAssignment e.ConvertFromData.Assignments = init ++ [a]) :
    (e.PurgeOldData date).2 = .ok (decide (a.EndDate.Before date)) := by
  unfold Employee.PurgeOldData
  simp [h]

/-- C23: on an employee without assignments `PurgeOldData(date)` does not return a
boolean: `e.Assignments[len(e.Assignments)-1]` indexes the empty list at -1 and the
call panics, after the old records were dropped. -/
theorem C23_purge_without_assignments_panics :
    (empPurge.PurgeOldData (Time.Date 2024 3 1)).2 =
        .error (.panic "index out of range [-1]") ∧
      (emp0.PurgeOldData (Time.Date 2024 3 1)).2 =
        .error (.panic "index out of range [-1]") := by
  decide!

/-! ## Appending to the ledger -/

theorem leaveScan_absent_from (l : List LeaveDay) (id : Int) (date : Time) (code : String)
    (m : Int)
    (h : ∀ lv ∈ l, ¬ ((lv.LeaveDate.Equal date ∧ EqualFold lv.Code code) ∨ lv.ID = id)) :
    l.foldl
      (fun st lv =>
        if (lv.LeaveDate.Equal date ∧ EqualFold lv.Code code) ∨ lv.ID = id then (true, st.2)
        else if lv.ID > st.2 then (st.1, lv.ID) else st)
      (false, m) = (false, l.foldl (fun m lv => if lv.ID > m then lv.ID else m) m) := by
  induction l generalizing m with
  | nil => rfl
  | cons lv t ih =>
    have hlv := h lv (List.mem_cons_self _ _)
    have ht := fun x hx => h x (List.mem_cons_of_mem _ hx)
    rw [List.foldl_cons, List.foldl_cons, if_neg hlv]
    by_cases hgt : lv.ID > m
    · rw [if_pos hgt, if_pos hgt]; exact ih _ ht
    · rw [if_neg hgt, if_neg hgt]; exact ih _ ht

theorem foldl_max_ge (l : List LeaveDay) (m : Int) :
    m ≤ l.foldl (fun m lv => if lv.ID > m then lv.ID else m) m ∧
      ∀ lv ∈ l, lv.ID ≤ l.foldl (fun m lv => if lv.ID > m then lv.ID else m) m := by
  induction l generalizing m with
  | nil => simp
  | cons x t ih =>
    rw [List.foldl_cons]
    obtain ⟨h1, h2⟩ := ih (if x.ID > m then x.ID else m)
    by_cases hx : x.ID > m
    · rw [if_pos hx] at h1 h2 ⊢
      refine ⟨by omega, ?_⟩
      intro lv hlv
      rcases List.mem_cons.mp hlv with rfl | hlv
      · exact h1
      · exact h2 lv hlv
    · rw [if_neg hx] at h1 h2 ⊢
      refine ⟨h1, ?_⟩
      intro lv hlv
      rcases List.mem_cons.mp hlv with rfl | hlv
      · omega
      · exact h2 lv hlv

theorem sortByLeaveDay_sorted (l : List LeaveDay) :
    (sortByLeaveDay l).Sorted fun a b => a.LeaveDate ≤ b.LeaveDate := by
  haveI : IsTotal LeaveDay (fun a b => a.LeaveDate ≤ b.LeaveDate) :=
    ⟨fun a b => le_total a.LeaveDate b.LeaveDate⟩
  haveI : IsTrans LeaveDay (fun a b => a.LeaveDate ≤ b.LeaveDate) :=
    ⟨fun a b c hab hbc => le_trans hab hbc⟩
  exact List.sorted_insertionSort _ l

/-- With no matching entry and a request id, `AddLeave` appends one entry and sorts:
the new ID is one more than the largest ID present (1 when none is positive) and so
differs from every ID present; the entries present are part of the sorted ledger
unchanged. -/
theorem AddLeave_absent_some (e : Employee) (id : Int) (date : Time) (code status : String)
    (hours : ℚ) (rid : String)
    (h : ∀ lv ∈ e.ConvertFromData.Leaves,
      ¬ ((lv.LeaveDate.Equal date ∧ EqualFold lv.Code code) ∨ lv.ID = id)) :
    ∃ newID : Int,
      e.AddLeave id date code status hours (some rid) =
        .ok { e.ConvertFromData with
              Leaves := sortByLeaveDay (e.ConvertFromData.Leaves ++
                [⟨newID, date, code, hours, status, rid⟩]) } ∧
      0 < newID ∧ (∀ lv ∈ e.ConvertFromData.Leaves, lv.ID < newID) ∧
      (sortByLeaveDay (e.ConvertFromData.Leaves ++
          [⟨newID, date, code, hours, status, rid⟩])).Perm
        (e.ConvertFromData.Leaves ++ [⟨newID, date, code, hours, status, rid⟩]) ∧
      (sortByLeaveDay (e.ConvertFromData.Leaves ++
          [⟨newID, date, code, hours, status, rid⟩])).Sorted
        (fun a b => a.LeaveDate ≤ b.LeaveDate) := by
  have hs : leaveScan e.ConvertFromData.Leaves id date code = _ :=
    leaveScan_absent_from e.ConvertFromData.Leaves id date code 0 h
  have hm := foldl_max_ge e.ConvertFromData.Leaves 0
  refine ⟨e.ConvertFromData.Leaves.foldl (fun m lv => if lv.ID > m then lv.ID else m) 0 + 1,
    ?_, by omega, ?_, List.perm_insertionSort _ _, ?_⟩
  · simp [Employee.AddLeave, hs]
  · intro lv hlv
    have := hm.2 lv hlv
    omega
  · exact sortByLeaveDay_sorted _

/-- With no matching entry and no request id, `AddLeave` panics on `requestID.Hex()`. -/
theorem AddLeave_absent_nil (e : Employee) (id : Int) (date : Time) (code status : String)
    (hours : ℚ)
    (h : ∀ lv ∈ e.ConvertFromData.Leaves,
      ¬ ((lv.LeaveDate.Equal date ∧ EqualFold lv.Code code) ∨ lv.ID = id)) :
    e.AddLeave id date code status hours none =
      .error (.panic "nil pointer dereference") := by
  have hs : leaveScan e.ConvertFromData.Leaves id date code = _ :=
    leaveScan_absent_from e.ConvertFromData.Leaves id date code 0 h
  simp [Employee.AddLeave, hs]

/-- C24: a manually entered leave, `AddLeave` with a nil request id for a date and code
that the ledger does not hold, is not appended with an empty `RequestID`: the new entry
is built with `requestID.Hex()` and the call panics on the nil pointer. It does so on
the empty ledger and on a ledger holding other entries. -/
theorem C24_manual_leave_panics :
    emp0.AddLeave 0 (Time.Date 2024 3 4) "V" "APPROVED" 8 none =
        .error (.panic "nil pointer dereference") ∧
      empTwoRequests.AddLeave 0 (Time.Date 2024 3 6) "V" "APPROVED" 8 none =
        .error (.panic "nil pointer dereference") := by
  decide!

/-! ## Deleting one ledger entry -/

theorem deleteScan_none (v : LoopVar) (id : Int) (l : List LeaveDay) (i : Nat) (pos : Int)
    (h : ∀ lv ∈ l, lv.ID ≠ id) : deleteScan v id l i (none, pos) = (none, pos) := by
  induction l generalizing i with
  | nil => rfl
  | cons x t ih =>
    have hx : x.ID ≠ id := h x (List.mem_cons_self _ _)
    simp only [deleteScan, if_neg hx]
    have hp : pointee v none x = none := by cases v <;> rfl
    rw [hp]
    exact ih _ (fun y hy => h y (List.mem_cons_of_mem _ hy))

theorem deleteScan_keep (id : Int) (l : List LeaveDay) (i : Nat) (st : Option LeaveDay × Int)
    (h : ∀ lv ∈ l, lv.ID ≠ id) : deleteScan .perIteration id l i st = st := by
  induction l generalizing i st with
  | nil => rfl
  | cons x t ih =>
    have hx : x.ID ≠ id := h x (List.mem_cons_self _ _)
    simp only [deleteScan, if_neg hx, pointee]
    exact ih _ _ (fun y hy => h y (List.mem_cons_of_mem _ hy))

theorem deleteScan_follow (id : Int) (l : List LeaveDay) (i : Nat) (y : LeaveDay) (pos : Int)
    (h : ∀ lv ∈ l, lv.ID ≠ id) :
    deleteScan .shared id l i (some y, pos) = (some (l.getLastD y), pos) := by
  induction l generalizing i y with
  | nil => rfl
  | cons x t ih =>
    have hx : x.ID ≠ id := h x (List.mem_cons_self _ _)
    simp only [deleteScan, if_neg hx, pointee, Option.map_some']
    rw [ih _ _ (fun z hz => h z (List.mem_cons_of_mem _ hz)), List.getLastD_cons]

theorem deleteScan_split (id : Int) (pre : List LeaveDay) (x : LeaveDay)
    (post : List LeaveDay) (i : Nat) (st : Option LeaveDay × Int) (hx : x.ID = id)
    (hpost : ∀ y ∈ post, y.ID ≠ id) :
    deleteScan .perIteration id (pre ++ x :: post) i st =
        (some x, ((i + pre.length : Nat) : Int)) ∧
      deleteScan .shared id (pre ++ x :: post) i st =
        (some (post.getLastD x), ((i + pre.length : Nat) : Int)) := by
  induction pre generalizing i st with
  | nil =>
    simp only [List.nil_append, deleteScan, if_pos hx, List.length_nil, Nat.add_zero]
    exact ⟨deleteScan_keep id post _ _ hpost, deleteScan_follow id post _ _ _ hpost⟩
  | cons z t ih =>
    have e1 : i + 1 + t.length = i + (z :: t).length := by
      simp only [List.length_cons]; omega
    constructor
    · show deleteScan .perIteration id (t ++ x :: post) (i + 1) _ = _
      rw [(ih (i + 1) _).1, e1]
    · show deleteScan .shared id (t ++ x :: post) (i + 1) _ = _
      rw [(ih (i + 1) _).2, e1]

/-- What `DeleteLeave(id)` does, for both readings of the range variable. When no entry
has the ID the call returns nil and the ledger is as it was. Otherwise the last entry
with the ID is removed and the other entries keep their values and their order; the
returned pointer is to the range variable: with one variable for each iteration it
holds the removed entry as it was, with a shared variable it holds the last entry of
the ledger. -/
theorem DeleteLeave_result (e : Employee) (id : Int) :
    ((∀ lv ∈ e.ConvertFromData.Leaves, lv.ID ≠ id) ∧
        ∀ v, e.DeleteLeave v id = (e.ConvertFromData, none)) ∨
      ∃ pre x post,
        e.ConvertFromData.Leaves = pre ++ x :: post ∧ x.ID = id ∧
        (∀ y ∈ post, y.ID ≠ id) ∧
        e.DeleteLeave .perIteration id =
          ({ e.ConvertFromData with Leaves := pre ++ post }, some x) ∧
        e.DeleteLeave .shared id =
          ({ e.ConvertFromData with Leaves := pre ++ post }, some (post.getLastD x)) := by
  by_cases h : ∃ x ∈ e.ConvertFromData.Leaves, decide (x.ID = id) = true
  · right
    obtain ⟨pre, x, post, hl, hx, hpost⟩ := exists_last_split _ _ h
    have hx2 : x.ID = id := by simpa using hx
    have hpost2 : ∀ y ∈ post, y.ID ≠ id := fun y hy => by simpa using hpost y hy
    refine ⟨pre, x, post, hl, hx2, hpost2, ?_, ?_⟩
    · have hs := (deleteScan_split id pre x post 0 (none, -1) hx2 hpost2).1
      have hc : cut (pre ++ x :: post) pre.length (pre.length + 1) = pre ++ post := by
        simp [cut]
      unfold Employee.DeleteLeave
      simp only [hl, hs]
      simp [hc]
    · have hs := (deleteScan_split id pre x post 0 (none, -1) hx2 hpost2).2
      have hc : cut (pre ++ x :: post) pre.length (pre.length + 1) = pre ++ post := by
        simp [cut]
      unfold Employee.DeleteLeave
      simp only [hl, hs]
      simp [hc]
  · left
    have hno : ∀ lv ∈ e.ConvertFromData.Leaves, lv.ID ≠ id := by
      intro lv hlv hid
      exact h ⟨lv, hlv, by simp [hid]⟩
    refine ⟨hno, ?_⟩
    intro v
    unfold Employee.DeleteLeave
    simp [deleteScan_none v id _ 0 (-1) hno]

/-- C25: built with a Go earlier than 1.22, where the iterations of a range loop share
one variable, `DeleteLeave(id)` does not return the entry it removes. On the ledger of
the entries 1, 2, 3, 4 the call `DeleteLeave(2)` removes entry 2 and returns the values
of entry 4, the last of the ledger: `oldLv = &lv` points at the loop variable and the
loop goes on to the end. With one variable for each iteration the same call returns
entry 2 as it was; the ledger afterwards is the same in both cases. -/
theorem C25_delete_returns_last_entry :
    (empTwoRequests.Leaves.map fun lv => lv.ID) = [1, 2, 3, 4] ∧
      empTwoRequests.DeleteLeave .shared 2 =
        ({ empTwoRequests with
            Leaves :=
              [⟨1, Time.Date 2024 3 4, "V", 8, "ACTUAL", "r1"⟩,
               ⟨3, Time.Date 2024 3 5, "H", 8, "ACTUAL", ""⟩,
               ⟨4, Time.Date 2024 4 1, "V", 8, "APPROVED", "r2"⟩] },
          some ⟨4, Time.Date 2024 4 1, "V", 8, "APPROVED", "r2"⟩) ∧
      empTwoRequests.DeleteLeave .perIteration 2 =
        ({ empTwoRequests with
            Leaves :=
              [⟨1, Time.Date 2024 3 4, "V", 8, "ACTUAL", "r1"⟩,
               ⟨3, Time.Date 2024 3 5, "H", 8, "ACTUAL", ""⟩,
               ⟨4, Time.Date 2024 4 1, "V", 8, "APPROVED", "r2"⟩] },
          some ⟨2, Time.Date 2024 3 5, "V", 8, "APPROVED", "r1"⟩) := by
  decide!

/-! ## Ranged deletion -/

theorem spanFrom_none {α : Type} (p : α → Bool) (l : List α) (i : Nat) (se : Int × Int)
    (h : ∀ x ∈ l, p x = false) : spanFrom p l i se = se := by
  induction l generalizing i se with
  | nil => rfl
  | cons x t ih =>
    have hx : p x = false := h x (List.mem_cons_self _ _)
    simp only [spanFrom, hx]
    exact ih _ _ (fun y hy => h y (List.mem_cons_of_mem _ hy))

theorem spanFrom_started {α : Type} (p : α → Bool) (l : List α) (i : Nat) (s e : Int)
    (hs : 0 ≤ s) : spanFrom p l i (s, e) = (s, lastPosFrom p l i e) := by
  induction l generalizing i e with
  | nil => rfl
  | cons x t ih =>
    simp only [spanFrom, lastPosFrom]
    have hns : ¬ s < 0 := by omega
    by_cases hx : p x = true
    · simp only [hx, if_true, if_neg hns]
      exact ih _ _
    · simp only [hx]
      exact ih _ _

theorem spanFrom_first {α : Type} (p : α → Bool) (pre : List α) (x : α) (rest : List α)
    (i : Nat) (hpre : ∀ y ∈ pre, p y = false) (hx : p x = true) :
    spanFrom p (pre ++ x :: rest) i (-1, -1) =
      (((i + pre.length : Nat) : Int), lastPosFrom p rest (i + pre.length + 1) (-1)) := by
  induction pre generalizing i with
  | nil =>
    simp only [List.nil_append, spanFrom, hx, if_true, List.length_nil, Nat.add_zero]
    rw [if_pos (by omega)]
    exact spanFrom_started p rest _ _ _ (by omega)
  | cons z t ih =>
    have hz : p z = false := hpre z (List.mem_cons_self _ _)
    show spanFrom p (t ++ x :: rest) (i + 1) _ = _
    simp only [hz, Bool.false_eq_true, if_false]
    rw [ih (i + 1) (fun y hy => hpre y (List.mem_cons_of_mem _ hy)), List.length_cons]
    have e1 : i + 1 + t.length = i + (t.length + 1) := by omega
    rw [e1]

theorem exists_first_split {α : Type} (p : α → Bool) (l : List α) (h : ∃ x ∈ l, p x = true) :
    ∃ pre x rest, l = pre ++ x :: rest ∧ p x = true ∧ ∀ y ∈ pre, p y = false := by
  induction l with
  | nil => obtain ⟨x, hx, _⟩ := h; cases hx
  | cons z t ih =>
    by_cases hz : p z = true
    · exact ⟨[], z, t, rfl, hz, fun y hy => by cases hy⟩
    · have ht : ∃ x ∈ t, p x = true := by
        obtain ⟨x, hx, hpx⟩ := h
        rcases List.mem_cons.mp hx with rfl | hx
        · exact absurd hpx hz
        · exact ⟨x, hx, hpx⟩
      obtain ⟨pre, x, rest, hl, hx, hpre⟩ := ih ht
      refine ⟨z :: pre, x, rest, by simp [hl], hx, ?_⟩
      intro y hy
      rcases List.mem_cons.mp hy with rfl | hy
      · simpa using hz
      · exact hpre y hy

theorem filter_none {α : Type} (p : α → Bool) (l : List α) (h : ∀ x ∈ l, p x = false) :
    l.filter (fun x => !p x) = l := by
  rw [List.filter_eq_self]
  intro x hx
  simp [h x hx]

theorem filter_all {α : Type} (p : α → Bool) (l : List α) (h : ∀ x ∈ l, p x = true) :
    l.filter (fun x => !p x) = [] := by
  rw [List.filter_eq_nil_iff]
  intro x hx
  simp [h x hx]

/-- Cutting from the first to the last element that satisfies `p` removes exactly the
elements that satisfy `p`, provided these stand next to each other. -/
theorem span_cut_filter {α : Type} (p : α → Bool) (l : List α)
    (hconv : ∀ pre x mid y post, l = pre ++ x :: (mid ++ y :: post) → p x = true →
      p y = true → ∀ z ∈ mid, p z = true) :
    (if (spanFrom p l 0 (-1, -1)).1 ≥ 0 then
        cut l (spanFrom p l 0 (-1, -1)).1.toNat
          ((if (spanFrom p l 0 (-1, -1)).2 < 0 then (spanFrom p l 0 (-1, -1)).1
            else (spanFrom p l 0 (-1, -1)).2) + 1).toNat
      else l) = l.filter (fun x => !p x) := by
  by_cases h : ∃ x ∈ l, p x = true
  · obtain ⟨pre, x, rest, hl, hx, hpre⟩ := exists_first_split p l h
    subst hl
    have hs := spanFrom_first p pre x rest 0 hpre hx
    rw [hs]
    simp only [Nat.zero_add]
    have hge : ((pre.length : Nat) : Int) ≥ 0 := by omega
    rw [if_pos hge]
    by_cases hr : ∃ y ∈ rest, p y = true
    · obtain ⟨mid, y, post, hrest, hy, hpost⟩ := exists_last_split p rest hr
      subst hrest
      have hmid := hconv pre x mid y post rfl hx hy
      rw [lastPosFrom_split p mid y post _ _ hy hpost]
      have hnl : ¬ (((pre.length + 1 + mid.length : Nat) : Int) < 0) := by omega
      rw [if_neg hnl]
      have e1 : (((pre.length + 1 + mid.length : Nat) : Int) + 1).toNat =
          pre.length + (1 + mid.length + 1) := by omega
      rw [e1]
      have hc : cut (pre ++ x :: (mid ++ y :: post)) (pre.length : Int).toNat
          (pre.length + (1 + mid.length + 1)) = pre ++ post := by
        simp only [cut, Int.toNat_ofNat]
        rw [List.take_left, List.drop_append]
        have : x :: (mid ++ y :: post) = (x :: mid ++ [y]) ++ post := by simp
        rw [this]
        have hlen : 1 + mid.length + 1 = (x :: mid ++ [y]).length := by
          simp; omega
        rw [hlen, List.drop_left]
      rw [hc]
      simp only [List.filter_append, List.filter_cons, hx, hy, Bool.not_true,
        Bool.false_eq_true, if_false]
      rw [filter_none p pre hpre, filter_none p post hpost, filter_all p mid hmid]
      simp
    · have hrest : ∀ y ∈ rest, p y = false := by
        intro y hy
        by_contra hne
        exact hr ⟨y, hy, by simpa using hne⟩
      rw [lastPosFrom_none p rest _ _ hrest]
      rw [if_pos (by omega)]
      have hc : cut (pre ++ x :: rest) (pre.length : Int).toNat
          (((pre.length : Nat) : Int) + 1).toNat = pre ++ rest := by
        have e1 : (((pre.length : Nat) : Int) + 1).toNat = pre.length + 1 := by omega
        rw [e1]
        simp only [cut, Int.toNat_ofNat]
        rw [List.take_left, List.drop_append]
        simp
      rw [hc]
      simp only [List.filter_append, List.filter_cons, hx, Bool.not_true,
        Bool.false_eq_true, if_false]
      rw [filter_none p pre hpre, filter_none p rest hrest]
  · have hno : ∀ x ∈ l, p x = false := by
      intro x hx
      by_contra hne
      exact h ⟨x, hx, by simpa using hne⟩
    rw [spanFrom_none p l 0 _ hno, filter_none p l hno]
    simp

theorem inRange_iff (start stop : Time) (lv : LeaveDay) :
    inRange start stop lv ↔ start ≤ lv.LeaveDate ∧ lv.LeaveDate ≤ stop := by
  unfold inRange
  simp only [Time.Equal, Time.After, Time.Before, Time]
  omega

theorem betweenDates_iff (start stop : Time) (lv : LeaveDay) (h : start ≤ stop) :
    betweenDates start stop lv ↔ start ≤ lv.LeaveDate ∧ lv.LeaveDate ≤ stop := by
  unfold betweenDates
  simp only [Time.Equal, Time.After, Time.Before, Time] at *
  omega

theorem RemoveLeaves_eq (e : Employee) (start stop : Time) :
    e.RemoveLeaves start stop =
      { e.ConvertFromData with
        Leaves := (sortByLeaveDay e.ConvertFromData.Leaves).filter
          (fun lv => !decide (inRange start stop lv)) } := by
  have hconv : ∀ pre x mid y post,
      sortByLeaveDay e.ConvertFromData.Leaves = pre ++ x :: (mid ++ y :: post) →
      decide (inRange start stop x) = true → decide (inRange start stop y) = true →
      ∀ z ∈ mid, decide (inRange start stop z) = true := by
    intro pre x mid y post hl hx hy z hz
    have hsorted := sortByLeaveDay_sorted e.ConvertFromData.Leaves
    rw [hl] at hsorted
    have h1 := (List.pairwise_append.mp hsorted).2.1
    have h2 := List.pairwise_cons.mp h1
    have hxz : x.LeaveDate ≤ z.LeaveDate := h2.1 z (by simp [hz])
    have h3 := (List.pairwise_append.mp h2.2).2.2
    have hzy : z.LeaveDate ≤ y.LeaveDate := h3 z hz y (by simp)
    simp only [decide_eq_true_eq, inRange_iff] at hx hy ⊢
    exact ⟨le_trans hx.1 hxz, le_trans hzy hy.2⟩
  have hcut := span_cut_filter (fun lv => decide (inRange start stop lv))
    (sortByLeaveDay e.ConvertFromData.Leaves) hconv
  unfold Employee.RemoveLeaves
  simp only []
  rw [← hcut]
  split <;> rfl

theorem DeleteLeavesBetweenDates_eq (e : Employee) (start stop : Time) :
    e.DeleteLeavesBetweenDates start stop =
      { e.ConvertFromData with
        Leaves := e.ConvertFromData.Leaves.filter
          (fun lv => !decide (betweenDates start stop lv)) } := by
  unfold Employee.DeleteLeavesBetweenDates
  simp only [dropBack_filter]

/-- C26: for `start < stop` both ranged deletions remove exactly the ledger entries
with `start <= LeaveDate <= stop`; the end bound is inclusive. `RemoveLeaves` leaves the
sorted ledger without these entries, `DeleteLeavesBetweenDates` the ledger in its order
without them; the entries kept and every other field of the employee are unchanged. -/
theorem C26_ranged_deletion_is_inclusive (e : Employee) (start stop : Time)
    (h : start < stop) :
    e.RemoveLeaves start stop =
        { e.ConvertFromData with
          Leaves := (sortByLeaveDay e.ConvertFromData.Leaves).filter
            (fun lv => !decide (start ≤ lv.LeaveDate ∧ lv.LeaveDate ≤ stop)) } ∧
      (e.RemoveLeaves start stop).Leaves.Perm
        (e.ConvertFromData.Leaves.filter
          (fun lv => !decide (start ≤ lv.LeaveDate ∧ lv.LeaveDate ≤ stop))) ∧
      e.DeleteLeavesBetweenDates start stop =
        { e.ConvertFromData with
          Leaves := e.ConvertFromData.Leaves.filter
            (fun lv => !decide (start ≤ lv.LeaveDate ∧ lv.LeaveDate ≤ stop)) } := by
  have hf1 : (fun lv : LeaveDay => !decide (inRange start stop lv)) =
      (fun lv => !decide (start ≤ lv.LeaveDate ∧ lv.LeaveDate ≤ stop)) := by
    funext lv
    simp only [inRange_iff]
  have hf2 : (fun lv : LeaveDay => !decide (betweenDates start stop lv)) =
      (fun lv => !decide (start ≤ lv.LeaveDate ∧ lv.LeaveDate ≤ stop)) := by
    funext lv
    simp only [betweenDates_iff start stop lv (le_of_lt h)]
  have h1 := RemoveLeaves_eq e start stop
  have h2 := DeleteLeavesBetweenDates_eq e start stop
  rw [hf1] at h1
  rw [hf2] at h2
  refine ⟨h1, ?_, h2⟩
  rw [h1]
  exact (List.perm_insertionSort _ _).filter _

theorem C26_ranged_deletion_is_inclusive_witness :
    empPurge.RemoveLeaves (Time.Date 2024 2 28) (Time.Date 2024 3 1) =
        { empPurge.ConvertFromData with
          Leaves := (sortByLeaveDay empPurge.ConvertFromData.Leaves).filter
            (fun lv => !decide (Time.Date 2024 2 28 ≤ lv.LeaveDate ∧
              lv.LeaveDate ≤ Time.Date 2024 3 1)) } ∧
      (empPurge.RemoveLeaves (Time.Date 2024 2 28) (Time.Date 2024 3 1)).Leaves.Perm
        (empPurge.ConvertFromData.Leaves.filter
          (fun lv => !decide (Time.Date 2024 2 28 ≤ lv.LeaveDate ∧
            lv.LeaveDate ≤ Time.Date 2024 3 1))) ∧
      empPurge.DeleteLeavesBetweenDates (Time.Date 2024 2 28) (Time.Date 2024 3 1) =
        { empPurge.ConvertFromData with
          Leaves := empPurge.ConvertFromData.Leaves.filter
            (fun lv => !decide (Time.Date 2024 2 28 ≤ lv.LeaveDate ∧
              lv.LeaveDate ≤ Time.Date 2024 3 1)) } :=
  C26_ranged_deletion_is_inclusive empPurge (Time.Date 2024 2 28) (Time.Date 2024 3 1)
    (by decide)

/-- C26, counterexample: with `start` 2024-02-28 and `stop` 2024-03-01 the entry dated
exactly 2024-03-01 is removed by both deletions; only the entries of 2024-02-27 and
2024-03-04 are left. -/
theorem C26_counterexample :
    Time.Date 2024 2 28 < Time.Date 2024 3 1 ∧
      (⟨4, Time.Date 2024 3 1, "V", 8, "APPROVED", "r2"⟩ : LeaveDay) ∈ empPurge.Leaves ∧
      (empPurge.RemoveLeaves (Time.Date 2024 2 28) (Time.Date 2024 3 1)).Leaves =
        [⟨1, Time.Date 2024 2 27, "V", 8, "APPROVED", "r1"⟩,
         ⟨5, Time.Date 2024 3 4, "H", 8, "ACTUAL", ""⟩] ∧
      (empPurge.DeleteLeavesBetweenDates (Time.Date 2024 2 28) (Time.Date 2024 3 1)).Leaves =
        [⟨1, Time.Date 2024 2 27, "V", 8, "APPROVED", "r1"⟩,
         ⟨5, Time.Date 2024 3 4, "H", 8, "ACTUAL", ""⟩] := by
  decide!

/-! ## Setting a balance -/

theorem balanceFound_from (l : List AnnualLeave) (year : Int) (b : Bool) :
    l.foldl (fun found al => if al.Year = year then true else found) b =
      (b || l.any (fun al => decide (al.Year = year))) := by
  induction l generalizing b with
  | nil => simp
  | cons x t ih =>
    rw [List.foldl_cons, ih]
    by_cases hx : x.Year = year <;> simp [hx]

theorem balanceFound_iff (l : List AnnualLeave) (year : Int) :
    balanceFound l year = true ↔ ∃ al ∈ l, al.Year = year := by
  unfold balanceFound
  rw [balanceFound_from]
  simp

/-- When a balance of the year is present, `UpdateAnnualLeave` stores nothing. -/
theorem UpdateAnnualLeave_present (e : Employee) (year : Int) (annual carry : ℚ)
    (h : ∃ al ∈ e.ConvertFromData.Balances, al.Year = year) :
    e.UpdateAnnualLeave year annual carry = e.ConvertFromData := by
  unfold Employee.UpdateAnnualLeave
  simp [(balanceFound_iff _ _).mpr h]

/-- When no balance of the year is present, `UpdateAnnualLeave` appends one with the
given hours and sorts. -/
theorem UpdateAnnualLeave_absent (e : Employee) (year : Int) (annual carry : ℚ)
    (h : ∀ al ∈ e.ConvertFromData.Balances, al.Year ≠ year) :
    e.UpdateAnnualLeave year annual carry =
        { e.ConvertFromData with
          Balances := sortByBalance (e.ConvertFromData.Balances ++ [⟨year, annual, carry⟩]) } ∧
      (sortByBalance (e.ConvertFromData.Balances ++ [⟨year, annual, carry⟩])).Perm
        (e.ConvertFromData.Balances ++ [⟨year, annual, carry⟩]) := by
  have hf : balanceFound e.ConvertFromData.Balances year = false := by
    rw [← Bool.not_eq_true, balanceFound_iff]
    rintro ⟨al, hal, hy⟩
    exact h al hal hy
  refine ⟨?_, List.perm_insertionSort _ _⟩
  unfold Employee.UpdateAnnualLeave
  simp [hf]

/-- C27: `UpdateAnnualLeave` does not overwrite a balance that exists. An employee
holding the balance of 2024 with 120 annual and 16 carried hours still holds exactly
that balance after `UpdateAnnualLeave(2024, 160, 8)`, and no balance of 2024 with 160
annual hours: the loop assigns to its range variable, a copy. -/
theorem C27_existing_balance_not_overwritten :
    (⟨2024, 120, 16⟩ : AnnualLeave) ∈ empPurge.ConvertFromData.Balances ∧
      empPurge.UpdateAnnualLeave 2024 160 8 = empPurge.ConvertFromData ∧
      (⟨2024, 120, 16⟩ : AnnualLeave) ∈ (empPurge.UpdateAnnualLeave 2024 160 8).Balances ∧
      ∀ al ∈ (empPurge.UpdateAnnualLeave 2024 160 8).Balances,
        al.Year = 2024 → al.Annual = 120 ∧ al.Carryover = 16 := by
  decide!

/-! ## Submitting, approving, unapproving -/

theorem foldl_last_match {β : Type} (request : String) (M : LeaveRequest → β)
    (pre : List LeaveRequest) (r : LeaveRequest) (post : List LeaveRequest) (b : β)
    (hr : r.ID = request) (hpost : ∀ y ∈ post, y.ID ≠ request) :
    (pre ++ r :: post).foldl (fun m x => if x.ID = request then M x else m) b = M r := by
  rw [List.foldl_append, List.foldl_cons, if_pos hr]
  induction post with
  | nil => rfl
  | cons y t ih =>
    rw [List.foldl_cons, if_neg (hpost y (List.mem_cons_self _ _))]
    exact ih (fun z hz => hpost z (List.mem_cons_of_mem _ hz))

/-- The message of a call whose `switch` succeeds on every request: the one produced
for the last request of the id, and the initial one when there is none. `I` is a
property of the employee that the `switch` and the store of the requests keep. -/
theorem updateLoop_message (D : Deps) (request field value : String) (offset : ℚ) (now : Time)
    (I : Employee → Prop) (M : LeaveRequest → String)
    (hI : ∀ e l, I e → I { e with Requests := l })
    (hstep : ∀ e req msg, I e →
      ∃ r, updateOne D e req field value offset now msg = .ok r ∧ r.2.2 = M req ∧ I r.1)
    (todo done : List LeaveRequest) (e : Employee) (msg : String) (lr : Option LeaveRequest)
    (he : I e) :
    (updateLoop D request field value offset now done todo e msg lr).message =
      todo.foldl (fun m x => if x.ID = request then M x else m) msg := by
  induction todo generalizing done e msg lr with
  | nil => simp [updateLoop]
  | cons req rest ih =>
    by_cases hid : req.ID = request
    · obtain ⟨r, hr, hm, hi⟩ := hstep { e with Requests := done ++ req :: rest } req msg
        (hI e _ he)
      rw [updateLoop, if_pos hid, hr, List.foldl_cons, if_pos hid]
      simp only []
      rw [ih _ _ _ _ hi, hm]
    · rw [updateLoop, if_neg hid, List.foldl_cons, if_neg hid]
      exact ih _ _ _ _ he

theorem updateOne_requested (D : Deps) (e : Employee) (req : LeaveRequest) (value : String)
    (offset : ℚ) (now : Time) (message : String) :
    updateOne D e req "requested" value offset now message =
      .ok (e, { req with Status := "REQUESTED",
                         RequestedDays := setDayStatus "REQUESTED" req.RequestedDays },
        "Leave Request: Leave Request from " ++ e.Name.GetLastFirst ++ " " ++
          "submitted for approval.  " ++ "Requested Leave Date: " ++
          formatDate req.StartDate ++ " - " ++ formatDate req.EndDate ++ ".") := by
  have hf : toLower "requested" = "requested" := by decide
  unfold updateOne
  simp [hf]

theorem updateOne_approve (D : Deps) (e : Employee) (req : LeaveRequest) (value : String)
    (offset : ℚ) (now : Time) (message : String) :
    updateOne D e req "approve" value offset now message =
      .ok (e.ChangeApprovedLeaveDates
            { req with ApprovedBy := value, ApprovalDate := now, Status := "APPROVED",
                       RequestedDays := setDayStatus "APPROVED" req.RequestedDays },
        { req with ApprovedBy := value, ApprovalDate := now, Status := "APPROVED",
                   RequestedDays := setDayStatus "APPROVED" req.RequestedDays },
        "Leave Request: Leave Request approved.") := by
  have hf : toLower "approve" = "approve" := by decide
  unfold updateOne
  simp [hf]

theorem updateOne_unapprove (D : Deps) (e : Employee) (req : LeaveRequest) (value : String)
    (offset : ℚ) (now : Time) (message : String) :
    updateOne D e req "unapprove" value offset now message =
      .ok (e, { req with ApprovedBy := "", ApprovalDate := epoch, Status := "DRAFT",
                         RequestedDays := setDayStatus "REQUESTED" req.RequestedDays,
                         Comments := req.Comments ++ [{ CommentDate := now, Comment := value }] },
        "Leave Request: Leave Request unapproved.\n" ++ "Comment: " ++ value) := by
  have hf : toLower "unapprove" = "unapprove" := by decide
  unfold updateOne
  simp [hf]

theorem updateLoop_requests (D : Deps) (e : Employee) (request field value : String)
    (offset : ℚ) (now : Time) (F : LeaveRequest → LeaveRequest)
    (hF : ∀ e req msg, ∃ r, updateOne D e req field value offset now msg = .ok r ∧
      r.2.1 = F req) :
    (e.UpdateLeaveRequest D request field value offset now).err = none ∧
      List.Forall₂ (fun x x2 => (x.ID = request → x2 = F x) ∧ (x.ID ≠ request → x2 = x))
        e.ConvertFromData.Requests
        (e.UpdateLeaveRequest D request field value offset now).e.Requests := by
  obtain ⟨h1, todo2, h2, h3⟩ := updateLoop_ok D request field value offset now
    (fun x x2 => x2 = F x) hF e.ConvertFromData.Requests [] e.ConvertFromData "" none
  refine ⟨h1, ?_⟩
  unfold Employee.UpdateLeaveRequest
  simp only [] at h2 ⊢
  rw [h2]
  simpa using h3

/-- C28: on a request of the employee, field `requested` sets the status of the request
and of each of its days to `REQUESTED` and returns the notice with the name of the
employee, last name, comma, first name, and the start and the end date, each as two
digits of the day, the English three-letter month and two digits of the year; field
`approve` stores the given
approver and sets the status of the request and of each day to `APPROVED`; field
`unapprove` clears the approver, sets the status to `DRAFT` and that of each day to
`REQUESTED`, appends one comment with the given text and returns a notice ending in
that text. No call returns an error; requests of another id stay as they are; the
notice is that of the last request carrying the id. -/
theorem C28_submit_approve_unapprove (D : Deps) (e : Employee) (request value : String)
    (offset : ℚ) (now : Time) (pre post : List LeaveRequest) (r : LeaveRequest)
    (hl : e.ConvertFromData.Requests = pre ++ r :: post) (hr : r.ID = request)
    (hpost : ∀ y ∈ post, y.ID ≠ request) :
    ((e.UpdateLeaveRequest D request "requested" value offset now).err = none ∧
      List.Forall₂
        (fun x x2 =>
          (x.ID = request →
            x2 = { x with Status := "REQUESTED",
                          RequestedDays :=
                            x.RequestedDays.map fun d => { d with Status := "REQUESTED" } }) ∧
          (x.ID ≠ request → x2 = x))
        e.ConvertFromData.Requests
        (e.UpdateLeaveRequest D request "requested" value offset now).e.Requests ∧
      (e.UpdateLeaveRequest D request "requested" value offset now).message =
        "Leave Request: Leave Request from " ++
          (e.ConvertFromData.Name.LastName ++ ", " ++ e.ConvertFromData.Name.FirstName) ++ " " ++
          "submitted for approval.  " ++ "Requested Leave Date: " ++
          (pad2 r.StartDate.Day ++ " " ++ monthAbbr r.StartDate.Month ++ " " ++
            pad2 (r.StartDate.Year % 100)) ++ " - " ++
          (pad2 r.EndDate.Day ++ " " ++ monthAbbr r.EndDate.Month ++ " " ++
            pad2 (r.EndDate.Year % 100)) ++ "." ∧
      (e.UpdateLeaveRequest D request "requested" value offset now).message ≠ "") ∧
    ((e.UpdateLeaveRequest D request "approve" value offset now).err = none ∧
      List.Forall₂
        (fun x x2 =>
          (x.ID = request →
            x2 = { x with ApprovedBy := value, ApprovalDate := now, Status := "APPROVED",
                          RequestedDays :=
                            x.RequestedDays.map fun d => { d with Status := "APPROVED" } }) ∧
          (x.ID ≠ request → x2 = x))
        e.ConvertFromData.Requests
        (e.UpdateLeaveRequest D request "approve" value offset now).e.Requests ∧
      (e.UpdateLeaveRequest D request "approve" value offset now).message =
        "Leave Request: Leave Request approved.") ∧
    ((e.UpdateLeaveRequest D request "unapprove" value offset now).err = none ∧
      List.Forall₂
        (fun x x2 =>
          (x.ID = request →
            x2 = { x with ApprovedBy := "", ApprovalDate := epoch, Status := "DRAFT",
                          RequestedDays :=
                            x.RequestedDays.map fun d => { d with Status := "REQUESTED" },
                          Comments := x.Comments ++ [{ CommentDate := now, Comment := value }] }) ∧
          (x.ID ≠ request → x2 = x))
        e.ConvertFromData.Requests
        (e.UpdateLeaveRequest D request "unapprove" value offset now).e.Requests ∧
      (e.UpdateLeaveRequest D request "unapprove" value offset now).message =
        "Leave Request: Leave Request unapproved.\n" ++ "Comment: " ++ value) := by
  have hmsg : ∀ (field : String) (I : Employee → Prop) (M : LeaveRequest → String),
      (∀ e l, I e → I { e with Requests := l }) →
      (∀ e req msg, I e →
        ∃ r, updateOne D e req field value offset now msg = .ok r ∧ r.2.2 = M req ∧ I r.1) →
      I e.ConvertFromData →
      (e.UpdateLeaveRequest D request field value offset now).message = M r := by
    intro field I M hI hstep he
    unfold Employee.UpdateLeaveRequest
    simp only []
    rw [updateLoop_message D request field value offset now I M hI hstep _ _ _ _ _ he, hl]
    exact foldl_last_match request M pre r post "" hr hpost
  refine ⟨?_, ?_, ?_⟩
  · obtain ⟨h1, h2⟩ := updateLoop_requests D e request "requested" value offset now
      (fun x => { x with Status := "REQUESTED",
                         RequestedDays := setDayStatus "REQUESTED" x.RequestedDays })
      (fun e req msg => ⟨_, updateOne_requested D e req value offset now msg, rfl⟩)
    have h3 := hmsg "requested" (fun x => x.Name = e.ConvertFromData.Name)
      (fun x => "Leave Request: Leave Request from " ++ e.ConvertFromData.Name.GetLastFirst ++
        " " ++ "submitted for approval.  " ++ "Requested Leave Date: " ++
        formatDate x.StartDate ++ " - " ++ formatDate x.EndDate ++ ".")
      (fun _ _ h => h)
      (fun e2 req msg h2 =>
        ⟨_, updateOne_requested D e2 req value offset now msg, by simp only [h2], h2⟩)
      rfl
    refine ⟨h1, h2, h3, ?_⟩
    rw [h3]
    intro hne
    have := congrArg String.length hne
    simp [String.length_append] at this
    exact absurd this.2 (by decide)
  · obtain ⟨h1, h2⟩ := updateLoop_requests D e request "approve" value offset now
      (fun x => { x with ApprovedBy := value, ApprovalDate := now, Status := "APPROVED",
                         RequestedDays := setDayStatus "APPROVED" x.RequestedDays })
      (fun e req msg => ⟨_, updateOne_approve D e req value offset now msg, rfl⟩)
    have h3 := hmsg "approve" (fun _ => True) (fun _ => "Leave Request: Leave Request approved.")
      (fun _ _ h => h)
      (fun e2 req msg _ => ⟨_, updateOne_approve D e2 req value offset now msg, rfl, trivial⟩)
      trivial
    exact ⟨h1, h2, h3⟩
  · obtain ⟨h1, h2⟩ := updateLoop_requests D e request "unapprove" value offset now
      (fun x => { x with ApprovedBy := "", ApprovalDate := epoch, Status := "DRAFT",
                         RequestedDays := setDayStatus "REQUESTED" x.RequestedDays,
                         Comments := x.Comments ++ [{ CommentDate := now, Comment := value }] })
      (fun e req msg => ⟨_, updateOne_unapprove D e req value offset now msg, rfl⟩)
    have h3 := hmsg "unapprove" (fun _ => True)
      (fun _ => "Leave Request: Leave Request unapproved.\n" ++ "Comment: " ++ value)
      (fun _ _ h => h)
      (fun e2 req msg _ => ⟨_, updateOne_unapprove D e2 req value offset now msg, rfl, trivial⟩)
      trivial
    exact ⟨h1, h2, h3⟩

/-- C28 at work, on the request `r1` of Ann Lee from 2024-03-04 to 2024-03-08: the
three updates and the three messages, letter for letter. -/
theorem C28_submit_approve_unapprove_witness :
    ((empRequested.UpdateLeaveRequest specDeps "r1" "requested" "late" 0 7).err = none ∧
      List.Forall₂
        (fun x x2 =>
          (x.ID = "r1" →
            x2 = { x with Status := "REQUESTED",
                          RequestedDays :=
                            x.RequestedDays.map fun d => { d with Status := "REQUESTED" } }) ∧
          (x.ID ≠ "r1" → x2 = x))
        empRequested.ConvertFromData.Requests
        (empRequested.UpdateLeaveRequest specDeps "r1" "requested" "late" 0 7).e.Requests ∧
      (empRequested.UpdateLeaveRequest specDeps "r1" "requested" "late" 0 7).message =
        "Leave Request: Leave Request from Lee, Ann submitted for approval.  Requested Leave Date: 04 Mar 24 - 08 Mar 24." ∧
      (empRequested.UpdateLeaveRequest specDeps "r1" "requested" "late" 0 7).message ≠ "") ∧
    ((empRequested.UpdateLeaveRequest specDeps "r1" "approve" "boss" 0 7).err = none ∧
      List.Forall₂
        (fun x x2 =>
          (x.ID = "r1" →
            x2 = { x with ApprovedBy := "boss", ApprovalDate := 7, Status := "APPROVED",
                          RequestedDays :=
                            x.RequestedDays.map fun d => { d with Status := "APPROVED" } }) ∧
          (x.ID ≠ "r1" → x2 = x))
        empRequested.ConvertFromData.Requests
        (empRequested.UpdateLeaveRequest specDeps "r1" "approve" "boss" 0 7).e.Requests ∧
      (empRequested.UpdateLeaveRequest specDeps "r1" "approve" "boss" 0 7).message =
        "Leave Request: Leave Request approved.") ∧
    ((empRequested.UpdateLeaveRequest specDeps "r1" "unapprove" "too late" 0 7).err = none ∧
      List.Forall₂
        (fun x x2 =>
          (x.ID = "r1" →
            x2 = { x with ApprovedBy := "", ApprovalDate := epoch, Status := "DRAFT",
                          RequestedDays :=
                            x.RequestedDays.map fun d => { d with Status := "REQUESTED" },
                          Comments := x.Comments ++
                            [{ CommentDate := 7, Comment := "too late" }] }) ∧
          (x.ID ≠ "r1" → x2 = x))
        empRequested.ConvertFromData.Requests
        (empRequested.UpdateLeaveRequest specDeps "r1" "unapprove" "too late" 0 7).e.Requests ∧
      (empRequested.UpdateLeaveRequest specDeps "r1" "unapprove" "too late" 0 7).message =
        "Leave Request: Leave Request unapproved.\nComment: too late") :=
  ⟨⟨(C28_submit_approve_unapprove specDeps empRequested "r1" "late" 0 7 [] [] scenarioRequest
        (by decide!) rfl (by simp)).1.1,
      (C28_submit_approve_unapprove specDeps empRequested "r1" "late" 0 7 [] [] scenarioRequest
        (by decide!) rfl (by simp)).1.2.1,
      (C28_submit_approve_unapprove specDeps empRequested "r1" "late" 0 7 [] [] scenarioRequest
        (by decide!) rfl (by simp)).1.2.2.1.trans (by decide!),
      (C28_submit_approve_unapprove specDeps empRequested "r1" "late" 0 7 [] [] scenarioRequest
        (by decide!) rfl (by simp)).1.2.2.2⟩,
    (C28_submit_approve_unapprove specDeps empRequested "r1" "boss" 0 7 [] [] scenarioRequest
      (by decide!) rfl (by simp)).2.1,
    ⟨(C28_submit_approve_unapprove specDeps empRequested "r1" "too late" 0 7 [] []
        scenarioRequest (by decide!) rfl (by simp)).2.2.1,
      (C28_submit_approve_unapprove specDeps empRequested "r1" "too late" 0 7 [] []
        scenarioRequest (by decide!) rfl (by simp)).2.2.2.1,
      (C28_submit_approve_unapprove specDeps empRequested "r1" "too late" 0 7 [] []
        scenarioRequest (by decide!) rfl (by simp)).2.2.2.2.trans (by decide!)⟩⟩

/-- The three transitions on the request `r1` of the scenario, evaluated: the five days
go to `REQUESTED` again, the notice names the employee and both dates. -/
theorem submit_example :
    (empRequested.UpdateLeaveRequest specDeps "r1" "requested" "" 0 9).message =
        "Leave Request: Leave Request from Lee, Ann submitted for approval.  " ++
          "Requested Leave Date: 04 Mar 24 - 08 Mar 24." ∧
      ((empRequested.UpdateLeaveRequest specDeps "r1" "unapprove" "too late" 0 9).e.Requests.map
          fun x => (x.Status, x.ApprovedBy, x.RequestedDays.map fun d => d.Status,
            x.Comments.map fun c => c.Comment)) =
        [("DRAFT", "", ["REQUESTED", "REQUESTED", "REQUESTED", "REQUESTED", "REQUESTED"],
          ["too late"])] ∧
      (empRequested.UpdateLeaveRequest specDeps "r1" "unapprove" "too late" 0 9).message =
        "Leave Request: Leave Request unapproved.\nComment: too late" := by
  decide!

/-! ## Editing one requested day, unknown ids and fields -/

/-- The outcome of a call whose `switch` changes only the request: the employee keeps
every field but the requests, the requests of the id are replaced, the message is the
initial one and no error is returned. -/
theorem updateLoop_pure (D : Deps) (request field value : String) (offset : ℚ) (now : Time)
    (F : LeaveRequest → LeaveRequest)
    (hstep : ∀ e req msg, updateOne D e req field value offset now msg = .ok (e, F req, msg))
    (todo done : List LeaveRequest) (e : Employee) (msg : String) (lr : Option LeaveRequest) :
    (updateLoop D request field value offset now done todo e msg lr).e =
        { e with Requests := done ++ todo.map (fun r => if r.ID = request then F r else r) } ∧
      (updateLoop D request field value offset now done todo e msg lr).message = msg ∧
      (updateLoop D request field value offset now done todo e msg lr).err = none := by
  induction todo generalizing done e msg lr with
  | nil => simp [updateLoop]
  | cons req rest ih =>
    by_cases hid : req.ID = request
    · rw [updateLoop, if_pos hid, hstep]
      simp only []
      obtain ⟨h1, h2, h3⟩ := ih (done ++ [F req]) { e with Requests := done ++ req :: rest } msg
        (some (F req))
      refine ⟨?_, h2, h3⟩
      rw [h1]
      simp [hid]
    · rw [updateLoop, if_neg hid]
      obtain ⟨h1, h2, h3⟩ := ih (done ++ [req]) e msg lr
      refine ⟨?_, h2, h3⟩
      rw [h1]
      simp [hid]

theorem updateLoop_absent (D : Deps) (request field value : String) (offset : ℚ) (now : Time)
    (todo done : List LeaveRequest) (e : Employee) (msg : String) (lr : Option LeaveRequest)
    (h : ∀ r ∈ todo, r.ID ≠ request) :
    updateLoop D request field value offset now done todo e msg lr =
      { e := { e with Requests := done ++ todo }, message := msg, lr := lr, err := none } := by
  induction todo generalizing done with
  | nil => simp [updateLoop]
  | cons req rest ih =>
    rw [updateLoop, if_neg (h req (List.mem_cons_self _ _)),
      ih _ (fun r hr => h r (List.mem_cons_of_mem _ hr))]
    simp

theorem dayLoop_from (days : List LeaveDay) (lvDate : Time) (code : String) (hours : ℚ)
    (st : List LeaveDay × Bool × String) :
    (days.foldl
      (fun st lv =>
        if lv.LeaveDate.Equal lvDate then
          (st.1 ++ [{ lv with Code := code, Hours := if code = "" then 0 else hours }], true,
           if st.2.2 = "" then lv.Status else st.2.2)
        else (st.1 ++ [lv], st.2.1, st.2.2)) st).1 =
        st.1 ++ days.map (editDay lvDate code hours) ∧
    (days.foldl
      (fun st lv =>
        if lv.LeaveDate.Equal lvDate then
          (st.1 ++ [{ lv with Code := code, Hours := if code = "" then 0 else hours }], true,
           if st.2.2 = "" then lv.Status else st.2.2)
        else (st.1 ++ [lv], st.2.1, st.2.2)) st).2.1 =
        (st.2.1 || days.any (fun lv => decide (lv.LeaveDate.Equal lvDate))) := by
  induction days generalizing st with
  | nil => simp
  | cons x t ih =>
    rw [List.foldl_cons]
    by_cases hx : x.LeaveDate.Equal lvDate
    · rw [if_pos hx]
      refine ⟨?_, ?_⟩
      · rw [(ih _).1]; simp [editDay, hx]
      · rw [(ih _).2]; simp [editDay, hx]
    · rw [if_neg hx]
      refine ⟨?_, ?_⟩
      · rw [(ih _).1]; simp [editDay, hx]
      · rw [(ih _).2]; simp [editDay, hx]

theorem dayLoop_none (days : List LeaveDay) (lvDate : Time) (code : String) (hours : ℚ)
    (h : ∀ lv ∈ days, ¬ lv.LeaveDate.Equal lvDate) :
    dayLoop days lvDate code hours = (days, false, "") := by
  have hgen : ∀ st : List LeaveDay × Bool × String,
      days.foldl
        (fun st lv =>
          if lv.LeaveDate.Equal lvDate then
            (st.1 ++ [{ lv with Code := code, Hours := if code = "" then 0 else hours }], true,
             if st.2.2 = "" then lv.Status else st.2.2)
          else (st.1 ++ [lv], st.2.1, st.2.2)) st = (st.1 ++ days, st.2.1, st.2.2) := by
    induction days with
    | nil => intro st; simp
    | cons x t ih =>
      intro st
      rw [List.foldl_cons, if_neg (h x (List.mem_cons_self _ _)),
        ih (fun lv hlv => h lv (List.mem_cons_of_mem _ hlv))]
      simp
  unfold dayLoop
  rw [hgen]
  simp

theorem dayLoop_some (days : List LeaveDay) (lvDate : Time) (code : String) (hours : ℚ)
    (h : ∃ lv ∈ days, lv.LeaveDate.Equal lvDate) :
    (dayLoop days lvDate code hours).1 = days.map (editDay lvDate code hours) ∧
      (dayLoop days lvDate code hours).2.1 = true := by
  obtain ⟨h1, h2⟩ := dayLoop_from days lvDate code hours ([], false, "")
  refine ⟨by simpa [dayLoop] using h1, ?_⟩
  unfold dayLoop
  rw [h2]
  obtain ⟨lv, hlv, hd⟩ := h
  simp only [Bool.false_or, List.any_eq_true, decide_eq_true_eq]
  exact ⟨lv, hlv, hd⟩

/-- The case `day` on one request: the days of the date take the code and the hours;
when there is none, a day of the date is appended at the end, with ID 0 and an empty
status. -/
theorem updateOne_day (D : Deps) (e : Employee) (req : LeaveRequest) (value : String)
    (offset : ℚ) (now : Time) (message : String) (p0 code p2 : String) (rest : List String)
    (hs : splitBar value = p0 :: code :: p2 :: rest) :
    updateOne D e req "day" value offset now message =
      .ok (e,
        { req with
          RequestedDays :=
            if ∃ lv ∈ req.RequestedDays, lv.LeaveDate.Equal ((parseDate p0).getD zeroTime) then
              req.RequestedDays.map (editDay ((parseDate p0).getD zeroTime) code (D.ParseFloat p2))
            else
              req.RequestedDays ++
                [⟨0, (parseDate p0).getD zeroTime, code, D.ParseFloat p2, "", req.ID⟩] },
        message) := by
  have hf : toLower "day" = "day" := by decide
  unfold updateOne
  simp only [hf, hs]
  by_cases h : ∃ lv ∈ req.RequestedDays, lv.LeaveDate.Equal ((parseDate p0).getD zeroTime)
  · obtain ⟨h1, h2⟩ := dayLoop_some req.RequestedDays _ code (D.ParseFloat p2) h
    rw [if_pos h]
    simp [h1, h2]
  · have hn : ∀ lv ∈ req.RequestedDays,
        ¬ lv.LeaveDate.Equal ((parseDate p0).getD zeroTime) := by
      intro lv hlv hd
      exact h ⟨lv, hlv, hd⟩
    rw [if_neg h, dayLoop_none req.RequestedDays _ code (D.ParseFloat p2) hn]
    simp

/-- Field `day` with a value of three parts: no error, no message, and the employee
keeps every field but the requests; a request of another id is unchanged, a request of
the id keeps every field but its days, which are edited as `updateOne_day` says. The
appended day is not sorted into place. -/
theorem day_edit (D : Deps) (e : Employee) (request value : String) (offset : ℚ) (now : Time)
    (p0 code p2 : String) (rest : List String)
    (hs : splitBar value = p0 :: code :: p2 :: rest) :
    (e.UpdateLeaveRequest D request "day" value offset now).err = none ∧
      (e.UpdateLeaveRequest D request "day" value offset now).message = "" ∧
      (e.UpdateLeaveRequest D request "day" value offset now).e =
        { e.ConvertFromData with
          Requests := e.ConvertFromData.Requests.map fun r =>
            if r.ID = request then
              { r with
                RequestedDays :=
                  if ∃ lv ∈ r.RequestedDays,
                      lv.LeaveDate.Equal ((parseDate p0).getD zeroTime) then
                    r.RequestedDays.map
                      (editDay ((parseDate p0).getD zeroTime) code (D.ParseFloat p2))
                  else
                    r.RequestedDays ++
                      [⟨0, (parseDate p0).getD zeroTime, code, D.ParseFloat p2, "", r.ID⟩] }
            else r } := by
  obtain ⟨h1, h2, h3⟩ := updateLoop_pure D request "day" value offset now _
    (fun e2 req msg => updateOne_day D e2 req value offset now msg p0 code p2 rest hs)
    e.ConvertFromData.Requests [] e.ConvertFromData "" none
  exact ⟨h3, h2, by simpa [Employee.UpdateLeaveRequest] using h1⟩

/-- C29: field `day` for a date that the request has no day of appends the new day at
the end of the requested days and does not sort. On the request for Friday 2024-03-08 to
Monday 2024-03-11, whose days are the Friday and the Monday, the value
`2024-03-09|V|8` leaves the days in the order Friday, Monday, Saturday: not ordered by
date. The new day carries the code and the hours, ID 0 and an empty status. -/
theorem C29_day_edit_appends_out_of_order :
    (empWeekendRequest.Requests.map fun r => r.RequestedDays) =
      [[⟨0, Time.Date 2024 3 8, "V", 8, "DRAFT", "r9"⟩,
        ⟨0, Time.Date 2024 3 11, "V", 8, "DRAFT", "r9"⟩]] ∧
    (empWeekendRequest.UpdateLeaveRequest specDeps "r9" "day" "2024-03-09|V|8" 0 5).err = none ∧
    ((empWeekendRequest.UpdateLeaveRequest specDeps "r9" "day" "2024-03-09|V|8" 0 5).e.Requests.map
        fun r => r.RequestedDays) =
      [[⟨0, Time.Date 2024 3 8, "V", 8, "DRAFT", "r9"⟩,
        ⟨0, Time.Date 2024 3 11, "V", 8, "DRAFT", "r9"⟩,
        ⟨0, Time.Date 2024 3 9, "V", 8, "", "r9"⟩]] ∧
    Time.Date 2024 3 9 < Time.Date 2024 3 11 := by
  decide!

/-- With a request id that no request carries, `UpdateLeaveRequest` returns an empty
message, a nil request and a nil error, and the employee is as it was. -/
theorem unknown_request (D : Deps) (e : Employee) (request field value : String)
    (offset : ℚ) (now : Time) (h : ∀ r ∈ e.ConvertFromData.Requests, r.ID ≠ request) :
    e.UpdateLeaveRequest D request field value offset now =
      { e := e.ConvertFromData, message := "", lr := none, err := none } := by
  unfold Employee.UpdateLeaveRequest
  simp only []
  rw [updateLoop_absent D request field value offset now _ [] _ "" none h]
  simp

theorem updateOne_unknown (D : Deps) (e : Employee) (req : LeaveRequest) (field value : String)
    (offset : ℚ) (now : Time) (message : String) (h : toLower field ∉ knownFields) :
    updateOne D e req field value offset now message = .ok (e, req, message) := by
  simp only [knownFields, List.mem_cons, List.mem_singleton, List.not_mem_nil, or_false,
    not_or] at h
  unfold updateOne
  simp [h]

/-- With a field that is no label of the `switch`, `UpdateLeaveRequest` returns an
empty message and a nil error, and the employee is as it was. -/
theorem unknown_field (D : Deps) (e : Employee) (request field value : String)
    (offset : ℚ) (now : Time) (h : toLower field ∉ knownFields) :
    (e.UpdateLeaveRequest D request field value offset now).err = none ∧
      (e.UpdateLeaveRequest D request field value offset now).message = "" ∧
      (e.UpdateLeaveRequest D request field value offset now).e = e.ConvertFromData := by
  obtain ⟨h1, h2, h3⟩ := updateLoop_pure D request field value offset now id
    (fun e2 req msg => updateOne_unknown D e2 req field value offset now msg h)
    e.ConvertFromData.Requests [] e.ConvertFromData "" none
  refine ⟨h3, h2, ?_⟩
  unfold Employee.UpdateLeaveRequest
  simp only []
  rw [h1]
  simp

/-- C30: `UpdateLeaveRequest` returns a nil error for a request id that no request of
the employee carries, and for a field name that the `switch` does not know. On the
employee of the scenario, whose only request is `r1`, the call for the request `zz`
and the call for the field `colour` both return no error and an empty message and
leave the employee as it was. -/
theorem C30_unknown_id_or_field_is_no_error :
    (∀ r ∈ empRequested.Requests, r.ID ≠ "zz") ∧
      (empRequested.UpdateLeaveRequest specDeps "zz" "approve" "boss" 0 5).err = none ∧
      (empRequested.UpdateLeaveRequest specDeps "zz" "approve" "boss" 0 5).message = "" ∧
      (empRequested.UpdateLeaveRequest specDeps "zz" "approve" "boss" 0 5).lr = none ∧
      (empRequested.UpdateLeaveRequest specDeps "zz" "approve" "boss" 0 5).e = empRequested ∧
    toLower "colour" ∉ knownFields ∧
      (empRequested.UpdateLeaveRequest specDeps "r1" "colour" "blue" 0 5).err = none ∧
      (empRequested.UpdateLeaveRequest specDeps "r1" "colour" "blue" 0 5).message = "" ∧
      (empRequested.UpdateLeaveRequest specDeps "r1" "colour" "blue" 0 5).e = empRequested := by
  decide!

/-! ## Malformed values -/

/-- When the `switch` fails on every request, a call that meets a request of the id
returns the fault with an empty message and a nil request, and stores nothing. -/
theorem updateLoop_error (D : Deps) (request field value : String) (offset : ℚ) (now : Time)
    (f : Fault)
    (hstep : ∀ e req msg, updateOne D e req field value offset now msg = .error f)
    (todo done : List LeaveRequest) (e : Employee) (msg : String) (lr : Option LeaveRequest)
    (hex : ∃ r ∈ todo, r.ID = request) :
    updateLoop D request field value offset now done todo e msg lr =
      { e := { e with Requests := done ++ todo }, message := "", lr := none, err := some f } := by
  induction todo generalizing done with
  | nil => obtain ⟨r, hr, _⟩ := hex; cases hr
  | cons req rest ih =>
    by_cases hid : req.ID = request
    · rw [updateLoop, if_pos hid, hstep]
    · have hex2 : ∃ r ∈ rest, r.ID = request := by
        obtain ⟨r, hr, hrid⟩ := hex
        rcases List.mem_cons.mp hr with rfl | hr
        · exact absurd hrid hid
        · exact ⟨r, hr, hrid⟩
      rw [updateLoop, if_neg hid, ih _ hex2]
      simp

theorem updateOne_bad_date (D : Deps) (e : Employee) (req : LeaveRequest) (field value : String)
    (offset : ℚ) (now : Time) (message : String)
    (hf : toLower field = "startdate" ∨ toLower field = "start" ∨ toLower field = "enddate" ∨
      toLower field = "end")
    (hparse : parseDate value = none) :
    updateOne D e req field value offset now message = .error (.error "parsing time") := by
  unfold updateOne
  rcases hf with h | h | h | h <;> simp [h, hparse]

theorem updateOne_bad_dates (D : Deps) (e : Employee) (req : LeaveRequest) (value : String)
    (offset : ℚ) (now : Time) (message : String) (p0 : String) (ps : List String)
    (hs : splitBar value = p0 :: ps) (hparse : parseDate p0 = none) :
    updateOne D e req "dates" value offset now message = .error (.error "parsing time") := by
  have hf : toLower "dates" = "dates" := by decide
  unfold updateOne
  simp [hf, hs, hparse]

/-- With a field of the start or the end date and a value that is no date, a call on an
existing request returns the parse error and leaves the employee as it was; so does
field `dates` when the first part of the value is no date. -/
theorem bad_date_is_returned (D : Deps) (e : Employee) (request field value : String)
    (offset : ℚ) (now : Time)
    (hex : ∃ r ∈ e.ConvertFromData.Requests, r.ID = request) :
    ((toLower field = "startdate" ∨ toLower field = "start" ∨ toLower field = "enddate" ∨
        toLower field = "end") → parseDate value = none →
      e.UpdateLeaveRequest D request field value offset now =
        { e := e.ConvertFromData, message := "", lr := none,
          err := some (.error "parsing time") }) ∧
    (∀ p0 ps, splitBar value = p0 :: ps → parseDate p0 = none →
      e.UpdateLeaveRequest D request "dates" value offset now =
        { e := e.ConvertFromData, message := "", lr := none,
          err := some (.error "parsing time") }) := by
  refine ⟨?_, ?_⟩
  · intro hf hparse
    unfold Employee.UpdateLeaveRequest
    simp only []
    rw [updateLoop_error D request field value offset now _
      (fun e2 req msg => updateOne_bad_date D e2 req field value offset now msg hf hparse)
      _ [] _ "" none hex]
    simp
  · intro p0 ps hs hparse
    unfold Employee.UpdateLeaveRequest
    simp only []
    rw [updateLoop_error D request "dates" value offset now _
      (fun e2 req msg => updateOne_bad_dates D e2 req value offset now msg p0 ps hs hparse)
      _ [] _ "" none hex]
    simp

/-- C31: field `day` with a value whose date part is no date returns no error: the
parse error is dropped and a day dated with the zero time is appended to the request.
Field `dates` with a single date and field `day` with a single part index the missing
part and panic. All three on the request `r1` of the scenario. -/
theorem C31_bad_day_value_is_not_an_error :
    parseDate "someday" = none ∧
      (empRequested.UpdateLeaveRequest specDeps "r1" "day" "someday|V|8" 0 5).err = none ∧
      ((empRequested.UpdateLeaveRequest specDeps "r1" "day" "someday|V|8" 0 5).e.Requests.map
          fun r => r.RequestedDays.drop 5) =
        [[⟨0, zeroTime, "V", 8, "", "r1"⟩]] ∧
      (empRequested.Requests.map fun r => r.RequestedDays.length) = [5] ∧
    (empRequested.UpdateLeaveRequest specDeps "r1" "dates" "2024-03-04" 0 5).err =
        some (.panic "index out of range [1]") ∧
    (empRequested.UpdateLeaveRequest specDeps "r1" "day" "2024-03-04" 0 5).err =
        some (.panic "index out of range") := by
  decide!

/-! ## One manual entry per date and code -/

theorem manualUnique_perm {l l2 : List LeaveDay} (hp : l.Perm l2) (h : manualUnique l) :
    manualUnique l2 := by
  unfold manualUnique at *
  refine (hp.pairwise_iff ?_).mp h
  intro a b hab hb ha hc
  exact hab ha hb ⟨hc.1.symm, hc.2.symm⟩

theorem manualUnique_sublist {l l2 : List LeaveDay} (hs : l2.Sublist l) (h : manualUnique l) :
    manualUnique l2 := by
  unfold manualUnique at *
  exact h.sublist hs

/-- The method `AddLeave` keeps the invariant: it appends only when no entry has the
date and the code. -/
theorem AddLeave_keeps_manualUnique (e : Employee) (id : Int) (date : Time)
    (code status : String) (hours : ℚ) (requestID : Option String) (e2 : Employee)
    (hr : e.AddLeave id date code status hours requestID = .ok e2)
    (h : manualUnique e.ConvertFromData.Leaves) : manualUnique e2.Leaves := by
  unfold Employee.AddLeave at hr
  simp only [] at hr
  by_cases hfound : (leaveScan e.ConvertFromData.Leaves id date code).1 = true
  · simp only [hfound, Bool.not_true, Bool.false_eq_true, if_false] at hr
    injection hr with hr
    rw [← hr]
    exact h
  · have hnone : ∀ lv ∈ e.ConvertFromData.Leaves,
        ¬ (lv.LeaveDate = date ∧ EqualFold lv.Code code) := by
      intro lv hlv hm
      exact hfound (leaveScan_found _ id date code ⟨lv, hlv, hm.1, hm.2⟩)
    simp only [hfound, Bool.not_false, if_true] at hr
    cases requestID with
    | none => simp at hr
    | some rid =>
      simp only [] at hr
      injection hr with hr
      rw [← hr]
      refine manualUnique_perm (List.perm_insertionSort _ _).symm ?_
      unfold manualUnique at *
      rw [List.pairwise_append]
      refine ⟨h, List.pairwise_singleton _ _, ?_⟩
      intro a ha b hb _ _ hc
      rw [List.mem_singleton] at hb
      subst hb
      exact hnone a ha ⟨hc.1, by rw [hc.2]; rfl⟩

theorem cut_sublist {α : Type} (l : List α) (i j : Nat) (h : i ≤ j) : (cut l i j).Sublist l := by
  have h1 : (l.take i ++ l.drop j).Sublist (l.take i ++ l.drop i) :=
    List.Sublist.append (List.Sublist.refl _) (List.drop_sublist_drop_left l h)
  rw [List.take_append_drop] at h1
  exact h1

theorem DeleteLeave_keeps_manualUnique (v : LoopVar) (e : Employee) (id : Int)
    (h : manualUnique e.ConvertFromData.Leaves) :
    manualUnique (e.DeleteLeave v id).1.Leaves := by
  unfold Employee.DeleteLeave
  simp only []
  split
  · exact manualUnique_sublist (cut_sublist _ _ _ (Nat.le_succ _)) h
  · exact h

theorem RemoveLeaves_keeps_manualUnique (e : Employee) (start stop : Time)
    (h : manualUnique e.ConvertFromData.Leaves) :
    manualUnique (e.RemoveLeaves start stop).Leaves := by
  rw [RemoveLeaves_eq]
  exact manualUnique_sublist (List.filter_sublist _)
    (manualUnique_perm (List.perm_insertionSort _ _).symm h)

theorem DeleteLeavesBetweenDates_keeps_manualUnique (e : Employee) (start stop : Time)
    (h : manualUnique e.ConvertFromData.Leaves) :
    manualUnique (e.DeleteLeavesBetweenDates start stop).Leaves := by
  rw [DeleteLeavesBetweenDates_eq]
  exact manualUnique_sublist (List.filter_sublist _) h

/-- C32: `UpdateLeave` does not keep the invariant. On a ledger with the manual entries
1 (2024-03-04, `V`) and 2 (2024-03-05, `V`), which satisfies it, the call
`UpdateLeave(2, "date", "03/04/2024")` returns no error and leaves two manual entries
of 2024-03-04 and code `V`. -/
theorem C32_update_leave_breaks_uniqueness :
    manualUnique empManual.ConvertFromData.Leaves ∧
      (empManual.UpdateLeave specParseHours 2 "date" "03/04/2024").2 =
        .ok (some ⟨2, Time.Date 2024 3 5, "V", 8, "APPROVED", ""⟩) ∧
      (empManual.UpdateLeave specParseHours 2 "date" "03/04/2024").1.Leaves =
        [⟨1, Time.Date 2024 3 4, "V", 8, "APPROVED", ""⟩,
         ⟨2, Time.Date 2024 3 4, "V", 8, "APPROVED", ""⟩] ∧
      ¬ manualUnique (empManual.UpdateLeave specParseHours 2 "date" "03/04/2024").1.Leaves := by
  decide!

/-! ## What the operations do to the work history and to the payload -/

theorem AddAssignment_frame (e : Employee) (site wkctr : String) (start : Time) :
    (e.AddAssignment site wkctr start).Work = e.Work ∧
      (e.AddAssignment site wkctr start).Data = none := by
  unfold Employee.AddAssignment
  exact ⟨convert_work e, convert_data e⟩

theorem RemoveAssignment_frame (e : Employee) (id : Nat) (e2 : Employee)
    (h : e.RemoveAssignment id = .ok e2) : e2.Work = e.Work ∧ e2.Data = none := by
  unfold Employee.RemoveAssignment at h
  simp only [] at h
  repeat' split at h
  all_goals
    first
    | (injection h with h; rw [← h]; exact ⟨convert_work e, convert_data e⟩)
    | cases h

theorem PurgeOldData_frame (e : Employee) (date : Time) :
    (e.PurgeOldData date).1.Work = e.Work ∧ (e.PurgeOldData date).1.Data = none := by
  unfold Employee.PurgeOldData
  simp only []
  split <;> exact ⟨convert_work e, convert_data e⟩

theorem CreateLeaveBalance_frame (e : Employee) (year : Int) :
    (e.CreateLeaveBalance year).Work = e.Work ∧ (e.CreateLeaveBalance year).Data = none := by
  unfold Employee.CreateLeaveBalance
  simp only []
  split <;> exact ⟨convert_work e, convert_data e⟩

theorem UpdateAnnualLeave_frame (e : Employee) (year : Int) (annual carry : ℚ) :
    (e.UpdateAnnualLeave year annual carry).Work = e.Work ∧
      (e.UpdateAnnualLeave year annual carry).Data = none := by
  unfold Employee.UpdateAnnualLeave
  simp only []
  split <;> exact ⟨convert_work e, convert_data e⟩

theorem AddLeave_frame (e : Employee) (id : Int) (date : Time) (code status : String)
    (hours : ℚ) (requestID : Option String) (e2 : Employee)
    (h : e.AddLeave id date code status hours requestID = .ok e2) :
    e2.Work = e.Work ∧ e2.Data = none := by
  unfold Employee.AddLeave at h
  simp only [] at h
  repeat' split at h
  all_goals
    first
    | (injection h with h; rw [← h]; exact ⟨convert_work e, convert_data e⟩)
    | cases h

theorem UpdateLeave_frame (parseHours : String → Option ℚ) (e : Employee) (id : Int)
    (field value : String) :
    (e.UpdateLeave parseHours id field value).1.Work = e.Work ∧
      (e.UpdateLeave parseHours id field value).1.Data = none := by
  unfold Employee.UpdateLeave
  exact ⟨convert_work e, convert_data e⟩

theorem DeleteLeave_frame (v : LoopVar) (e : Employee) (id : Int) :
    (e.DeleteLeave v id).1.Work = e.Work ∧ (e.DeleteLeave v id).1.Data = none := by
  unfold Employee.DeleteLeave
  simp only []
  split <;> exact ⟨convert_work e, convert_data e⟩

theorem RemoveLeaves_frame (e : Employee) (start stop : Time) :
    (e.RemoveLeaves start stop).Work = e.Work ∧ (e.RemoveLeaves start stop).Data = none := by
  rw [RemoveLeaves_eq]
  exact ⟨convert_work e, convert_data e⟩

theorem DeleteLeavesBetweenDates_frame (e : Employee) (start stop : Time) :
    (e.DeleteLeavesBetweenDates start stop).Work = e.Work ∧
      (e.DeleteLeavesBetweenDates start stop).Data = none := by
  rw [DeleteLeavesBetweenDates_eq]
  exact ⟨convert_work e, convert_data e⟩

theorem DeleteLeaveRequest_frame (e : Employee) (request : String) :
    (e.DeleteLeaveRequest request).1.Work = e.Work ∧
      (e.DeleteLeaveRequest request).1.Data = none := by
  unfold Employee.DeleteLeaveRequest
  simp only []
  split <;> exact ⟨convert_work e, convert_data e⟩

theorem ChangeApprovedLeaveDates_frame (e : Employee) (lr : LeaveRequest) :
    (e.ChangeApprovedLeaveDates lr).Work = e.Work ∧
      (e.ChangeApprovedLeaveDates lr).Data = none := by
  unfold Employee.ChangeApprovedLeaveDates
  exact ⟨convert_work e, convert_data e⟩

theorem NewLeaveRequest_frame (S : Sched) (e : Employee) (empID code : String)
    (start stop : Time) (offset : ℚ) (newID : String) (now : Time) (e2 : Employee)
    (h : e.NewLeaveRequest S empID code start stop offset newID now = some (.ok e2)) :
    e2.Work = e.Work ∧ e2.Data = none := by
  unfold Employee.NewLeaveRequest at h
  simp only [] at h
  repeat' split at h
  all_goals
    first
    | (injection h with h; injection h with h; rw [← h];
       exact ⟨convert_work e, convert_data e⟩)
    | cases h

theorem dateChange_frame (D : Deps) (e : Employee) (req : LeaveRequest) (outside : Bool)
    (what : String) (start stop : Time) (offset : ℚ) (message : String) :
    (dateChange D e req outside what start stop offset message).1.Work = e.Work ∧
      (e.Data = none →
        (dateChange D e req outside what start stop offset message).1.Data = none) := by
  unfold dateChange
  simp only []
  cases outside <;> simp only [Bool.false_eq_true, if_false, if_true] <;> split <;>
    first
    | exact ⟨(ChangeApprovedLeaveDates_frame _ _).1, fun _ => (ChangeApprovedLeaveDates_frame _ _).2⟩
    | exact ⟨rfl, fun h => h⟩

theorem updateOne_frame (D : Deps) (e : Employee) (req : LeaveRequest) (field value : String)
    (offset : ℚ) (now : Time) (message : String) (r : Employee × LeaveRequest × String)
    (h : updateOne D e req field value offset now message = .ok r) :
    r.1.Work = e.Work ∧ (e.Data = none → r.1.Data = none) := by
  unfold updateOne at h
  simp only [] at h
  repeat' split at h
  all_goals
    first
    | (injection h with h; rw [← h]; exact dateChange_frame D e req _ _ _ _ offset message)
    | (injection h with h; rw [← h];
       exact ⟨(ChangeApprovedLeaveDates_frame _ _).1,
         fun _ => (ChangeApprovedLeaveDates_frame _ _).2⟩)
    | (injection h with h; rw [← h]; exact ⟨rfl, fun hd => hd⟩)
    | cases h

/-- A property of the employee that the `switch` keeps, and that does not depend on
the requests, holds of the employee that `UpdateLeaveRequest` leaves behind. -/
theorem updateLoop_inv (D : Deps) (request field value : String) (offset : ℚ) (now : Time)
    (I : Employee → Prop) (hI : ∀ e l, I e → I { e with Requests := l })
    (hstep : ∀ e req msg r, I e → updateOne D e req field value offset now msg = .ok r → I r.1)
    (todo done : List LeaveRequest) (e : Employee) (msg : String) (lr : Option LeaveRequest)
    (he : I e) : I (updateLoop D request field value offset now done todo e msg lr).e := by
  induction todo generalizing done e msg lr with
  | nil => simpa [updateLoop] using hI e done he
  | cons req rest ih =>
    by_cases hid : req.ID = request
    · rw [updateLoop, if_pos hid]
      cases hr : updateOne D { e with Requests := done ++ req :: rest } req field value offset
          now msg with
      | error f => exact hI e _ he
      | ok r => exact ih _ _ _ _ (hstep _ req msg r (hI e _ he) hr)
    · rw [updateLoop, if_neg hid]
      exact ih _ _ _ _ he

theorem UpdateLeaveRequest_frame (D : Deps) (e : Employee) (request field value : String)
    (offset : ℚ) (now : Time) :
    (e.UpdateLeaveRequest D request field value offset now).e.Work = e.Work ∧
      (e.UpdateLeaveRequest D request field value offset now).e.Data = none := by
  have h := updateLoop_inv D request field value offset now
    (fun x => x.Work = e.Work ∧ x.Data = none) (fun _ _ hx => hx)
    (fun x req msg r hx hr =>
      ⟨(updateOne_frame D x req field value offset now msg r hr).1.trans hx.1,
        (updateOne_frame D x req field value offset now msg r hr).2 hx.2⟩)
    e.ConvertFromData.Requests [] e.ConvertFromData "" none ⟨convert_work e, convert_data e⟩
  exact h

theorem GetLastWorkday_work (e : Employee) :
    (e.GetLastWorkday).1.Work = sortByWork e.Work ∧ (e.GetLastWorkday).1.Work.Perm e.Work ∧
      (e.GetLastWorkday).1.Data = none := by
  unfold Employee.GetLastWorkday
  simp only [convert_work]
  exact ⟨trivial, List.perm_insertionSort _ _, convert_data e⟩

theorem GetForecastHours_work (S : Sched) (e : Employee) (lCode : LaborCode)
    (start stop : Time) (workcodes : List EmployeeCompareCode) (offset : ℚ) :
    (e.GetForecastHours S lCode start stop workcodes offset).1.Work.Perm e.Work ∧
      (e.GetForecastHours S lCode start stop workcodes offset).1.Data = none := by
  unfold Employee.GetForecastHours
  simp only []
  split
  · exact ⟨by rw [convert_work], convert_data e⟩
  · split
    · exact ⟨by rw [convert_work], convert_data e⟩
    · refine ⟨?_, convert_data e⟩
      simp only [convert_work]
      split
      · exact List.perm_insertionSort _ _
      · exact List.Perm.refl _

theorem AddContactInfo_frame (e : Employee) (typeID : Int) (value : String) (sortid : Int) :
    (e.AddContactInfo typeID value sortid).Work = e.Work ∧
      (e.AddContactInfo typeID value sortid).Data = e.Data := by
  unfold Employee.AddContactInfo
  simp only []
  split <;> exact ⟨rfl, rfl⟩

/-- C33: the work history keeps its entries, each unmodified, through every operation,
but not always its order. `GetLastWorkday` sorts it in place, and `GetForecastHours`
does so past its early returns: afterwards it is a permutation of what it was. The
expansion of the payload, which is all that `GetWorkday` writes, and the operations on
assignments, balances, ledger, requests and contacts leave it unchanged as a sequence;
`GetWorkedHours` writes nothing. -/
theorem C33_work_kept_up_to_order (S : Sched) (D : Deps) (parseHours : String → Option ℚ)
    (e : Employee) :
    ((e.GetLastWorkday).1.Work = sortByWork e.Work ∧ (e.GetLastWorkday).1.Work.Perm e.Work) ∧
    (∀ lCode start stop workcodes offset,
      (e.GetForecastHours S lCode start stop workcodes offset).1.Work.Perm e.Work) ∧
    e.ConvertFromData.Work = e.Work ∧
    (∀ site wkctr start, (e.AddAssignment site wkctr start).Work = e.Work) ∧
    (∀ id e2, e.RemoveAssignment id = .ok e2 → e2.Work = e.Work) ∧
    (∀ date, (e.PurgeOldData date).1.Work = e.Work) ∧
    (∀ year, (e.CreateLeaveBalance year).Work = e.Work) ∧
    (∀ year annual carry, (e.UpdateAnnualLeave year annual carry).Work = e.Work) ∧
    (∀ id date code status hours requestID e2,
      e.AddLeave id date code status hours requestID = .ok e2 → e2.Work = e.Work) ∧
    (∀ id field value, (e.UpdateLeave parseHours id field value).1.Work = e.Work) ∧
    (∀ v id, (e.DeleteLeave v id).1.Work = e.Work) ∧
    (∀ start stop, (e.RemoveLeaves start stop).Work = e.Work ∧
      (e.DeleteLeavesBetweenDates start stop).Work = e.Work) ∧
    (∀ empID code start stop offset newID now e2,
      e.NewLeaveRequest S empID code start stop offset newID now = some (.ok e2) →
        e2.Work = e.Work) ∧
    (∀ request field value offset now,
      (e.UpdateLeaveRequest D request field value offset now).e.Work = e.Work) ∧
    (∀ request, (e.DeleteLeaveRequest request).1.Work = e.Work) ∧
    (∀ typeID value sortid, (e.AddContactInfo typeID value sortid).Work = e.Work) :=
  ⟨⟨(GetLastWorkday_work e).1, (GetLastWorkday_work e).2.1⟩,
    fun lCode start stop workcodes offset =>
      (GetForecastHours_work S e lCode start stop workcodes offset).1,
    convert_work e,
    fun site wkctr start => (AddAssignment_frame e site wkctr start).1,
    fun id e2 h => (RemoveAssignment_frame e id e2 h).1,
    fun date => (PurgeOldData_frame e date).1,
    fun year => (CreateLeaveBalance_frame e year).1,
    fun year annual carry => (UpdateAnnualLeave_frame e year annual carry).1,
    fun id date code status hours requestID e2 h =>
      (AddLeave_frame e id date code status hours requestID e2 h).1,
    fun id field value => (UpdateLeave_frame parseHours e id field value).1,
    fun v id => (DeleteLeave_frame v e id).1,
    fun start stop => ⟨(RemoveLeaves_frame e start stop).1,
      (DeleteLeavesBetweenDates_frame e start stop).1⟩,
    fun empID code start stop offset newID now e2 h =>
      (NewLeaveRequest_frame S e empID code start stop offset newID now e2 h).1,
    fun request field value offset now =>
      (UpdateLeaveRequest_frame D e request field value offset now).1,
    fun request => (DeleteLeaveRequest_frame e request).1,
    fun typeID value sortid => (AddContactInfo_frame e typeID value sortid).1⟩

/-- C33, counterexample: on a work history that holds the entry of 2024-03-05 before
that of 2024-03-04, `GetLastWorkday` returns 2024-03-05 and leaves the two entries in
the other order. -/
theorem C33_counterexample :
    empWorkUnsorted.Work =
        [⟨Time.Date 2024 3 5, "c1", "x", 8⟩, ⟨Time.Date 2024 3 4, "c1", "x", 8⟩] ∧
      (empWorkUnsorted.GetLastWorkday).2 = Time.Date 2024 3 5 ∧
      (empWorkUnsorted.GetLastWorkday).1.Work =
        [⟨Time.Date 2024 3 4, "c1", "x", 8⟩, ⟨Time.Date 2024 3 5, "c1", "x", 8⟩] ∧
      (empWorkUnsorted.GetLastWorkday).1.Work ≠ empWorkUnsorted.Work := by
  decide!

/-- The forecast for a labor code that the assignment carries, over a period that the
code covers, leaves the same work history in the other order; for a labor code that no
assignment carries the call returns at once and the order is kept. -/
theorem forecast_sorts_example :
    (empLabor.GetForecastHours specSched ⟨"c1", "x", Time.Date 2024 1 1, Time.Date 2024 12 31⟩
        (Time.Date 2024 3 4) (Time.Date 2024 3 9) [⟨"D", false⟩] 0).1.Work =
      [⟨Time.Date 2024 3 4, "c1", "x", 8⟩, ⟨Time.Date 2024 3 5, "c1", "x", 8⟩] ∧
    (empLabor.GetForecastHours specSched ⟨"c1", "x", Time.Date 2024 1 1, Time.Date 2024 12 31⟩
        (Time.Date 2024 3 4) (Time.Date 2024 3 9) [⟨"D", false⟩] 0).2 = some 24 ∧
    (empLabor.GetForecastHours specSched ⟨"c2", "x", Time.Date 2024 1 1, Time.Date 2024 12 31⟩
        (Time.Date 2024 3 4) (Time.Date 2024 3 9) [⟨"D", false⟩] 0).1.Work = empLabor.Work := by
  decide!

/-! ## The collapsed payload -/

theorem convert_of_some (e : Employee) (d : EmployeeData) (h : e.Data = some d) :
    e.ConvertFromData =
      { e with
        CompanyInfo := d.CompanyInfo
        Leaves := d.Leaves
        Assignments := d.Assignments.map fun a =>
          { a with LaborCodes := a.LaborCodes ++ d.LaborCodes }
        Variations := d.Variations
        Balances := d.Balances
        Requests := d.Requests
        Data := none } := by
  unfold Employee.ConvertFromData
  rw [h]
  simp

/-- C34: `ConvertFromData` on a collapsed employee copies company info, variations,
balances, leaves and requests of the payload into the live fields, copies the
assignments with the labor codes of the payload appended to the labor codes of each,
and clears the payload; the other fields stay. On an employee without payload it
changes nothing, so it is idempotent. After each operation on assignments, balances,
ledger or requests, and after `GetLastWorkday` and `GetForecastHours`, the payload is
empty; `AddContactInfo` does not expand and leaves the payload as it is. -/
theorem C34_convert_from_data (S : Sched) (D : Deps) (parseHours : String → Option ℚ)
    (e : Employee) :
    (∀ d, e.Data = some d →
      e.ConvertFromData =
        { e with
          CompanyInfo := d.CompanyInfo
          Leaves := d.Leaves
          Assignments := d.Assignments.map fun a =>
            { a with LaborCodes := a.LaborCodes ++ d.LaborCodes }
          Variations := d.Variations
          Balances := d.Balances
          Requests := d.Requests
          Data := none } ∧
      (d.LaborCodes = [] → e.ConvertFromData.Assignments = d.Assignments)) ∧
    (e.Data = none → e.ConvertFromData = e) ∧
    e.ConvertFromData.ConvertFromData = e.ConvertFromData ∧
    e.ConvertFromData.Data = none ∧
    (∀ site wkctr start, (e.AddAssignment site wkctr start).Data = none) ∧
    (∀ id e2, e.RemoveAssignment id = .ok e2 → e2.Data = none) ∧
    (∀ date, (e.PurgeOldData date).1.Data = none) ∧
    (∀ year, (e.CreateLeaveBalance year).Data = none) ∧
    (∀ year annual carry, (e.UpdateAnnualLeave year annual carry).Data = none) ∧
    (∀ id date code status hours requestID e2,
      e.AddLeave id date code status hours requestID = .ok e2 → e2.Data = none) ∧
    (∀ id field value, (e.UpdateLeave parseHours id field value).1.Data = none) ∧
    (∀ v id, (e.DeleteLeave v id).1.Data = none) ∧
    (∀ start stop, (e.RemoveLeaves start stop).Data = none ∧
      (e.DeleteLeavesBetweenDates start stop).Data = none) ∧
    (∀ empID code start stop offset newID now e2,
      e.NewLeaveRequest S empID code start stop offset newID now = some (.ok e2) →
        e2.Data = none) ∧
    (∀ request field value offset now,
      (e.UpdateLeaveRequest D request field value offset now).e.Data = none) ∧
    (∀ request, (e.DeleteLeaveRequest request).1.Data = none) ∧
    (e.GetLastWorkday).1.Data = none ∧
    (∀ lCode start stop workcodes offset,
      (e.GetForecastHours S lCode start stop workcodes offset).1.Data = none) ∧
    (∀ typeID value sortid, (e.AddContactInfo typeID value sortid).Data = e.Data) := by
  refine ⟨?_, convert_of_none e, convert_idem e, convert_data e,
    fun site wkctr start => (AddAssignment_frame e site wkctr start).2,
    fun id e2 h => (RemoveAssignment_frame e id e2 h).2,
    fun date => (PurgeOldData_frame e date).2,
    fun year => (CreateLeaveBalance_frame e year).2,
    fun year annual carry => (UpdateAnnualLeave_frame e year annual carry).2,
    fun id date code status hours requestID e2 h =>
      (AddLeave_frame e id date code status hours requestID e2 h).2,
    fun id field value => (UpdateLeave_frame parseHours e id field value).2,
    fun v id => (DeleteLeave_frame v e id).2,
    fun start stop => ⟨(RemoveLeaves_frame e start stop).2,
      (DeleteLeavesBetweenDates_frame e start stop).2⟩,
    fun empID code start stop offset newID now e2 h =>
      (NewLeaveRequest_frame S e empID code start stop offset newID now e2 h).2,
    fun request field value offset now =>
      (UpdateLeaveRequest_frame D e request field value offset now).2,
    fun request => (DeleteLeaveRequest_frame e request).2,
    (GetLastWorkday_work e).2.2,
    fun lCode start stop workcodes offset =>
      (GetForecastHours_work S e lCode start stop workcodes offset).2,
    fun typeID value sortid => (AddContactInfo_frame e typeID value sortid).2⟩
  intro d hd
  refine ⟨convert_of_some e d hd, ?_⟩
  intro hl
  rw [convert_of_some e d hd]
  simp [hl]

/-- C34, counterexample: `AddContactInfo` on a collapsed employee leaves the payload in
place, and the expansion stores the assignment of the payload with the labor code of
the payload added, not as it was. -/
theorem C34_counterexample :
    empCollapsed.Data ≠ none ∧
      (empCollapsed.AddContactInfo 1 "555-0100" 1).Data = empCollapsed.Data ∧
      (empCollapsed.AddContactInfo 1 "555-0100" 1).ContactInfo = [⟨0, 1, 1, "555-0100"⟩] ∧
      (empCollapsed.AddContactInfo 1 "555-0100" 1).Assignments = [] ∧
    empCollapsed.ConvertFromData.Assignments =
        [⟨1, "s", "w", Time.Date 2024 1 1, sentinel, Time.Date 2024 1 1, 0, [], [⟨"c1", "x"⟩]⟩] ∧
      empCollapsed.ConvertFromData.Data = none := by
  decide!

/-! ## Assignment tests -/

theorem foldl_keep_false {α : Type} (p : α → Prop) [DecidablePred p] (l : List α)
    (h : ∀ a ∈ l, ¬ p a) :
    l.foldl (fun answer a => if p a then true else answer) false = false := by
  induction l with
  | nil => rfl
  | cons x t ih =>
    rw [List.foldl_cons, if_neg (h x (List.mem_cons_self _ _))]
    exact ih (fun a ha => h a (List.mem_cons_of_mem _ ha))

/-- The test of `IsAssigned` asks for an assignment that starts after `stop` and ends
before `start`: when `start` is not after `stop` and no assignment ends before it
starts, the answer is false whatever the site and the work center. -/
theorem IsAssigned_false (e : Employee) (site workcenter : String) (start stop : Time)
    (h : start ≤ stop) (hr : ∀ a ∈ e.ConvertFromData.Assignments, a.StartDate ≤ a.EndDate) :
    e.IsAssigned site workcenter start stop = false := by
  unfold Employee.IsAssigned
  apply foldl_keep_false
  intro a ha hc
  have h1 := hr a ha
  obtain ⟨_, _, h2, h3⟩ := hc
  simp only [Time.After, Time.Before, Time] at *
  omega

/-- C35: `IsAssigned` returns false for an assignment that overlaps the period. The
employee assigned to site `s`, work center `w` from 2024-01-01 with an open end is not
reported as assigned there for 2024-03-04..2024-03-08, nor on the single day
2024-03-04; `AtSite` reports the employee at the site for the same period. -/
theorem C35_is_assigned_misses_overlap :
    (empAssigned.Assignments.map fun a => (a.Site, a.Workcenter, a.StartDate, a.EndDate)) =
        [("s", "w", Time.Date 2024 1 1, sentinel)] ∧
      Time.Date 2024 1 1 ≤ Time.Date 2024 3 8 ∧ Time.Date 2024 3 4 ≤ sentinel ∧
      empAssigned.IsAssigned "s" "w" (Time.Date 2024 3 4) (Time.Date 2024 3 8) = false ∧
      empAssigned.IsAssigned "s" "w" (Time.Date 2024 3 4) (Time.Date 2024 3 4) = false ∧
      empAssigned.AtSite "s" (Time.Date 2024 3 4) (Time.Date 2024 3 8) = true := by
  decide!

/-! ## Moving a reading day -/

/-- C36: `UpdateReadingDay(day, id, "sort", "down")` on a day that is not the last and
not the one before the last does more than one exchange. Once the number has moved to
the next entry the loop goes on, meets the number again there and moves it once more,
up to the last entry. On the days 1, 2, 3 the call for day 1 leaves the numbers
2, 3, 1, where one exchange gives 2, 1, 3; no error is returned. -/
theorem C36_sort_down_cascades :
    (periodThree.Days.map fun r => r.Day) = [1, 2, 3] ∧
      (periodThree.UpdateReadingDay keepPassage 1 0 "sort" "down").2 = none ∧
      ((periodThree.UpdateReadingDay keepPassage 1 0 "sort" "down").1.Days.map
          fun r => (r.Day, r.Passages)) =
        [(2, ["Gen 1"]), (3, ["Gen 2"]), (1, ["Gen 3"])] ∧
      ((periodThree.UpdateReadingDay keepPassage 1 0 "sort" "down").1.Days.map fun r => r.Day) ≠
        [2, 1, 3] := by
  decide!

/-- The other moves on the same period: `down` on the day before the last and `up` on
any day but the first exchange two neighbours; `up` on the first day and `down` on the
last change nothing. -/
theorem sort_moves_example :
    ((periodThree.UpdateReadingDay keepPassage 2 0 "sort" "down").1.Days.map fun r => r.Day) =
        [1, 3, 2] ∧
      ((periodThree.UpdateReadingDay keepPassage 2 0 "sort" "up").1.Days.map fun r => r.Day) =
        [2, 1, 3] ∧
      ((periodThree.UpdateReadingDay keepPassage 3 0 "sort" "up").1.Days.map fun r => r.Day) =
        [1, 3, 2] ∧
      ((periodThree.UpdateReadingDay keepPassage 1 0 "sort" "up").1.Days.map fun r => r.Day) =
        [1, 2, 3] ∧
      ((periodThree.UpdateReadingDay keepPassage 3 0 "sort" "down").1.Days.map fun r => r.Day) =
        [1, 2, 3] ∧
      (periodThree.UpdateReadingDay keepPassage 4 0 "sort" "up").2 =
        some (.error "plan day not found") ∧
      (periodThree.UpdateReadingDay keepPassage 0 0 "sort" "up").2 =
        some (.error "day can't be zero") := by
  decide!

/-! ## Ordering holidays -/

theorem holidayLess_irrefl (a : CompanyHoliday) : holidayLess a a = false := by
  unfold holidayLess
  simp

/-- Two holidays are never each less than the other unless their codes differ and both
are `H` up to case. -/
theorem holidayLess_asymm (a b : CompanyHoliday)
    (h : a.Code = b.Code ∨ ¬ EqualFold a.Code "H" ∨ ¬ EqualFold b.Code "H") :
    ¬ (holidayLess a b = true ∧ holidayLess b a = true) := by
  unfold holidayLess
  by_cases hc : a.Code = b.Code
  · simp only [hc, if_true, decide_eq_true_eq]
    omega
  · have hc2 : ¬ b.Code = a.Code := fun h2 => hc h2.symm
    simp only [hc, hc2, if_false, decide_eq_true_eq]
    rcases h with h | h | h
    · exact absurd h hc
    · exact fun hh => h hh.1
    · exact fun hh => h hh.2

/-- C37: `ByCompanyHoliday.Less` is not asymmetric. The codes are compared exactly in
the first test and up to case in the second, so for a holiday of code `H` and one of
code `h` both `Less(0, 1)` and `Less(1, 0)` are true. `Less(i, i)` is false. -/
theorem C37_less_is_not_asymmetric :
    ByCompanyHoliday.Less [⟨"H", "New Year", 1, []⟩, ⟨"h", "Floating", 2, []⟩] 0 1 = .ok true ∧
      ByCompanyHoliday.Less [⟨"H", "New Year", 1, []⟩, ⟨"h", "Floating", 2, []⟩] 1 0 = .ok true ∧
      ByCompanyHoliday.Less [⟨"H", "New Year", 1, []⟩, ⟨"h", "Floating", 2, []⟩] 0 0 = .ok false ∧
      ByCompanyHoliday.Less [⟨"H", "New Year", 1, []⟩, ⟨"h", "Floating", 2, []⟩] 1 1 =
        .ok false := by
  decide!

/-! ## Matching a book by a prefix of its title -/

/-- C38: `IsBook` with a name longer than the title does not return false: the slice
`b.Title[:len(name)]` is out of range and the call panics. So for the book `Job` and
the name `Joshua`; for the names `jo` and `Job` the call returns true, for `Ju` false. -/
theorem C38_longer_name_panics :
    byteLen "Joshua" = 6 ∧ byteLen "Job" = 3 ∧
      BibleBook.IsBook ⟨18, "job", "Job", []⟩ "Joshua" =
        .error (.panic "slice bounds out of range") ∧
      BibleBook.IsBook ⟨18, "job", "Job", []⟩ "jo" = .ok true ∧
      BibleBook.IsBook ⟨18, "job", "Job", []⟩ "Job" = .ok true ∧
      BibleBook.IsBook ⟨18, "job", "Job", []⟩ "Ju" = .ok false := by
  decide!

theorem readingLoop_pass
    (upd : ReadingDay → Int → String → String → Except String ReadingDay)
    (day id : Int) (field value : String) (n d : Nat) (days : List ReadingDay) (found : Bool)
    (x : ReadingDay) (hx : days.get? d = some x) (hne : x.Day ≠ day) :
    readingLoop upd day id field value (n + 1) d days found =
      readingLoop upd day id field value n (d + 1) days found := by
  rw [readingLoop]
  simp only [hx, if_neg hne]

theorem readingLoop_skip
    (upd : ReadingDay → Int → String → String → Except String ReadingDay)
    (day id : Int) (field value : String) (n d : Nat) (days : List ReadingDay) (found : Bool)
    (h : ∀ i x, d ≤ i → days.get? i = some x → x.Day ≠ day) :
    readingLoop upd day id field value n d days found = (days, found, none) := by
  induction n generalizing d with
  | zero => rfl
  | succ n ih =>
    cases hx : days.get? d with
    | none =>
      rw [readingLoop]
      simp only [hx]
    | some x =>
      rw [readingLoop_pass upd day id field value n d days found x hx (h d x (le_refl _) hx)]
      exact ih (d + 1) (fun i y hi hy => h i y (by omega) hy)

theorem readingLoop_advance
    (upd : ReadingDay → Int → String → String → Except String ReadingDay)
    (day id : Int) (field value : String) (pre : List ReadingDay) (rest : List ReadingDay)
    (n : Nat) (found : Bool) (done : List ReadingDay)
    (h : ∀ x ∈ pre, x.Day ≠ day) :
    readingLoop upd day id field value (n + pre.length) done.length (done ++ pre ++ rest) found =
      readingLoop upd day id field value n (done.length + pre.length) (done ++ pre ++ rest)
        found := by
  induction pre generalizing done n with
  | nil => simp
  | cons x t ih =>
    have hx : (done ++ x :: t ++ rest).get? done.length = some x := by
      rw [List.append_assoc, List.get?_eq_getElem?, List.getElem?_append_right (le_refl _)]
      simp
    have e1 : n + (x :: t).length = (n + t.length) + 1 := by simp; omega
    rw [e1, readingLoop_pass upd day id field value _ _ _ found x hx
      (h x (List.mem_cons_self _ _))]
    have e2 : done ++ x :: t ++ rest = (done ++ [x]) ++ t ++ rest := by simp
    have e3 : done.length + 1 = (done ++ [x]).length := by simp
    rw [e2, e3, ih n (done ++ [x]) (fun y hy => h y (List.mem_cons_of_mem _ hy))]
    have e4 : (done ++ [x]).length + t.length = done.length + (x :: t).length := by
      simp only [List.length_append, List.length_cons, List.length_nil]
      omega
    rw [e4]

theorem set_mid {α : Type} (pre : List α) (x y : α) (post : List α) :
    (pre ++ x :: post).set pre.length y = pre ++ y :: post := by
  induction pre with
  | nil => rfl
  | cons z t ih => simp [ih]

theorem get?_mid {α : Type} (pre : List α) (x : α) (post : List α) :
    (pre ++ x :: post).get? pre.length = some x := by
  induction pre with
  | nil => rfl
  | cons z t ih => simpa using ih

/-- Field `sort` with the value `up` on a day that is not the first: when the number
occurs once in the sorted days, the entry and the one before it exchange their numbers
and every other entry is as it was. -/
theorem up_exchanges_neighbours
    (upd : ReadingDay → Int → String → String → Except String ReadingDay)
    (m : ReadingPeriod) (day id : Int) (field value : String)
    (pre : List ReadingDay) (p r : ReadingDay) (post : List ReadingDay)
    (hday : day ≠ 0) (hf : toLower field = "sort") (hv : toLower value = "up")
    (hs : sortByReadingDay m.Days = pre ++ p :: r :: post) (hr : r.Day = day)
    (hpre : ∀ x ∈ pre, x.Day ≠ day) (hp : p.Day ≠ day) (hpost : ∀ x ∈ post, x.Day ≠ day) :
    m.UpdateReadingDay upd day id field value =
      ({ m with Days := pre ++ { p with Day := r.Day } :: { r with Day := p.Day } :: post },
        none) := by
  have hloop : readingLoop upd day id field value (pre ++ p :: r :: post).length 0
      (pre ++ p :: r :: post) false =
      (pre ++ { p with Day := r.Day } :: { r with Day := p.Day } :: post, true, none) := by
    have e1 : pre ++ p :: r :: post = ([] : List ReadingDay) ++ (pre ++ [p]) ++ r :: post := by
      simp
    have e2 : (pre ++ p :: r :: post).length = (post.length + 1) + (pre ++ [p]).length := by
      simp only [List.length_append, List.length_cons, List.length_nil]
      omega
    have hpp : ∀ x ∈ pre ++ [p], x.Day ≠ day := by
      intro x hx
      rcases List.mem_append.mp hx with h | h
      · exact hpre x h
      · rw [List.mem_singleton] at h
        rw [h]
        exact hp
    have hadv := readingLoop_advance upd day id field value (pre ++ [p]) (r :: post)
      (post.length + 1) false [] hpp
    rw [e2]
    nth_rewrite 1 [e1]
    rw [show (0 : Nat) = ([] : List ReadingDay).length from rfl, hadv]
    simp only [List.length_nil, Nat.zero_add, List.nil_append, List.length_append,
      List.length_cons, List.append_assoc, List.singleton_append]
    have hget : (pre ++ p :: r :: post).get? (pre.length + 1) = some r := by
      have := get?_mid (pre ++ [p]) r post
      simpa using this
    have hgetp : (pre ++ p :: r :: post).get? pre.length = some p := get?_mid pre p (r :: post)
    rw [readingLoop]
    simp only [hget, hr, if_true, hf, hv, true_and, Nat.add_sub_cancel, hgetp,
      if_pos (Nat.succ_pos pre.length)]
    have hset : ((pre ++ p :: r :: post).set pre.length { p with Day := day }).set
        (pre.length + 1) { r with Day := p.Day } =
        pre ++ { p with Day := day } :: { r with Day := p.Day } :: post := by
      rw [set_mid]
      simp
    rw [hset]
    apply readingLoop_skip
    intro i x hi hx
    have hmem : x ∈ post := by
      have e3 : pre ++ { p with Day := day } :: { r with Day := p.Day } :: post =
          (pre ++ [{ p with Day := day }, { r with Day := p.Day }]) ++ post := by simp
      rw [e3, List.get?_eq_getElem?, List.getElem?_append_right (by simp; omega)] at hx
      exact List.getElem?_mem hx
    exact hpost x hmem
  unfold ReadingPeriod.UpdateReadingDay
  rw [if_neg hday]
  simp only [hs, hloop]
  simp [hr]

theorem byteLen_ascii (cs : List Char) (h : ∀ c ∈ cs, c.toNat < 128) :
    byteLen ⟨cs⟩ = cs.length := by
  unfold byteLen
  induction cs with
  | nil => rfl
  | cons c t ih =>
    have hc := h c (List.mem_cons_self _ _)
    simp only [List.map_cons, List.sum_cons, List.length_cons, if_pos hc]
    rw [ih (fun x hx => h x (List.mem_cons_of_mem _ hx))]
    omega

theorem takeBytes_ascii (n : Nat) (cs : List Char) (h : ∀ c ∈ cs, c.toNat < 128) :
    takeBytes n cs = cs.take n := by
  induction cs generalizing n with
  | nil => simp [takeBytes]
  | cons c t ih =>
    have hc := h c (List.mem_cons_self _ _)
    have h1 : byteLen ⟨[c]⟩ = 1 := byteLen_ascii [c] (by simpa using hc)
    rw [takeBytes, h1]
    cases n with
    | zero => simp
    | succ k =>
      rw [if_pos (by omega), ih _ (fun x hx => h x (List.mem_cons_of_mem _ hx))]
      simp

/-- On titles and names of one-byte characters, `IsBook` panics when the name is longer
than the title, and otherwise tells whether the name is a prefix of the title up to the
case of the letters. -/
theorem IsBook_ascii (b : BibleBook) (name : String)
    (ht : ∀ c ∈ b.Title.data, c.toNat < 128) (hn : ∀ c ∈ name.data, c.toNat < 128) :
    (b.Title.length < name.length →
      b.IsBook name = .error (.panic "slice bounds out of range")) ∧
    (name.length ≤ b.Title.length →
      b.IsBook name = .ok (decide ((toLower name).data <+: (toLower b.Title).data))) := by
  have hbn : byteLen name = name.length := byteLen_ascii name.data hn
  have hbt : byteLen b.Title = b.Title.length := byteLen_ascii b.Title.data ht
  unfold BibleBook.IsBook
  simp only [hbn, hbt]
  refine ⟨fun h => by rw [if_pos h], fun h => ?_⟩
  rw [if_neg (by omega), takeBytes_ascii _ _ ht]
  congr 1
  unfold EqualFold toLower
  simp only [String.length] at h
  have key : (List.map Char.toLower (List.take name.data.length b.Title.data) =
      List.map Char.toLower name.data) ↔
      (List.map Char.toLower name.data <+: List.map Char.toLower b.Title.data) := by
    rw [List.prefix_iff_eq_take, List.length_map, List.map_take]
    exact eq_comm
  simp only [String.length, decide_eq_decide]
  constructor
  · intro h2
    exact key.mp (by simpa using congrArg String.data h2)
  · intro h2
    exact congrArg String.mk (key.mpr h2)

end Employees
